import Mathlib

/-!
# mcrecover: the GCN memory card file database (GcnMcFileDb.cpp)

A shallow embedding of `GcnMcFileDbPrivate` and of the parts of Qt and libpcre it calls,
followed by theorems about the index `addr_file_defs` that `load` builds.

* `QString` is a sequence of UTF-16 code units (`QChar::unicode()`).
* `QXmlStreamReader` is a cursor over the sequence of tokens the Qt reader reports
  for the opened file; an `Invalid` token is a parse error, and reading past the
  last token is the reader's "premature end of document" error.
* `pcre_compile` is a parameter: any function from patterns to an optional compiled
  matcher (`none` is the NULL pointer).
* `stderr` output is returned as a list of `Msg`.
* Loops are written with a fuel argument; `Fault.outOfFuel` is shown never to occur.
  The other faults are the undefined behaviours of `clear()`.
-/

namespace McRecover

/-! ## Qt strings -/

/-- A UTF-16 code unit, the value of `QChar::unicode()`. -/
abbrev QChar := Nat

/-- A Qt string: its sequence of UTF-16 code units. -/
abbrev QString := List QChar

/-- The string of a Latin-1 literal. -/
def QLatin1String (s : String) : QString := s.toList.map Char.toNat

/-- The decimal text of a number, `QString::number(n)`. -/
def QString_number (n : Nat) : QString := QLatin1String (toString n)

/-- The value of an ASCII digit or letter as a digit of a numeric literal. -/
def digitValue (c : QChar) : Option Nat :=
  if 48 ≤ c ∧ c ≤ 57 then some (c - 48)
  else if 97 ≤ c ∧ c ≤ 122 then some (c - 97 + 10)
  else if 65 ≤ c ∧ c ≤ 90 then some (c - 65 + 10)
  else none

/-- The digits `cs` read in base `base` after the value `acc`; `none` on a character
that is not a digit of that base. -/
def parseDigits (base : Nat) : List QChar → Nat → Option Nat
  | [], acc => some acc
  | c :: cs, acc =>
    match digitValue c with
    | some d => if d < base then parseDigits base cs (acc * base + d) else none
    | none => none

/-- White space as the Qt number parser skips it before and after a literal, which
is `QChar::isSpace()`: the ASCII characters 9 to 13 and 32, and the separators of
Unicode (space, line and paragraph separators): U+00A0, U+1680, U+2000 to U+200A,
U+2028, U+2029, U+202F, U+205F and U+3000. Two characters are white space for some
versions of Qt only, U+0085 (since Qt 5) and U+180E (a space separator in the tables
of Qt 4); both are counted here, so that a text which is no literal after this
trimming is no literal for any version. -/
def isSpace (c : QChar) : Bool :=
  c = 32 ∨ (9 ≤ c ∧ c ≤ 13) ∨ c = 0x85 ∨ c = 0xA0 ∨ c = 0x1680 ∨ c = 0x180E ∨
    (0x2000 ≤ c ∧ c ≤ 0x200A) ∨ c = 0x2028 ∨ c = 0x2029 ∨ c = 0x202F ∨ c = 0x205F ∨
    c = 0x3000

/-- The string without leading and trailing white space. -/
def trimmed (s : QString) : QString :=
  ((s.dropWhile isSpace).reverse.dropWhile isSpace).reverse

/-- The number a literal denotes under the C convention for base 0, after the white
space before and after it is skipped: `0x` or `0X` starts a hexadecimal literal,
another leading `0` an octal one, anything else is decimal; an optional `+` may
precede it. -/
def parseLiteral (s : QString) : Option Nat :=
  let t := trimmed s
  let u := match t with
    | 43 :: r => r
    | _ => t
  match u with
  | [] => none
  | 48 :: 120 :: r => if r = [] then none else parseDigits 16 r 0
  | 48 :: 88 :: r => if r = [] then none else parseDigits 16 r 0
  | 48 :: r => parseDigits 8 r 0
  | _ => parseDigits 10 u 0

/-- The Qt call `QString::toUInt(NULL, 0)`: the value of the literal when it is a
valid literal of at most `UINT_MAX`, and 0 when the conversion fails. -/
def toUInt (s : QString) : Nat :=
  match parseLiteral s with
  | some v => if v ≤ 4294967295 then v else 0
  | none => 0

/-! ## The XML stream reader -/

/-- The token kinds of `QXmlStreamReader::TokenType`. -/
inductive TokenType
  | NoToken | Invalid | StartDocument | EndDocument | StartElement | EndElement
  | Characters | Comment | DTD | EntityReference | ProcessingInstruction
  deriving DecidableEq, Repr

/-- One token as the reader reports it: its kind, the element name (for an
`Invalid` token: the error message), the text, and the position after it. -/
structure Token where
  type : TokenType
  name : QString := []
  text : QString := []
  lineNumber : Nat := 0
  columnNumber : Nat := 0
  deriving DecidableEq, Repr

/-- The reader: the current token and the tokens not yet read. -/
structure QXmlStreamReader where
  cur : Token
  rest : List Token
  deriving DecidableEq, Repr

namespace QXmlStreamReader

/-- A reader on a freshly opened device: nothing has been read. -/
def onDevice (doc : List Token) : QXmlStreamReader :=
  { cur := { type := .NoToken }, rest := doc }

def tokenType (xml : QXmlStreamReader) : TokenType := xml.cur.type

def name (xml : QXmlStreamReader) : QString := xml.cur.name

def lineNumber (xml : QXmlStreamReader) : Nat := xml.cur.lineNumber

def columnNumber (xml : QXmlStreamReader) : Nat := xml.cur.columnNumber

/-- An error has been raised exactly when the current token is `Invalid`. -/
def hasError (xml : QXmlStreamReader) : Bool := xml.cur.type = .Invalid

/-- The reader has read to the end of the document, or stopped on an error. -/
def atEnd (xml : QXmlStreamReader) : Bool :=
  xml.cur.type = .EndDocument ∨ xml.cur.type = .Invalid

def errorString (xml : QXmlStreamReader) : QString :=
  if xml.hasError then xml.cur.name else []

/-- Raise an error at the current position. -/
def raiseError (xml : QXmlStreamReader) (message : QString) : QXmlStreamReader :=
  { xml with cur := { type := .Invalid, name := message,
                      lineNumber := xml.cur.lineNumber,
                      columnNumber := xml.cur.columnNumber } }

/-- Read the next token. After an error the reader stays where it is; at the end
of the input it raises the premature-end error. -/
def readNext (xml : QXmlStreamReader) : QXmlStreamReader :=
  if xml.cur.type = .Invalid then xml
  else
    match xml.rest with
    | [] => xml.raiseError (QLatin1String "Premature end of document.")
    | t :: ts => { cur := t, rest := ts }

/-- The loop of `readElementText(ErrorOnUnexpectedElement)`, started on a reader
that is not in the error state: `cur` is the current token, `ts` the unread ones. -/
def readElementText_loop (cur : Token) : List Token → QString → QXmlStreamReader × QString
  | [], result =>
    ((QXmlStreamReader.mk cur []).raiseError (QLatin1String "Premature end of document."),
      result)
  | t :: ts, result =>
    match t.type with
    | .Characters => readElementText_loop t ts (result ++ t.text)
    | .EntityReference => readElementText_loop t ts (result ++ t.text)
    | .EndElement => ({ cur := t, rest := ts }, result)
    | .ProcessingInstruction => readElementText_loop t ts result
    | .Comment => readElementText_loop t ts result
    | .Invalid => ({ cur := t, rest := ts }, result)
    | _ => ((QXmlStreamReader.mk t ts).raiseError (QLatin1String "Expected character data."),
            result)

/-- The Qt call `readElementText()`: the text up to the end of the current element;
a child element raises an error. -/
def readElementText (xml : QXmlStreamReader) : QXmlStreamReader × QString :=
  if xml.tokenType = .StartElement then readElementText_loop xml.cur xml.rest []
  else (xml, [])

end QXmlStreamReader

/-! ## File definitions and the index -/

/-- A compiled regular expression (the object a non-NULL `pcre*` points to). -/
structure pcre where
  code : List Nat
  deriving DecidableEq, Repr

/-- The anonymous struct `gcn_file_def::search`. -/
structure gcn_file_def.Search where
  address : Nat := 0
  gamedesc : QString := []
  filedesc : QString := []
  gamedesc_regexp : Option pcre := none
  filedesc_regexp : Option pcre := none
  deriving DecidableEq, Repr

/-- The struct `gcn_file_def`; the defaults are what its constructor sets. -/
structure gcn_file_def where
  description : QString := []
  gamecode : QString := []
  company : QString := []
  regions : Nat := 0
  search : gcn_file_def.Search := {}
  deriving DecidableEq, Repr

def REGION_JPN : Nat := 1 <<< 0
def REGION_USA : Nat := 1 <<< 1
def REGION_EUR : Nat := 1 <<< 2
def REGION_KOR : Nat := 1 <<< 3

/-- Convert a region character to a region bitfield value, or 0 if unknown. -/
def RegionCharToBitfield (regionChr : QChar) : Nat :=
  if regionChr = 74 then REGION_JPN        -- 'J'
  else if regionChr = 69 then REGION_USA   -- 'E'
  else if regionChr = 80 then REGION_EUR   -- 'P'
  else if regionChr = 75 then REGION_KOR   -- 'K'
  else 0

/-- The map `addr_file_defs`: search address to the vector of definitions, kept in
ascending key order with one entry per key, as a `QMap` does. -/
abbrev AddrFileDefs := List (Nat × List gcn_file_def)

namespace AddrFileDefs

/-- The Qt call `QMap::value(key)`: the bucket stored for the key, `none` (the
default-constructed NULL pointer) when there is none. -/
def value : AddrFileDefs → Nat → Option (List gcn_file_def)
  | [], _ => none
  | (k, v) :: m, key => if k = key then some v else value m key

/-- The Qt call `QMap::insert(key, v)`: replace the value of an existing key, or
add the key at its place in the key order. -/
def insert : AddrFileDefs → Nat → List gcn_file_def → AddrFileDefs
  | [], key, v => [(key, v)]
  | (k, w) :: m, key, v =>
    if key < k then (key, v) :: (k, w) :: m
    else if key = k then (k, v) :: m
    else (k, w) :: insert m key v

/-- Append through the bucket pointer stored for the key: `vec->append(f)`. -/
def append : AddrFileDefs → Nat → gcn_file_def → AddrFileDefs
  | [], _, _ => []
  | (k, v) :: m, key, f =>
    if k = key then (k, v ++ [f]) :: m else (k, v) :: append m key f

/-- The Qt call `QMap::keys()`: the keys in ascending order. -/
def keys (m : AddrFileDefs) : List Nat := m.map Prod.fst

end AddrFileDefs

/-- The state of a `GcnMcFileDbPrivate` object. -/
structure GcnMcFileDbPrivate where
  addr_file_defs : AddrFileDefs := []
  errorString : QString := []
  deriving DecidableEq, Repr

/-- Ways a call can fail to return: fuel ran out (never happens, see
`load_never_outOfFuel`), or `clear()` dereferenced a NULL bucket pointer or a
bucket it had already deleted. -/
inductive Fault
  | outOfFuel | nullDeref | useAfterFree
  deriving DecidableEq, Repr

/-- The lines the code writes to `stderr`. -/
inductive Msg
  | invalidGameCode (gamecode : QString)
  | emptyRegexp
  | regexpCompileFailed (regexp : QString)
  deriving DecidableEq, Repr

/-! ## The operations of GcnMcFileDbPrivate -/

section operations

variable (pcre_compile : QString → Option pcre)

/-- Compile a pattern: the empty pattern is refused without calling the compiler;
otherwise the result is what `pcre_compile` returns (NULL when it fails). -/
def compile_regexp (regexp : QString) : Option pcre × List Msg :=
  if regexp.isEmpty then
    (none, [Msg.emptyRegexp])
  else
    let re := pcre_compile regexp
    if re.isNone then (re, [Msg.regexpCompileFailed regexp]) else (re, [])

/-- Get the text of the element the reader is on. -/
def parseXml_element (xml : QXmlStreamReader) : QXmlStreamReader × QString :=
  if xml.tokenType ≠ .StartElement then (xml, [])
  else xml.readElementText

/-- One pass through the body of the loop of `parseXml_file_search`, before
its `readNext`. -/
def parseXml_file_search_body (xml : QXmlStreamReader) (gcn_file : gcn_file_def) :
    QXmlStreamReader × gcn_file_def :=
  if xml.tokenType = .StartElement then
    if xml.name = QLatin1String "address" then
      ((parseXml_element xml).1,
        { gcn_file with search :=
            { gcn_file.search with address := toUInt (parseXml_element xml).2 } })
    else if xml.name = QLatin1String "gamedesc" then
      ((parseXml_element xml).1,
        { gcn_file with search :=
            { gcn_file.search with gamedesc := (parseXml_element xml).2 } })
    else if xml.name = QLatin1String "filedesc" then
      ((parseXml_element xml).1,
        { gcn_file with search :=
            { gcn_file.search with filedesc := (parseXml_element xml).2 } })
    else (xml, gcn_file)
  else (xml, gcn_file)

/-- The loop of `parseXml_file_search` over the children of `search`. -/
def parseXml_file_search_loop :
    Nat → QXmlStreamReader → gcn_file_def → Except Fault (QXmlStreamReader × gcn_file_def)
  | 0, _, _ => .error .outOfFuel
  | fuel + 1, xml, gcn_file =>
    if ¬ xml.hasError ∧
        ¬ (xml.tokenType = .EndElement ∧ xml.name = QLatin1String "search") then
      parseXml_file_search_loop fuel
        (parseXml_file_search_body xml gcn_file).1.readNext
        (parseXml_file_search_body xml gcn_file).2
    else .ok (xml, gcn_file)

/-- Read a `search` element into the definition, then compile its two patterns. -/
def parseXml_file_search (xml : QXmlStreamReader) (gcn_file : gcn_file_def) :
    Except Fault (QXmlStreamReader × gcn_file_def × List Msg) :=
  if xml.tokenType ≠ .StartElement ∨ xml.name ≠ QLatin1String "search" then
    .ok (xml, gcn_file, [])
  else
    match parseXml_file_search_loop (xml.rest.length + 2) xml.readNext gcn_file with
    | .error e => .error e
    | .ok (xml1, f1) =>
      let g := compile_regexp pcre_compile f1.search.gamedesc
      let f := compile_regexp pcre_compile f1.search.filedesc
      .ok (xml1,
        { f1 with search :=
            { f1.search with gamedesc_regexp := g.1, filedesc_regexp := f.1 } },
        g.2 ++ f.2)

/-- One pass through the body of the loop of `parseXml_file`, before its
`readNext`. -/
def parseXml_file_body (xml : QXmlStreamReader) (gcn_file : gcn_file_def) :
    Except Fault (QXmlStreamReader × gcn_file_def × List Msg) :=
  if xml.tokenType = .StartElement then
    if xml.name = QLatin1String "description" then
      .ok ((parseXml_element xml).1,
        { gcn_file with description := (parseXml_element xml).2 }, [])
    else if xml.name = QLatin1String "gamecode" then
      .ok ((parseXml_element xml).1,
        { gcn_file with gamecode := (parseXml_element xml).2 }, [])
    else if xml.name = QLatin1String "company" then
      .ok ((parseXml_element xml).1,
        { gcn_file with company := (parseXml_element xml).2 }, [])
    else if xml.name = QLatin1String "search" then
      parseXml_file_search pcre_compile xml gcn_file
    else .ok (xml, gcn_file, [])
  else .ok (xml, gcn_file, [])

/-- The loop of `parseXml_file` over the children of `file`; `log` is what has been
written to `stderr` so far. -/
def parseXml_file_loop :
    Nat → QXmlStreamReader → gcn_file_def → List Msg →
      Except Fault (QXmlStreamReader × gcn_file_def × List Msg)
  | 0, _, _, _ => .error .outOfFuel
  | fuel + 1, xml, gcn_file, log =>
    if ¬ xml.hasError ∧
        ¬ (xml.tokenType = .EndElement ∧ xml.name = QLatin1String "file") then
      match parseXml_file_body pcre_compile xml gcn_file with
      | .error e => .error e
      | .ok (xml1, f1, w) => parseXml_file_loop fuel xml1.readNext f1 (log ++ w)
    else .ok (xml, gcn_file, log)

/-- The end of `parseXml_file`: determine the valid regions from the game code. -/
def parseXml_file_regions (gcn_file : gcn_file_def) : gcn_file_def × List Msg :=
  if gcn_file.gamecode.length = 4 then
    ({ gcn_file with regions := RegionCharToBitfield (gcn_file.gamecode.getD 3 0) }, [])
  else
    (gcn_file, [Msg.invalidGameCode gcn_file.gamecode])

/-- Read a `file` element into a new definition; NULL (`none`) when the reader is
not on the start of a `file` element. -/
def parseXml_file (xml : QXmlStreamReader) :
    Except Fault (QXmlStreamReader × Option gcn_file_def × List Msg) :=
  if xml.tokenType ≠ .StartElement ∨ xml.name ≠ QLatin1String "file" then
    .ok (xml, none, [])
  else
    match parseXml_file_loop pcre_compile (xml.rest.length + 2) xml.readNext {} [] with
    | .error e => .error e
    | .ok (xml1, f1, log) =>
      .ok (xml1, some (parseXml_file_regions f1).1, log ++ (parseXml_file_regions f1).2)

/-- Add a definition to the database: the bucket of its search address is created
when the map has none, and the definition is appended to it. -/
def addFile (m : AddrFileDefs) (gcn_file : gcn_file_def) : AddrFileDefs :=
  let address := gcn_file.search.address
  let m1 := if (m.value address).isNone then m.insert address [] else m
  m1.append address gcn_file

/-- One pass through the body of the loop of `parseXml_GcnMcFileDb`, before its
`readNext`. -/
def parseXml_GcnMcFileDb_body (xml : QXmlStreamReader) (m : AddrFileDefs) :
    Except Fault (QXmlStreamReader × AddrFileDefs × List Msg) :=
  if xml.tokenType = .StartElement ∧ xml.name = QLatin1String "file" then
    match parseXml_file pcre_compile xml with
    | .error e => .error e
    | .ok (xml1, some gcn_file, w) => .ok (xml1, addFile m gcn_file, w)
    | .ok (xml1, none, w) => .ok (xml1, m, w)
  else .ok (xml, m, [])

/-- The loop of `parseXml_GcnMcFileDb` over the `file` elements. -/
def parseXml_GcnMcFileDb_loop :
    Nat → QXmlStreamReader → AddrFileDefs → List Msg →
      Except Fault (QXmlStreamReader × AddrFileDefs × List Msg)
  | 0, _, _, _ => .error .outOfFuel
  | fuel + 1, xml, m, log =>
    if ¬ xml.hasError ∧
        ¬ (xml.tokenType = .EndElement ∧ xml.name = QLatin1String "GcnMcFileDb") then
      match parseXml_GcnMcFileDb_body pcre_compile xml m with
      | .error e => .error e
      | .ok (xml1, m1, w) => parseXml_GcnMcFileDb_loop fuel xml1.readNext m1 (log ++ w)
    else .ok (xml, m, log)

/-- Read a `GcnMcFileDb` element, adding each of its `file` elements to the map. -/
def parseXml_GcnMcFileDb (xml : QXmlStreamReader) (m : AddrFileDefs) :
    Except Fault (QXmlStreamReader × AddrFileDefs × List Msg) :=
  if xml.tokenType ≠ .StartElement ∨ xml.name ≠ QLatin1String "GcnMcFileDb" then
    .ok (xml, m, [])
  else
    parseXml_GcnMcFileDb_loop pcre_compile (xml.rest.length + 2) xml.readNext m []

/-- The loop of `clear()` over `addr_file_defs.keys()`. The loop variable is a
`uint16_t`, so each key is truncated before the bucket is looked up. `freed` lists
the truncated keys whose buckets have been deleted so far, latest first. -/
def clear_loop (m : AddrFileDefs) : List Nat → List Nat → Except Fault (List Nat)
  | [], freed => .ok freed
  | key :: keys, freed =>
    let address := key % 65536
    match m.value address with
    | none => .error .nullDeref
    | some _ =>
      if address ∈ freed then .error .useAfterFree
      else clear_loop m keys (address :: freed)

/-- Clear the database: delete every bucket with its definitions, then empty the
map. -/
def clear (d : GcnMcFileDbPrivate) : Except Fault GcnMcFileDbPrivate :=
  match clear_loop d.addr_file_defs d.addr_file_defs.keys [] with
  | .error e => .error e
  | .ok _ => .ok { d with addr_file_defs := [] }

/-- One pass through the body of the loop of `load`. -/
def load_body (xml : QXmlStreamReader) (m : AddrFileDefs) :
    Except Fault (QXmlStreamReader × AddrFileDefs × List Msg) :=
  if xml.readNext.tokenType = .StartElement ∧
      xml.readNext.name = QLatin1String "GcnMcFileDb" then
    parseXml_GcnMcFileDb pcre_compile xml.readNext m
  else .ok (xml.readNext, m, [])

/-- The token loop of `load`. -/
def load_loop :
    Nat → QXmlStreamReader → AddrFileDefs → List Msg →
      Except Fault (QXmlStreamReader × AddrFileDefs × List Msg)
  | 0, _, _, _ => .error .outOfFuel
  | fuel + 1, xml, m, log =>
    if ¬ xml.atEnd ∧ ¬ xml.hasError then
      match load_body pcre_compile xml m with
      | .error e => .error e
      | .ok (xml1, m1, w) => load_loop fuel xml1 m1 (log ++ w)
    else .ok (xml, m, log)

/-- The file system as `QFile::open` sees it: the token sequence of a file that can
be opened for reading, `none` for a file that cannot. -/
abbrev FileSystem := QString → Option (List Token)

/-- The error string `load` sets after an XML parse error: the message of the
reader followed by the position. -/
def load_errorString (xml : QXmlStreamReader) : QString :=
  xml.errorString ++ QLatin1String " (line " ++ QString_number xml.lineNumber ++
    QLatin1String ", column " ++ QString_number xml.columnNumber ++ [41]

/-- Load a database file. Returns the status (0 on success, -1 when the file cannot
be opened, -2 on an XML error), the new state and the `stderr` output. -/
def load (fs : FileSystem) (d : GcnMcFileDbPrivate) (filename : QString) :
    Except Fault (Int × GcnMcFileDbPrivate × List Msg) :=
  match clear d with
  | .error e => .error e
  | .ok d0 =>
    match fs filename with
    | none => .ok (-1, d0, [])
    | some doc =>
      match load_loop pcre_compile (doc.length + 2) (QXmlStreamReader.onDevice doc)
          d0.addr_file_defs [] with
      | .error e => .error e
      | .ok (xml, m, log) =>
        if xml.hasError then
          .ok (-2, { addr_file_defs := m, errorString := load_errorString xml }, log)
        else
          .ok (0, { addr_file_defs := m, errorString := [] }, log)

/-! ## The definitions a load parses, in document order -/

/-- The definitions that the loop of `parseXml_GcnMcFileDb` gets from `parseXml_file`,
in the order of the calls. -/
def parsedFiles_GcnMcFileDb_loop :
    Nat → QXmlStreamReader → Except Fault (QXmlStreamReader × List gcn_file_def)
  | 0, _ => .error .outOfFuel
  | fuel + 1, xml =>
    if ¬ xml.hasError ∧
        ¬ (xml.tokenType = .EndElement ∧ xml.name = QLatin1String "GcnMcFileDb") then
      if xml.tokenType = .StartElement ∧ xml.name = QLatin1String "file" then
        match parseXml_file pcre_compile xml with
        | .error e => .error e
        | .ok (xml1, r, _) =>
          match parsedFiles_GcnMcFileDb_loop fuel xml1.readNext with
          | .error e => .error e
          | .ok (xml2, rs) => .ok (xml2, r.toList ++ rs)
      else parsedFiles_GcnMcFileDb_loop fuel xml.readNext
    else .ok (xml, [])

/-- The definitions one call of `parseXml_GcnMcFileDb` parses, in order. -/
def parsedFiles_GcnMcFileDb (xml : QXmlStreamReader) :
    Except Fault (QXmlStreamReader × List gcn_file_def) :=
  if xml.tokenType ≠ .StartElement ∨ xml.name ≠ QLatin1String "GcnMcFileDb" then
    .ok (xml, [])
  else
    parsedFiles_GcnMcFileDb_loop pcre_compile (xml.rest.length + 2) xml.readNext

/-- The definitions the token loop of `load` parses, in order. -/
def parsedFiles_load_loop :
    Nat → QXmlStreamReader → Except Fault (QXmlStreamReader × List gcn_file_def)
  | 0, _ => .error .outOfFuel
  | fuel + 1, xml =>
    if ¬ xml.atEnd ∧ ¬ xml.hasError then
      if xml.readNext.tokenType = .StartElement ∧
          xml.readNext.name = QLatin1String "GcnMcFileDb" then
        match parsedFiles_GcnMcFileDb pcre_compile xml.readNext with
        | .error e => .error e
        | .ok (xml1, rs1) =>
          match parsedFiles_load_loop fuel xml1 with
          | .error e => .error e
          | .ok (xml2, rs2) => .ok (xml2, rs1 ++ rs2)
      else parsedFiles_load_loop fuel xml.readNext
    else .ok (xml, [])

/-- The definitions parsed from a document, in document order: every definition
that `parseXml_file` returns while `load` reads the document. -/
def parsedFiles (doc : List Token) : Except Fault (List gcn_file_def) :=
  match parsedFiles_load_loop pcre_compile (doc.length + 2)
      (QXmlStreamReader.onDevice doc) with
  | .error e => .error e
  | .ok (_, rs) => .ok rs

end operations

/-- What a reader can still do: 0 after an error, else one more than the number of
unread tokens. Every `readNext` outside the error state lowers it. -/
def QXmlStreamReader.remaining (xml : QXmlStreamReader) : Nat :=
  if xml.cur.type = .Invalid then 0 else xml.rest.length + 1

/-- A freshly constructed database object. -/
def GcnMcFileDbPrivate.fresh : GcnMcFileDbPrivate := {}

/-- The definitions of all buckets of the index, bucket after bucket. -/
def AddrFileDefs.allDefs (m : AddrFileDefs) : List gcn_file_def :=
  (m.map Prod.snd).flatten

/-- The bucket of an address as a list: empty when the index has no such key. -/
def AddrFileDefs.lookup (m : AddrFileDefs) (address : Nat) : List gcn_file_def :=
  (m.value address).getD []

/-! ## Database documents

A database document as the file format describes it: a `GcnMcFileDb` root holding
`file` records, each holding text fields and `search` records, with white space or
comments between the elements. `tokens` is what the XML reader reports for it, and
`fileDef` is the definition a record denotes. -/

def startElement (name : QString) : Token := { type := .StartElement, name := name }

def endElement (name : QString) : Token := { type := .EndElement, name := name }

def characters (text : QString) : Token := { type := .Characters, text := text }

def commentToken (text : QString) : Token := { type := .Comment, text := text }

/-- The tokens of an element that holds only text; the reader reports no
`Characters` token for an empty element. -/
def textElement (name text : QString) : List Token :=
  startElement name :: ((if text = [] then [] else [characters text]) ++ [endElement name])

/-- A child of a `search` element. -/
inductive SearchItem
  | address (text : QString)
  | gamedesc (text : QString)
  | filedesc (text : QString)
  | space (text : QString)
  | comment (text : QString)
  deriving DecidableEq, Repr

/-- A child of a `file` element. -/
inductive FileItem
  | description (text : QString)
  | gamecode (text : QString)
  | company (text : QString)
  | search (items : List SearchItem)
  | space (text : QString)
  | comment (text : QString)
  deriving Repr

/-- A child of the `GcnMcFileDb` root. -/
inductive DbItem
  | file (items : List FileItem)
  | space (text : QString)
  | comment (text : QString)
  deriving Repr

/-- A database document: the children of its `GcnMcFileDb` root. -/
structure DbDocument where
  items : List DbItem
  deriving Repr

def SearchItem.tokens : SearchItem → List Token
  | .address t => textElement (QLatin1String "address") t
  | .gamedesc t => textElement (QLatin1String "gamedesc") t
  | .filedesc t => textElement (QLatin1String "filedesc") t
  | .space t => [characters t]
  | .comment t => [commentToken t]

def searchTokens : List SearchItem → List Token
  | [] => []
  | i :: is => i.tokens ++ searchTokens is

def FileItem.tokens : FileItem → List Token
  | .description t => textElement (QLatin1String "description") t
  | .gamecode t => textElement (QLatin1String "gamecode") t
  | .company t => textElement (QLatin1String "company") t
  | .search items =>
    startElement (QLatin1String "search") ::
      (searchTokens items ++ [endElement (QLatin1String "search")])
  | .space t => [characters t]
  | .comment t => [commentToken t]

def fileTokens : List FileItem → List Token
  | [] => []
  | i :: is => i.tokens ++ fileTokens is

def DbItem.tokens : DbItem → List Token
  | .file items =>
    startElement (QLatin1String "file") ::
      (fileTokens items ++ [endElement (QLatin1String "file")])
  | .space t => [characters t]
  | .comment t => [commentToken t]

def dbTokens : List DbItem → List Token
  | [] => []
  | i :: is => i.tokens ++ dbTokens is

/-- The token sequence the reader reports for the document. -/
def DbDocument.tokens (db : DbDocument) : List Token :=
  { type := .StartDocument } :: startElement (QLatin1String "GcnMcFileDb") ::
    (dbTokens db.items ++
      [endElement (QLatin1String "GcnMcFileDb"), { type := .EndDocument }])

/-- The `file` records among the children of the root, in document order. -/
def dbFiles (items : List DbItem) : List (List FileItem) :=
  items.filterMap fun
    | .file items => some items
    | _ => none

/-- The `file` records of the document, in document order. -/
def DbDocument.files (db : DbDocument) : List (List FileItem) :=
  dbFiles db.items

section denotation

variable (pcre_compile : QString → Option pcre)

/-- The matcher a pattern gets: none for the empty pattern, else what the compiler
returns. -/
def matcherFor (pattern : QString) : Option pcre :=
  if pattern = [] then none else pcre_compile pattern

/-- The warning a pattern causes, if any. -/
def patternLog (pattern : QString) : List Msg :=
  if pattern = [] then [Msg.emptyRegexp]
  else if pcre_compile pattern = none then [Msg.regexpCompileFailed pattern]
  else []

/-- The region bits of a game code: those of its fourth character when it has
exactly four, else none. -/
def regionsFor (gamecode : QString) : Nat :=
  match gamecode with
  | [_, _, _, c] => RegionCharToBitfield c
  | _ => 0

/-- The effect of one child of `search`: a later field replaces an earlier one. -/
def SearchItem.apply (s : gcn_file_def.Search) : SearchItem → gcn_file_def.Search
  | .address t => { s with address := toUInt t }
  | .gamedesc t => { s with gamedesc := t }
  | .filedesc t => { s with filedesc := t }
  | .space _ => s
  | .comment _ => s

/-- The effect of one child of `file` on the definition and on `stderr`. -/
def FileItem.apply (st : gcn_file_def × List Msg) : FileItem → gcn_file_def × List Msg
  | .description t => ({ st.1 with description := t }, st.2)
  | .gamecode t => ({ st.1 with gamecode := t }, st.2)
  | .company t => ({ st.1 with company := t }, st.2)
  | .search items =>
    let s := items.foldl SearchItem.apply st.1.search
    ({ st.1 with search :=
        { s with gamedesc_regexp := matcherFor pcre_compile s.gamedesc,
                 filedesc_regexp := matcherFor pcre_compile s.filedesc } },
      st.2 ++ (patternLog pcre_compile s.gamedesc ++ patternLog pcre_compile s.filedesc))
  | .space _ => st
  | .comment _ => st

/-- The fields of a record before its regions are determined, and its warnings. -/
def fileFields (items : List FileItem) : gcn_file_def × List Msg :=
  items.foldl (FileItem.apply pcre_compile) ({}, [])

/-- The definition a `file` record denotes. -/
def fileDef (items : List FileItem) : gcn_file_def :=
  { (fileFields pcre_compile items).1 with
    regions := regionsFor (fileFields pcre_compile items).1.gamecode }

/-- The warnings a `file` record causes. -/
def fileLog (items : List FileItem) : List Msg :=
  (fileFields pcre_compile items).2 ++
    (if (fileFields pcre_compile items).1.gamecode.length = 4 then []
     else [Msg.invalidGameCode (fileFields pcre_compile items).1.gamecode])

/-- The definitions of the document, in document order. -/
def DbDocument.defs (db : DbDocument) : List gcn_file_def :=
  db.files.map (fileDef pcre_compile)

/-- The warnings of the document, in document order. -/
def DbDocument.log (db : DbDocument) : List Msg :=
  (db.files.map (fileLog pcre_compile)).flatten

end denotation

/-- The definition with its two matchers replaced. -/
def setMatchers (g h : Option pcre) (f : gcn_file_def) : gcn_file_def :=
  { f with search := { f.search with gamedesc_regexp := g, filedesc_regexp := h } }

/-- The definition with both matchers set by the compiler `pcre_compile` from its
own two patterns. -/
def recompile (pcre_compile : QString → Option pcre) (f : gcn_file_def) : gcn_file_def :=
  setMatchers (matcherFor pcre_compile f.search.gamedesc)
    (matcherFor pcre_compile f.search.filedesc) f

/-- The index with a function applied to every definition, the keys and the
positions in the buckets kept. -/
def AddrFileDefs.mapDefs (g : gcn_file_def → gcn_file_def) (m : AddrFileDefs) :
    AddrFileDefs :=
  m.map fun e => (e.1, e.2.map g)

/-- A compiler that accepts every pattern. -/
def acceptAll : QString → Option pcre := fun p => some ⟨p⟩

/-- The game code a `file` record declares: the text of its last `gamecode` child,
empty when it has none. -/
def gamecodeOf (items : List FileItem) : QString :=
  ((items.filterMap fun
    | .gamecode t => some t
    | _ => none).getLast?).getD []

/-- The texts of the `gamedesc` children of a list of `search` children. -/
def gamedescTexts (items : List SearchItem) : List QString :=
  items.filterMap fun
    | .gamedesc t => some t
    | _ => none

/-- The texts of the `filedesc` children of a list of `search` children. -/
def filedescTexts (items : List SearchItem) : List QString :=
  items.filterMap fun
    | .filedesc t => some t
    | _ => none

/-- The `search` records of a `file` record, in order. -/
def searchesOf (items : List FileItem) : List (List SearchItem) :=
  items.filterMap fun
    | .search s => some s
    | _ => none

/-! ## Well-formed token sequences -/

/-- Whether the tokens after `StartDocument` form the rest of a well-formed
document. `stack` holds the names of the open elements, innermost first, and `root`
tells whether the root element has started. -/
def wellFormedFrom : List QString → Bool → List Token → Bool
  | _, _, [] => false
  | stack, root, t :: ts =>
    match t.type with
    | .StartElement =>
      !(stack.isEmpty && root) && wellFormedFrom (t.name :: stack) true ts
    | .EndElement =>
      decide (stack.head? = some t.name) && wellFormedFrom stack.tail root ts
    | .Characters => wellFormedFrom stack root ts
    | .EntityReference => !stack.isEmpty && wellFormedFrom stack root ts
    | .Comment => wellFormedFrom stack root ts
    | .ProcessingInstruction => wellFormedFrom stack root ts
    | .DTD => stack.isEmpty && !root && wellFormedFrom stack root ts
    | .EndDocument => stack.isEmpty && root && ts.isEmpty
    | _ => false

/-- Whether a token sequence is what the reader reports for a well-formed XML
document: `StartDocument`, one root element with balanced content, `EndDocument`. -/
def wellFormed : List Token → Bool
  | [] => false
  | t :: ts => decide (t.type = .StartDocument) && wellFormedFrom [] false ts

/-- The name of the root element: that of the first start tag. -/
def rootElement (doc : List Token) : Option QString :=
  (doc.find? fun t => decide (t.type = .StartElement)).map fun t => t.name

/-! ## Example inputs -/

/-- A compiler that rejects the pattern `(` and accepts every other pattern. -/
def exampleCompile : QString → Option pcre :=
  fun p => if p = QLatin1String "(" then none else some ⟨p⟩

/-- The children of a `file` record with the given description, game code, address
and patterns. -/
def exampleItems (description gamecode address gamedesc filedesc : String) :
    List FileItem :=
  [.space (QLatin1String " "),
    .description (QLatin1String description),
    .gamecode (QLatin1String gamecode),
    .company (QLatin1String "01"),
    .search [.address (QLatin1String address), .gamedesc (QLatin1String gamedesc),
      .filedesc (QLatin1String filedesc)],
    .space (QLatin1String " ")]

/-- A `file` record with the given description, game code, address and patterns. -/
def exampleFile (description gamecode address gamedesc filedesc : String) : DbItem :=
  .file (exampleItems description gamecode address gamedesc filedesc)

/-- Two records that share the search address 0x2000. -/
def exampleDbShared : DbDocument :=
  { items := [exampleFile "first" "GALE" "0x2000" "^A" "^B", .space (QLatin1String " "),
      exampleFile "second" "GALP" "8192" "^C" "^D"] }

/-- One record whose search address is 0x10000. -/
def exampleDbHigh : DbDocument :=
  { items := [exampleFile "high" "GALE" "0x10000" "^A" "^B"] }

/-- Records with a three-character game code, with a game code whose fourth
character is no region, and with a pattern the compiler rejects. -/
def exampleDbOdd : DbDocument :=
  { items := [exampleFile "short" "GAL" "0x2000" "^A" "^B",
      exampleFile "region" "GALX" "0x2000" "^A" "^B",
      exampleFile "pattern" "GALJ" "0x4000" "(" "^B"] }

/-- One record with a game code of four characters, the last of which is no region
character. -/
def exampleDbRegion : DbDocument :=
  { items := [exampleFile "region" "GALX" "0x2000" "^A" "^B"] }

/-- A record with an empty `gamedesc` pattern and a record without `search`. -/
def exampleDbEmpty : DbDocument :=
  { items := [exampleFile "empty" "GALE" "0x2000" "" "^B",
      .file [.description (QLatin1String "bare"), .gamecode (QLatin1String "GALJ")]] }

/-- Records whose address is no literal, is negative, is too large or is missing. -/
def exampleDbBadAddress : DbDocument :=
  { items := [exampleFile "word" "GALE" "abc" "^A" "^B",
      exampleFile "negative" "GALE" "-1" "^A" "^B",
      exampleFile "large" "GALE" "4294967296" "^A" "^B",
      .file [.description (QLatin1String "bare"), .gamecode (QLatin1String "GALJ")]] }

/-- A document that ends inside its first `file` element: the reader reports the
premature end of the document. -/
def exampleBroken : List Token :=
  [{ type := .StartDocument }, startElement (QLatin1String "GcnMcFileDb"),
    startElement (QLatin1String "file")]

/-- A well-formed document whose root element is `foo`. -/
def exampleForeignRoot : List Token :=
  [{ type := .StartDocument }, startElement (QLatin1String "foo"),
    characters (QLatin1String "text"), endElement (QLatin1String "foo"),
    { type := .EndDocument }]

/-- A file system with the example files; no other file can be opened. -/
def exampleFs : FileSystem := fun filename =>
  if filename = QLatin1String "shared.xml" then some exampleDbShared.tokens
  else if filename = QLatin1String "high.xml" then some exampleDbHigh.tokens
  else if filename = QLatin1String "odd.xml" then some exampleDbOdd.tokens
  else if filename = QLatin1String "region.xml" then some exampleDbRegion.tokens
  else if filename = QLatin1String "empty.xml" then some exampleDbEmpty.tokens
  else if filename = QLatin1String "foo.xml" then some exampleForeignRoot
  else if filename = QLatin1String "bad.xml" then some exampleDbBadAddress.tokens
  else if filename = QLatin1String "broken.xml" then some exampleBroken
  else none

/-! ## Numeric literals and the address of a record -/

/-- The 0x-prefixed hexadecimal literal of a number, with lowercase digits. -/
def hexLiteral (n : Nat) : QString :=
  QLatin1String "0x" ++ (Nat.toDigits 16 n).map Char.toNat

/-- The texts of the `address` children of a list of `search` children. -/
def addressTextsOf (items : List SearchItem) : List QString :=
  items.filterMap fun
    | .address t => some t
    | _ => none

/-- The texts of all `address` elements of a `file` record, in document order. -/
def addressTexts (items : List FileItem) : List QString :=
  ((searchesOf items).map addressTextsOf).flatten

/-- The search address a `file` record declares: the value `toUInt` gives for the
text of its last `address` element, and 0 when it has none. -/
def addressOf (items : List FileItem) : Nat :=
  (((addressTexts items).getLast?).map toUInt).getD 0

/-! ## Documents with unknown elements

A `file` or `search` element may hold elements the loops do not know. The loops do
not skip such an element as a whole: they go on token by token, so what matters is
that no token of the element is one the loop reacts to. -/

/-- A token the loop of `parseXml_file` passes over without any effect: it is no
error, not the end of a `file` element, and not the start of an element the loop
reads (`description`, `gamecode`, `company`, `search`). -/
def fileLoopSkips (t : Token) : Bool :=
  decide (t.type ≠ .Invalid) &&
  !(decide (t.type = .EndElement) && decide (t.name = QLatin1String "file")) &&
  !(decide (t.type = .StartElement) &&
    (decide (t.name = QLatin1String "description") ||
     decide (t.name = QLatin1String "gamecode") ||
     decide (t.name = QLatin1String "company") ||
     decide (t.name = QLatin1String "search")))

/-- A token the loop of `parseXml_file_search` passes over without any effect: it is
no error, not the end of a `search` element, and not the start of an element the
loop reads (`address`, `gamedesc`, `filedesc`). -/
def searchLoopSkips (t : Token) : Bool :=
  decide (t.type ≠ .Invalid) &&
  !(decide (t.type = .EndElement) && decide (t.name = QLatin1String "search")) &&
  !(decide (t.type = .StartElement) &&
    (decide (t.name = QLatin1String "address") ||
     decide (t.name = QLatin1String "gamedesc") ||
     decide (t.name = QLatin1String "filedesc")))

/-- The tokens of an element with the given name and content. -/
def elementTokens (name : QString) (content : List Token) : List Token :=
  startElement name :: (content ++ [endElement name])

/-- A child of `search` in a document that may hold unknown elements. -/
inductive SearchChild
  | known (item : SearchItem)
  | unknown (name : QString) (content : List Token)
  deriving Repr

/-- A child of `file` in a document that may hold unknown elements. -/
inductive FileChild
  | known (item : FileItem)
  | search (children : List SearchChild)
  | unknown (name : QString) (content : List Token)
  deriving Repr

/-- A child of the root in a document that may hold unknown elements. -/
inductive DbChild
  | file (children : List FileChild)
  | space (text : QString)
  | comment (text : QString)
  deriving Repr

def SearchChild.tokens : SearchChild → List Token
  | .known item => item.tokens
  | .unknown name content => elementTokens name content

def searchChildTokens : List SearchChild → List Token
  | [] => []
  | c :: cs => c.tokens ++ searchChildTokens cs

def FileChild.tokens : FileChild → List Token
  | .known item => item.tokens
  | .search children =>
    startElement (QLatin1String "search") ::
      (searchChildTokens children ++ [endElement (QLatin1String "search")])
  | .unknown name content => elementTokens name content

def fileChildTokens : List FileChild → List Token
  | [] => []
  | c :: cs => c.tokens ++ fileChildTokens cs

def DbChild.tokens : DbChild → List Token
  | .file children =>
    startElement (QLatin1String "file") ::
      (fileChildTokens children ++ [endElement (QLatin1String "file")])
  | .space t => [characters t]
  | .comment t => [commentToken t]

def dbChildTokens : List DbChild → List Token
  | [] => []
  | c :: cs => c.tokens ++ dbChildTokens cs

/-- The token sequence of the document with the given children of the root. -/
def documentTokens (children : List DbChild) : List Token :=
  { type := .StartDocument } :: startElement (QLatin1String "GcnMcFileDb") ::
    (dbChildTokens children ++
      [endElement (QLatin1String "GcnMcFileDb"), { type := .EndDocument }])

/-- The unknown elements of a `search` element are ones its loop passes over. -/
def SearchChild.Skipped : SearchChild → Prop
  | .known _ => True
  | .unknown name content => ∀ t ∈ elementTokens name content, searchLoopSkips t = true

/-- The unknown elements of a `file` element, and of the `search` elements in it,
are ones the loops pass over. -/
def FileChild.Skipped : FileChild → Prop
  | .known _ => True
  | .search children => ∀ c ∈ children, c.Skipped
  | .unknown name content => ∀ t ∈ elementTokens name content, fileLoopSkips t = true

/-- The unknown elements of the document are ones the loops pass over. -/
def DbChild.Skipped : DbChild → Prop
  | .file children => ∀ c ∈ children, c.Skipped
  | _ => True

/-- The known children of a `search` element, the unknown ones left out. -/
def eraseSearch (children : List SearchChild) : List SearchItem :=
  children.filterMap fun
    | .known item => some item
    | .unknown _ _ => none

/-- The known children of a `file` element, the unknown ones left out. -/
def eraseFile (children : List FileChild) : List FileItem :=
  children.filterMap fun
    | .known item => some item
    | .search cs => some (.search (eraseSearch cs))
    | .unknown _ _ => none

/-- The children of the root with the unknown elements left out. -/
def eraseDb (children : List DbChild) : List DbItem :=
  children.map fun
    | .file cs => .file (eraseFile cs)
    | .space t => .space t
    | .comment t => .comment t

/-- A record with unknown elements that hold text only: `note` in `file` and `hint`
in `search`. -/
def exampleExtra : List DbChild :=
  [.file [.known (.description (QLatin1String "extra")),
    .known (.gamecode (QLatin1String "GALE")),
    .unknown (QLatin1String "note") [characters (QLatin1String "hello")],
    .search [.known (.address (QLatin1String "0x2000")),
      .unknown (QLatin1String "hint") [characters (QLatin1String "world")],
      .known (.gamedesc (QLatin1String "^A")),
      .known (.filedesc (QLatin1String "^B"))]]]

/-- A record with unknown elements that hold known ones: `extra` in `file` holds a
`gamecode` element, and `hint` in `search` holds an `address` element. -/
def exampleNested : List DbChild :=
  [.file [.known (.description (QLatin1String "nested")),
    .known (.gamecode (QLatin1String "GALE")),
    .unknown (QLatin1String "extra")
      (textElement (QLatin1String "gamecode") (QLatin1String "GALJ")),
    .search [.known (.address (QLatin1String "0x2000")),
      .unknown (QLatin1String "hint")
        (textElement (QLatin1String "address") (QLatin1String "0x3000")),
      .known (.gamedesc (QLatin1String "^A")),
      .known (.filedesc (QLatin1String "^B"))]]]

/-- A file system with the example documents that hold unknown elements, each with
and without them; no other file can be opened. -/
def exampleUnknownFs : FileSystem := fun filename =>
  if filename = QLatin1String "extra.xml" then some (documentTokens exampleExtra)
  else if filename = QLatin1String "extra-erased.xml" then
    some (DbDocument.mk (eraseDb exampleExtra)).tokens
  else if filename = QLatin1String "nested.xml" then some (documentTokens exampleNested)
  else if filename = QLatin1String "nested-erased.xml" then
    some (DbDocument.mk (eraseDb exampleNested)).tokens
  else none

/-- The game codes of the definitions of a load result, by ascending address. -/
def loadedGamecodes (r : Except Fault (Int × GcnMcFileDbPrivate × List Msg)) :
    Option (List QString) :=
  r.toOption.map fun x => x.2.1.addr_file_defs.allDefs.map fun f => f.gamecode

/-- The addresses of the index of a load result. -/
def loadedKeys (r : Except Fault (Int × GcnMcFileDbPrivate × List Msg)) :
    Option (List Nat) :=
  r.toOption.map fun x => x.2.1.addr_file_defs.keys

/-- The status of a load result. -/
def loadedStatus (r : Except Fault (Int × GcnMcFileDbPrivate × List Msg)) : Option Int :=
  r.toOption.map fun x => x.1

/-! ## The table selection widget (`widgets/TableSelect.cpp`)

The widget shows one button and one status label for each directory table and each
block table of the card. Widgets are records of the properties the code sets; a
vector of widget pointers is the list of these records, and a pointer into a vector
is the position in it. -/

/-- Modelled from the spec: the `Card` as the widget reads it, given by the values its
getters return. The class is not among the sources. -/
structure Card where
  datCount : Int
  batCount : Int
  activeDatIdx : Int
  activeBatIdx : Int
  activeDatHdrIdx : Int
  activeBatHdrIdx : Int
  isDatValid : Int → Bool
  isBatValid : Int → Bool

/-- The two standard pixmaps the status labels show. -/
inductive StandardPixmap
  | SP_DialogApplyButton
  | SP_MessageBoxCritical
  deriving DecidableEq, Repr

/-- A text built as `template.arg(a1).arg(a2)...`, kept as the template and the
arguments in the order they are applied. -/
structure ArgText where
  template : QString
  args : List QString
  deriving DecidableEq, Repr

/-- The character `QChar(n)` of an `int`: its low 16 bits. -/
def QChar_ofInt (n : Nat) : QChar := n % 65536

/-- A `QPushButton` of the widget: the properties `updateWidgetCount` sets, its cell
in `gridMain`, the id it has in the button group of its vector, and whether it is
checked. -/
structure QPushButton where
  minimumSize : Nat × Nat
  maximumSize : Nat × Nat
  baseSize : Nat × Nat
  text : QString
  checkable : Bool
  row : Nat
  column : Nat
  groupId : Nat
  checked : Bool := false
  deriving DecidableEq, Repr

/-- A status `QLabel` of the widget: its cell in `gridMain` and what the display
functions set. -/
structure QLabel where
  row : Nat
  column : Nat
  styleSheet : QString := []
  pixmap : Option StandardPixmap := none
  toolTip : Option ArgText := none
  deriving DecidableEq, Repr

/-- A `QButtonGroup` of the widget. Both groups are exclusive (`setupUi` sets this and
nothing changes it); the state that matters is which button of the vector the group
holds as its checked button. -/
structure QButtonGroup where
  checkedButton : Option Nat := none
  deriving DecidableEq, Repr

/-- The group after a button is removed from it, which is what deleting the button
does: a group that held it as its checked button holds none. -/
def QButtonGroup.removeButton (g : QButtonGroup) (i : Nat) : QButtonGroup :=
  if g.checkedButton = some i then { g with checkedButton := none } else g

/-- The widgets of `Ui_TableSelect` that change after `setupUi`. -/
structure Ui_TableSelect where
  btnDirGroup : QButtonGroup := {}
  btnDir : List QPushButton := []
  lblDirStatus : List QLabel := []
  btnBlockGroup : QButtonGroup := {}
  btnBlock : List QPushButton := []
  lblBlockStatus : List QLabel := []
  deriving DecidableEq, Repr

/-- The widgets after `setupUi`: two empty groups and no buttons or labels. -/
def Ui_TableSelect.setupUi : Ui_TableSelect := {}

structure TableSelectPrivate where
  ui : Ui_TableSelect := {}
  card : Option Card := none

/-- The button `updateWidgetCount` creates for index `i` in the given column. -/
def newButton (i column : Nat) : QPushButton :=
  { minimumSize := (23, 23), maximumSize := (23, 23), baseSize := (23, 23),
    text := [QChar_ofInt (65 + i)], checkable := true,
    row := i, column := column, groupId := i }

/-- The label `updateWidgetCount` creates for index `i` in the given column. -/
def newLabel (i column : Nat) : QLabel :=
  { row := i, column := column }

/-- The loop of `updateWidgetCount` that deletes the widgets from the last index down
to `count`. The second argument is the loop variable plus one. The result is `none`
when the loop indexes a vector outside its range: `btnDir[-1]`, or a label index at
or above the number of labels. -/
def updateWidgetCount_remove (count : Int) (lblSize : Nat) :
    Nat → QButtonGroup → Option QButtonGroup
  | 0, g => if count ≤ -1 then none else some g
  | i + 1, g =>
    if count ≤ (i : Int) then
      if i < lblSize then updateWidgetCount_remove count lblSize i (g.removeButton i)
      else none
    else some g

/-- The loop of `updateWidgetCount` that adds widgets; the first argument is the
number of passes left, and the loop variable is the number of buttons. -/
def updateWidgetCount_add (column : Nat) :
    Nat → List QPushButton × List QLabel → List QPushButton × List QLabel
  | 0, s => s
  | k + 1, (btns, lbls) =>
    updateWidgetCount_add column k
      (btns ++ [newButton btns.length column], lbls ++ [newLabel btns.length (column + 1)])

/-- The part of `updateWidgetCount` for one kind of table: the buttons are in
`column`, the labels in the next one. -/
def updateWidgetCount_table (count : Int) (column : Nat) (g : QButtonGroup)
    (btns : List QPushButton) (lbls : List QLabel) :
    Option (QButtonGroup × List QPushButton × List QLabel) :=
  if count < (btns.length : Int) then
    match updateWidgetCount_remove count lbls.length btns.length g with
    | none => none
    | some g1 => some (g1, btns.take count.toNat, lbls.take count.toNat)
  else if count > (btns.length : Int) then
    let r := updateWidgetCount_add column (count - (btns.length : Int)).toNat (btns, lbls)
    some (g, r.1, r.2)
  else some (g, btns, lbls)

/-- Update the DAT/BAT widget count based on the active card; `none` when a vector is
indexed outside its range. -/
def TableSelectPrivate.updateWidgetCount (d : TableSelectPrivate) :
    Option TableSelectPrivate :=
  match d.card with
  | none => some d
  | some card =>
    match updateWidgetCount_table card.datCount 1 d.ui.btnDirGroup d.ui.btnDir
        d.ui.lblDirStatus with
    | none => none
    | some (gd, bd, ld) =>
      match updateWidgetCount_table card.batCount 4 d.ui.btnBlockGroup d.ui.btnBlock
          d.ui.lblBlockStatus with
      | none => none
      | some (gb, bb, lb) =>
        some { d with ui :=
          { btnDirGroup := gd, btnDir := bd, lblDirStatus := ld,
            btnBlockGroup := gb, btnBlock := bb, lblBlockStatus := lb } }

/-- What `QAbstractButton::setChecked` does to button `k` of a vector whose buttons
are in the exclusive group `g`. Nothing changes when the button is not checkable or
is in the wanted state already, and nothing changes when the checked button of the
group is to be unchecked: an exclusive group does not let its checked button be
unchecked. A button that becomes checked becomes the checked button of the group,
and the one that was is unchecked. -/
def QAbstractButton_setChecked (g : QButtonGroup) (btns : List QPushButton) (k : Nat)
    (checked : Bool) : QButtonGroup × List QPushButton :=
  match btns[k]? with
  | none => (g, btns)
  | some b =>
    if !b.checkable || b.checked == checked then (g, btns)
    else if !checked && g.checkedButton == some k then (g, btns)
    else
      let btns1 := btns.set k { b with checked := checked }
      if checked then
        match g.checkedButton with
        | none => ({ checkedButton := some k }, btns1)
        | some p =>
          if p = k then ({ checkedButton := some k }, btns1)
          else
            match btns1[p]? with
            | none => ({ checkedButton := some k }, btns1)
            | some bp =>
              ({ checkedButton := some k },
                if bp.checkable && bp.checked then btns1.set p { bp with checked := false }
                else btns1)
      else (g, btns1)

/-- The style sheet of the label of the table the card header names as active. -/
def cssActiveHdr : QString := QLatin1String "QFrame \x7b border: 2px solid rgb(0,255,0); \x7d"

/-- The style sheet of the other labels. -/
def cssInactiveHdr : QString := QLatin1String "QFrame \x7b margin: 2px; \x7d"

/-- One pass of the label loop of a display function: the label of table `i` gets its
style sheet, its pixmap and its tool tip. -/
def statusLabel (tableName : QString) (activeHdrIdx : Int) (isValid : Int → Bool) (i : Nat)
    (lbl : QLabel) : QLabel :=
  { lbl with
    styleSheet := if (i : Int) = activeHdrIdx then cssActiveHdr else cssInactiveHdr,
    pixmap := some (if isValid i then .SP_DialogApplyButton else .SP_MessageBoxCritical),
    toolTip := some
      { template :=
          if isValid i then
            if (i : Int) = activeHdrIdx then
              QLatin1String "%1 %2 is valid, and is the active table on the card."
            else QLatin1String "%1 %2 is valid."
          else QLatin1String "%1 %2 is invalid.",
        args := [tableName, [QChar_ofInt (65 + i)]] } }

/-- The label loop of a display function, from the last label down to the first; the
first argument is the loop variable plus one. -/
def updateTableDisplay_labels (tableName : QString) (activeHdrIdx : Int)
    (isValid : Int → Bool) : Nat → List QLabel → List QLabel
  | 0, lbls => lbls
  | i + 1, lbls =>
    updateTableDisplay_labels tableName activeHdrIdx isValid i
      (match lbls[i]? with
       | none => lbls
       | some lbl => lbls.set i (statusLabel tableName activeHdrIdx isValid i lbl))

/-- The first part of a display function: check the button of the table the user
selected when there is one, else call `setChecked(false)` on every button. -/
def updateTableDisplay_buttons (activeIdx : Int) (g : QButtonGroup)
    (btns : List QPushButton) : QButtonGroup × List QPushButton :=
  if 0 ≤ activeIdx ∧ activeIdx < (btns.length : Int) then
    QAbstractButton_setChecked g btns activeIdx.toNat true
  else
    (List.range btns.length).foldl
      (fun s k => QAbstractButton_setChecked s.1 s.2 k false) (g, btns)

/-- Update the Directory Table display; `none` when there is no card (the function
reads the card without a check). -/
def TableSelectPrivate.updateDirTableDisplay (d : TableSelectPrivate) :
    Option TableSelectPrivate :=
  match d.card with
  | none => none
  | some card =>
    let r := updateTableDisplay_buttons card.activeDatIdx d.ui.btnDirGroup d.ui.btnDir
    some { d with ui :=
      { d.ui with
        btnDirGroup := r.1, btnDir := r.2,
        lblDirStatus := updateTableDisplay_labels (QLatin1String "Directory Table")
          card.activeDatHdrIdx card.isDatValid d.ui.lblDirStatus.length d.ui.lblDirStatus } }

/-- Update the Block Table display; `none` when there is no card. -/
def TableSelectPrivate.updateBlockTableDisplay (d : TableSelectPrivate) :
    Option TableSelectPrivate :=
  match d.card with
  | none => none
  | some card =>
    let r := updateTableDisplay_buttons card.activeBatIdx d.ui.btnBlockGroup d.ui.btnBlock
    some { d with ui :=
      { d.ui with
        btnBlockGroup := r.1, btnBlock := r.2,
        lblBlockStatus := updateTableDisplay_labels (QLatin1String "Block Table")
          card.activeBatHdrIdx card.isBatValid d.ui.lblBlockStatus.length
          d.ui.lblBlockStatus } }

/-- A call the widget makes on its card. -/
inductive CardCall
  | setActiveDatIdx (idx : Int)
  | setActiveBatIdx (idx : Int)
  deriving DecidableEq, Repr

/-- What `Card::setActiveDatIdx` and `Card::setActiveBatIdx` do to the card and, by
the signals of the card, to the widget. The class is not among the sources, so its
two setters are parameters. -/
structure CardSetters where
  setActiveDatIdx : TableSelectPrivate → Int → TableSelectPrivate
  setActiveBatIdx : TableSelectPrivate → Int → TableSelectPrivate

/-- Set the active Directory Table index: the state after the call and the calls made
on the card. -/
def TableSelect.setActiveDatIdx (setters : CardSetters) (d : TableSelectPrivate)
    (idx : Int) : TableSelectPrivate × List CardCall :=
  if d.card.isNone ∨ idx < 0 ∨ idx ≥ 2 then (d, [])
  else (setters.setActiveDatIdx d idx, [.setActiveDatIdx idx])

/-- Set the active Block Table index: the state after the call and the calls made on
the card. -/
def TableSelect.setActiveBatIdx (setters : CardSetters) (d : TableSelectPrivate)
    (idx : Int) : TableSelectPrivate × List CardCall :=
  if d.card.isNone ∨ idx < 0 ∨ idx ≥ 2 then (d, [])
  else (setters.setActiveBatIdx d idx, [.setActiveBatIdx idx])

/-- A card with two tables of each kind, all valid, the first of each selected and
named by the header. -/
def exampleCard : Card :=
  { datCount := 2, batCount := 2, activeDatIdx := 0, activeBatIdx := 0,
    activeDatHdrIdx := 0, activeBatHdrIdx := 0,
    isDatValid := fun _ => true, isBatValid := fun _ => true }

/-- A card with two tables of each kind, none valid and none selected. -/
def exampleCardNoActive : Card :=
  { datCount := 2, batCount := 2, activeDatIdx := -1, activeBatIdx := -1,
    activeDatHdrIdx := -1, activeBatHdrIdx := -1,
    isDatValid := fun _ => false, isBatValid := fun _ => false }

/-- Setters that store the index in the card and leave the widgets alone. -/
def exampleSetters : CardSetters :=
  { setActiveDatIdx := fun d idx =>
      { d with card := d.card.map fun c => { c with activeDatIdx := idx } },
    setActiveBatIdx := fun d idx =>
      { d with card := d.card.map fun c => { c with activeBatIdx := idx } } }

/-- Update the widget display: with a card, the widget count and then the two table
displays (showing and hiding the widgets is left out of the state). -/
def TableSelectPrivate.updateWidgetDisplay (d : TableSelectPrivate) :
    Option TableSelectPrivate :=
  match d.card with
  | none => some d
  | some _ =>
    match d.updateWidgetCount with
    | none => none
    | some d1 =>
      match d1.updateDirTableDisplay with
      | none => none
      | some d2 => d2.updateBlockTableDisplay

/-- Set the card being displayed, then update the widget display. -/
def TableSelect.setCard (d : TableSelectPrivate) (card : Option Card) :
    Option TableSelectPrivate :=
  TableSelectPrivate.updateWidgetDisplay { d with card := card }

/-- Which buttons of a vector are checked. -/
def checkedStates (btns : List QPushButton) : List Bool :=
  btns.map fun b => b.checked

/-! ## The main window (`McRecoverWindow.cpp`) -/

/-- Modelled from the spec: the directory entry of the card format (`card_direntry`),
with the fields in the order of the format. `gamecode` has 4 bytes, `company` 2 and
`filename` 32. The header that declares it is not among the sources. -/
structure card_direntry where
  gamecode : List Nat
  company : List Nat
  pad_00 : Nat
  bannerfmt : Nat
  filename : List Nat
  lastmodified : Nat
  iconaddr : Nat
  iconfmt : Nat
  iconspeed : Nat
  permission : Nat
  copytimes : Nat
  block : Nat
  length : Nat
  pad_01 : Nat
  commentaddr : Nat
  deriving DecidableEq, Repr

/-- Modelled from the spec: the size of the `filename` field of a directory entry. -/
def CARD_FILENAME_MAX : Nat := 32

/-- The bytes of a string literal, without the terminator. -/
def bytes (s : String) : List Nat := s.toList.map Char.toNat

/-- The destination after `strncpy(dest, src, n)` for a source without a zero byte
inside: the first `n` bytes of the source, filled up with zero bytes. -/
def strncpy (src : List Nat) (n : Nat) : List Nat :=
  (src ++ List.replicate (n - src.length) 0).take n

/-- Modelled from the spec: the memory card as the window reads it, given by the
values of `sizeInBlocks()` and `freeBlocks()` and by which blocks are claimed, that
is reachable from a valid directory entry of the active directory table. The class
is not among the sources. -/
structure MemCard where
  sizeInBlocks : Int
  freeBlocks : Int
  claimed : Nat → Bool

structure McRecoverWindowPrivate where
  card : Option MemCard := none
  filename : QString := []

/-- The widgets of the window that `updateLstMemCard` sets. -/
structure McRecoverWindow where
  lstFileList_headerHidden : Bool
  grpFileList_title : ArgText
  deriving DecidableEq, Repr

/-- The value of an `int` expression: the result is taken modulo 2^32 into the range
of `int`. -/
def wrapInt32 (x : Int) : Int := (x + 2147483648) % 4294967296 - 2147483648

/-- The decimal text `QString::arg(int)` puts in for a number. -/
def QString_number_int (n : Int) : QString :=
  if n < 0 then 45 :: QString_number n.natAbs else QString_number n.toNat

/-- The index of the last occurrence of a character, -1 when there is none. -/
def lastIndexOf (s : QString) (c : QChar) : Int :=
  if s.reverse.indexOf c < s.length then ((s.length - 1 - s.reverse.indexOf c : Nat) : Int)
  else -1

/-- Update the memory card's QTreeView: the header and the title of the group box.
The columns are resized as well, which is no part of the state here. -/
def McRecoverWindowPrivate.updateLstMemCard (d : McRecoverWindowPrivate) : McRecoverWindow :=
  match d.card with
  | none =>
    { lstFileList_headerHidden := true,
      grpFileList_title := { template := QLatin1String "No memory card loaded.", args := [] } }
  | some card =>
    let lastSlash := lastIndexOf d.filename 47
    let displayFilename :=
      if lastSlash ≥ 0 then d.filename.drop (lastSlash + 1).toNat else d.filename
    { lstFileList_headerHidden := false,
      grpFileList_title :=
        { template := QLatin1String "%1: %2 block(s) (%3 free)",
          args := [displayFilename, QString_number_int (wrapInt32 (card.sizeInBlocks - 5)),
            QString_number_int card.freeBlocks] } }

/-- The directory entry `on_btnSearchLostFiles_clicked` fills in. -/
def lostFileEntry : card_direntry :=
  { gamecode := bytes "GSNE",
    company := bytes "8P",
    pad_00 := 0xFF,
    bannerfmt := 0x02,
    filename := strncpy (bytes "SONIC2B__S01") CARD_FILENAME_MAX,
    lastmodified := 0x16A370CC,
    iconaddr := 0x0040,
    iconfmt := 0x0A,
    iconspeed := 0x0F,
    permission := 0x04,
    copytimes := 0x00,
    block := 38,
    length := 0x03,
    pad_01 := 0xFFFF,
    commentaddr := 0x0000 }

/-- The handler of the button that searches for lost files: the entries it passes to
`addLostFile` of the card. -/
def McRecoverWindow.on_btnSearchLostFiles_clicked (d : McRecoverWindowPrivate) :
    List card_direntry :=
  match d.card with
  | none => []
  | some _ => [lostFileEntry]

/-- A card of 64 blocks on which a file has the blocks 36 to 40. -/
def exampleMemCard : MemCard :=
  { sizeInBlocks := 64, freeBlocks := 54, claimed := fun b => decide (36 ≤ b ∧ b ≤ 40) }

/-- A card of 256 blocks with no file. -/
def exampleMemCardLarge : MemCard :=
  { sizeInBlocks := 256, freeBlocks := 251, claimed := fun _ => false }

/-- The file name `updateLstMemCard` extracts from the path: what is left of the
filename after the characters up to and with the last `/` are removed. -/
def displayFilename (filename : QString) : QString :=
  if lastIndexOf filename 47 ≥ 0 then filename.drop (lastIndexOf filename 47 + 1).toNat
  else filename

/-! ## Documents cut short by an error

The reader reports an error by an `Invalid` token. A document that is cut short by
an error is given by the complete children of the root before the error, the place
of the error in the record that was being read (if any), the error token, and what
would have followed it. -/

/-- The text elements of a `file` element. -/
inductive FileField
  | description
  | gamecode
  | company
  deriving DecidableEq, Repr

def FileField.name : FileField → QString
  | .description => QLatin1String "description"
  | .gamecode => QLatin1String "gamecode"
  | .company => QLatin1String "company"

def FileField.item : FileField → QString → FileItem
  | .description, t => .description t
  | .gamecode, t => .gamecode t
  | .company, t => .company t

/-- The text elements of a `search` element. -/
inductive SearchField
  | address
  | gamedesc
  | filedesc
  deriving DecidableEq, Repr

def SearchField.name : SearchField → QString
  | .address => QLatin1String "address"
  | .gamedesc => QLatin1String "gamedesc"
  | .filedesc => QLatin1String "filedesc"

def SearchField.item : SearchField → QString → SearchItem
  | .address, t => .address t
  | .gamedesc, t => .gamedesc t
  | .filedesc, t => .filedesc t

/-- The tokens of a text element up to an error inside it: the start tag and the
text read so far. -/
def cutTextTokens (name text : QString) : List Token :=
  startElement name :: (if text = [] then [] else [characters text])

/-- The place of the error: between two children of the root, or in a `file` record
after some complete children of it, inside a text child of it, inside its `search`
child after some complete children of that, or inside a text child of `search`. -/
inductive Truncation
  | betweenRecords
  | inFile (pre : List FileItem)
  | inFileText (pre : List FileItem) (field : FileField) (text : QString)
  | inSearch (pre : List FileItem) (spre : List SearchItem)
  | inSearchText (pre : List FileItem) (spre : List SearchItem) (field : SearchField)
      (text : QString)
  deriving Repr

/-- The tokens of the record that was being read, up to the error. -/
def Truncation.tokens : Truncation → List Token
  | .betweenRecords => []
  | .inFile pre => startElement (QLatin1String "file") :: fileTokens pre
  | .inFileText pre field text =>
    startElement (QLatin1String "file") ::
      (fileTokens pre ++ cutTextTokens field.name text)
  | .inSearch pre spre =>
    startElement (QLatin1String "file") ::
      (fileTokens pre ++ startElement (QLatin1String "search") :: searchTokens spre)
  | .inSearchText pre spre field text =>
    startElement (QLatin1String "file") ::
      (fileTokens pre ++ startElement (QLatin1String "search") ::
        (searchTokens spre ++ cutTextTokens field.name text))

/-- The record that was being read, with what had been read of it: none when the
error is between two children of the root. -/
def Truncation.record : Truncation → Option (List FileItem)
  | .betweenRecords => none
  | .inFile pre => some pre
  | .inFileText pre field text => some (pre ++ [field.item text])
  | .inSearch pre spre => some (pre ++ [.search spre])
  | .inSearchText pre spre field text => some (pre ++ [.search (spre ++ [field.item text])])

/-- The token sequence of a document that is cut short by the error token `error`
after the complete children `items` of the root. -/
def truncatedTokens (items : List DbItem) (cut : Truncation) (error : Token)
    (rest : List Token) : List Token :=
  { type := .StartDocument } :: startElement (QLatin1String "GcnMcFileDb") ::
    (dbTokens items ++ (cut.tokens ++ error :: rest))

/-- The error token of a tag that is not well formed, at line 7, column 12. -/
def exampleError : Token :=
  { type := .Invalid, name := QLatin1String "Opening and ending tag mismatch.",
    lineNumber := 7, columnNumber := 12 }

/-- A file system with documents that are cut short by an error: after one complete
record and the game code of the second one, and after one complete record inside
the address of the second one. -/
def exampleTruncatedFs : FileSystem := fun filename =>
  if filename = QLatin1String "cut-file.xml" then
    some (truncatedTokens [exampleFile "first" "GALE" "0x2000" "^A" "^B"]
      (.inFile [.description (QLatin1String "second"), .gamecode (QLatin1String "GALJ")])
      exampleError [])
  else if filename = QLatin1String "cut-address.xml" then
    some (truncatedTokens [exampleFile "first" "GALE" "0x2000" "^A" "^B"]
      (.inSearchText [.gamecode (QLatin1String "GALP")] [] .address (QLatin1String "0x30"))
      exampleError [endElement (QLatin1String "GcnMcFileDb")])
  else none

/-! ## Theorems -/

open QXmlStreamReader

theorem remaining_readNext_le (xml : QXmlStreamReader) :
    xml.readNext.remaining ≤ xml.remaining := by
  unfold readNext remaining
  by_cases h : xml.cur.type = .Invalid
  · simp [h]
  · simp only [h, if_false]
    cases hr : xml.rest with
    | nil => simp [raiseError]
    | cons t ts =>
      simp only [List.length_cons]
      split <;> omega

theorem remaining_readNext_lt (xml : QXmlStreamReader) (h : xml.hasError = false) :
    xml.readNext.remaining < xml.remaining := by
  have h1 : ¬ xml.cur.type = .Invalid := by simpa [hasError] using h
  unfold readNext remaining
  simp only [h1, if_false]
  cases hr : xml.rest with
  | nil => simp [raiseError]
  | cons t ts =>
    simp only [List.length_cons]
    split <;> omega

theorem remaining_readElementText_loop (cur : Token) (ts : List Token) (result : QString) :
    (readElementText_loop cur ts result).1.remaining ≤ ts.length + 1 := by
  induction ts generalizing cur result with
  | nil => simp [readElementText_loop, remaining, raiseError]
  | cons t ts ih =>
    unfold readElementText_loop
    split
    all_goals first
      | exact Nat.le_succ_of_le (ih _ _)
      | (simp only [remaining, raiseError, List.length_cons]; split <;> omega)

theorem remaining_parseXml_element (xml : QXmlStreamReader) :
    (parseXml_element xml).1.remaining ≤ xml.remaining := by
  unfold parseXml_element readElementText
  by_cases h : xml.tokenType = .StartElement
  · simp only [h, ne_eq, not_true_eq_false, if_false, if_true]
    have := remaining_readElementText_loop xml.cur xml.rest []
    have h2 : xml.remaining = xml.rest.length + 1 := by
      unfold remaining
      have : xml.cur.type = .StartElement := h
      simp [this]
    omega
  · simp [h]

theorem remaining_step (xml x1 : QXmlStreamReader) (h : xml.hasError = false)
    (hle : x1.remaining ≤ xml.remaining) : x1.readNext.remaining + 1 ≤ xml.remaining := by
  cases h1 : x1.hasError with
  | false =>
    have := remaining_readNext_lt x1 h1
    omega
  | true =>
    have h2 : x1.cur.type = .Invalid := by simpa [hasError] using h1
    have h3 : x1.readNext.remaining = 0 := by simp [readNext, remaining, h2]
    have h4 : 0 < xml.remaining := by
      have : ¬ xml.cur.type = .Invalid := by simpa [hasError] using h
      simp [remaining, this]
    omega

theorem remaining_le_length (xml : QXmlStreamReader) : xml.remaining ≤ xml.rest.length + 1 := by
  unfold remaining; split <;> omega

theorem remaining_parseXml_file_search_body (xml : QXmlStreamReader) (f : gcn_file_def) :
    (parseXml_file_search_body xml f).1.remaining ≤ xml.remaining := by
  unfold parseXml_file_search_body
  split_ifs <;> first | exact remaining_parseXml_element xml | exact le_refl _

theorem parseXml_file_search_loop_ok (fuel : Nat) (xml : QXmlStreamReader) (f : gcn_file_def)
    (hfuel : xml.remaining + 1 ≤ fuel) :
    ∃ r, parseXml_file_search_loop fuel xml f = .ok r ∧ r.1.remaining ≤ xml.remaining := by
  induction fuel generalizing xml f with
  | zero => omega
  | succ n ih =>
    unfold parseXml_file_search_loop
    split_ifs with hg
    · have hne : xml.hasError = false := by simpa using hg.1
      have hs := remaining_step xml _ hne (remaining_parseXml_file_search_body xml f)
      obtain ⟨r, hr, hle⟩ := ih (parseXml_file_search_body xml f).1.readNext
        (parseXml_file_search_body xml f).2 (by omega)
      exact ⟨r, hr, by omega⟩
    · exact ⟨_, rfl, le_refl _⟩

variable (pcre_compile : QString → Option pcre)

theorem parseXml_file_search_ok (xml : QXmlStreamReader) (f : gcn_file_def) :
    ∃ r, parseXml_file_search pcre_compile xml f = .ok r ∧ r.1.remaining ≤ xml.remaining := by
  unfold parseXml_file_search
  split_ifs with hg
  · exact ⟨_, rfl, le_refl _⟩
  · obtain ⟨r, hr, hle⟩ := parseXml_file_search_loop_ok (xml.rest.length + 2) xml.readNext f
      (by have := remaining_readNext_le xml; have := remaining_le_length xml; omega)
    rw [hr]
    exact ⟨_, rfl, le_trans hle (remaining_readNext_le xml)⟩

theorem parseXml_file_body_ok (xml : QXmlStreamReader) (f : gcn_file_def) :
    ∃ r, parseXml_file_body pcre_compile xml f = .ok r ∧ r.1.remaining ≤ xml.remaining := by
  unfold parseXml_file_body
  split_ifs
  all_goals first
    | exact ⟨_, rfl, remaining_parseXml_element xml⟩
    | exact ⟨_, rfl, le_refl _⟩
    | exact parseXml_file_search_ok pcre_compile xml f

theorem parseXml_file_loop_ok (fuel : Nat) (xml : QXmlStreamReader) (f : gcn_file_def)
    (log : List Msg) (hfuel : xml.remaining + 1 ≤ fuel) :
    ∃ r, parseXml_file_loop pcre_compile fuel xml f log = .ok r ∧
      r.1.remaining ≤ xml.remaining := by
  induction fuel generalizing xml f log with
  | zero => omega
  | succ n ih =>
    unfold parseXml_file_loop
    split_ifs with hg
    · have hne : xml.hasError = false := by simpa using hg.1
      obtain ⟨⟨x1, f1, w⟩, hb, hble⟩ := parseXml_file_body_ok pcre_compile xml f
      have hs := remaining_step xml x1 hne hble
      obtain ⟨r, hr, hle⟩ := ih x1.readNext f1 (log ++ w) (by omega)
      rw [hb]
      exact ⟨r, hr, by omega⟩
    · exact ⟨_, rfl, le_refl _⟩

theorem parseXml_file_ok (xml : QXmlStreamReader) :
    ∃ r, parseXml_file pcre_compile xml = .ok r ∧ r.1.remaining ≤ xml.remaining := by
  unfold parseXml_file
  split_ifs with hg
  · exact ⟨_, rfl, le_refl _⟩
  · obtain ⟨⟨x1, f1, w⟩, hr, hle⟩ := parseXml_file_loop_ok pcre_compile
      (xml.rest.length + 2) xml.readNext {} []
      (by have := remaining_readNext_le xml; have := remaining_le_length xml; omega)
    rw [hr]
    exact ⟨_, rfl, le_trans hle (remaining_readNext_le xml)⟩

theorem parseXml_GcnMcFileDb_body_ok (xml : QXmlStreamReader) (m : AddrFileDefs) :
    ∃ r, parseXml_GcnMcFileDb_body pcre_compile xml m = .ok r ∧
      r.1.remaining ≤ xml.remaining := by
  unfold parseXml_GcnMcFileDb_body
  split_ifs with hg
  · obtain ⟨⟨x1, o, w⟩, hr, hle⟩ := parseXml_file_ok pcre_compile xml
    rw [hr]
    cases o with
    | none => exact ⟨_, rfl, hle⟩
    | some g => exact ⟨_, rfl, hle⟩
  · exact ⟨_, rfl, le_refl _⟩

theorem parseXml_GcnMcFileDb_loop_ok (fuel : Nat) (xml : QXmlStreamReader) (m : AddrFileDefs)
    (log : List Msg) (hfuel : xml.remaining + 1 ≤ fuel) :
    ∃ r, parseXml_GcnMcFileDb_loop pcre_compile fuel xml m log = .ok r ∧
      r.1.remaining ≤ xml.remaining := by
  induction fuel generalizing xml m log with
  | zero => omega
  | succ n ih =>
    unfold parseXml_GcnMcFileDb_loop
    split_ifs with hg
    · have hne : xml.hasError = false := by simpa using hg.1
      obtain ⟨⟨x1, m1, w⟩, hb, hble⟩ := parseXml_GcnMcFileDb_body_ok pcre_compile xml m
      have hs := remaining_step xml x1 hne hble
      obtain ⟨r, hr, hle⟩ := ih x1.readNext m1 (log ++ w) (by omega)
      rw [hb]
      exact ⟨r, hr, by omega⟩
    · exact ⟨_, rfl, le_refl _⟩

theorem parseXml_GcnMcFileDb_ok (xml : QXmlStreamReader) (m : AddrFileDefs) :
    ∃ r, parseXml_GcnMcFileDb pcre_compile xml m = .ok r ∧
      r.1.remaining ≤ xml.remaining := by
  unfold parseXml_GcnMcFileDb
  split_ifs with hg
  · exact ⟨_, rfl, le_refl _⟩
  · obtain ⟨r, hr, hle⟩ := parseXml_GcnMcFileDb_loop_ok pcre_compile
      (xml.rest.length + 2) xml.readNext m []
      (by have := remaining_readNext_le xml; have := remaining_le_length xml; omega)
    exact ⟨r, hr, le_trans hle (remaining_readNext_le xml)⟩

theorem load_body_ok (xml : QXmlStreamReader) (m : AddrFileDefs) (h : xml.hasError = false) :
    ∃ r, load_body pcre_compile xml m = .ok r ∧ r.1.remaining + 1 ≤ xml.remaining := by
  have hlt := remaining_readNext_lt xml h
  unfold load_body
  split_ifs with hg
  · obtain ⟨r, hr, hle⟩ := parseXml_GcnMcFileDb_ok pcre_compile xml.readNext m
    exact ⟨r, hr, by omega⟩
  · exact ⟨_, rfl, by simpa using hlt⟩

theorem load_loop_ok (fuel : Nat) (xml : QXmlStreamReader) (m : AddrFileDefs)
    (log : List Msg) (hfuel : xml.remaining + 1 ≤ fuel) :
    ∃ r, load_loop pcre_compile fuel xml m log = .ok r := by
  induction fuel generalizing xml m log with
  | zero => omega
  | succ n ih =>
    unfold load_loop
    split_ifs with hg
    · have hne : xml.hasError = false := by simpa using hg.2
      obtain ⟨⟨x1, m1, w⟩, hb, hble⟩ := load_body_ok pcre_compile xml m hne
      obtain ⟨r, hr⟩ := ih x1 m1 (log ++ w) (by simp only at hble; omega)
      rw [hb]
      exact ⟨r, hr⟩
    · exact ⟨_, rfl⟩

/-! ### The index is the fold of `addFile` over the parsed definitions -/

theorem parseXml_GcnMcFileDb_loop_parsedFiles (fuel : Nat) (xml : QXmlStreamReader)
    (m : AddrFileDefs) (log : List Msg) :
    match parsedFiles_GcnMcFileDb_loop pcre_compile fuel xml with
    | .error e => parseXml_GcnMcFileDb_loop pcre_compile fuel xml m log = .error e
    | .ok (x, rs) => ∃ w, parseXml_GcnMcFileDb_loop pcre_compile fuel xml m log =
        .ok (x, rs.foldl addFile m, log ++ w) := by
  induction fuel generalizing xml m log with
  | zero => simp [parsedFiles_GcnMcFileDb_loop, parseXml_GcnMcFileDb_loop]
  | succ n ih =>
    unfold parsedFiles_GcnMcFileDb_loop parseXml_GcnMcFileDb_loop parseXml_GcnMcFileDb_body
    by_cases hg : ¬ xml.hasError ∧
        ¬ (xml.tokenType = .EndElement ∧ xml.name = QLatin1String "GcnMcFileDb")
    · simp only [hg, if_true]
      by_cases hf : xml.tokenType = .StartElement ∧ xml.name = QLatin1String "file"
      · simp only [hf, if_true]
        cases hp : parseXml_file pcre_compile xml with
        | error e => simp
        | ok r =>
          obtain ⟨x1, o, w⟩ := r
          cases o with
          | none =>
            simp only
            have := ih x1.readNext m (log ++ w)
            cases hq : parsedFiles_GcnMcFileDb_loop pcre_compile n x1.readNext with
            | error e => simpa [hq] using this
            | ok r2 =>
              obtain ⟨x2, rs⟩ := r2
              rw [hq] at this
              obtain ⟨w2, hw2⟩ := this
              exact ⟨w ++ w2, by simp [hw2]⟩
          | some g =>
            simp only
            have := ih x1.readNext (addFile m g) (log ++ w)
            cases hq : parsedFiles_GcnMcFileDb_loop pcre_compile n x1.readNext with
            | error e => simpa [hq] using this
            | ok r2 =>
              obtain ⟨x2, rs⟩ := r2
              rw [hq] at this
              obtain ⟨w2, hw2⟩ := this
              exact ⟨w ++ w2, by simp [hw2]⟩
      · simp only [hf, if_false]
        have := ih xml.readNext m (log ++ [])
        cases hq : parsedFiles_GcnMcFileDb_loop pcre_compile n xml.readNext with
        | error e => simpa [hq] using this
        | ok r2 =>
          obtain ⟨x2, rs⟩ := r2
          rw [hq] at this
          obtain ⟨w2, hw2⟩ := this
          exact ⟨w2, by simpa using hw2⟩
    · simp only [hg, if_false]
      exact ⟨[], by simp⟩

theorem parseXml_GcnMcFileDb_parsedFiles (xml : QXmlStreamReader) (m : AddrFileDefs) :
    match parsedFiles_GcnMcFileDb pcre_compile xml with
    | .error e => parseXml_GcnMcFileDb pcre_compile xml m = .error e
    | .ok (x, rs) => ∃ w, parseXml_GcnMcFileDb pcre_compile xml m =
        .ok (x, rs.foldl addFile m, w) := by
  unfold parsedFiles_GcnMcFileDb parseXml_GcnMcFileDb
  split_ifs with hg
  · exact ⟨[], rfl⟩
  · have := parseXml_GcnMcFileDb_loop_parsedFiles pcre_compile (xml.rest.length + 2)
      xml.readNext m []
    cases hq : parsedFiles_GcnMcFileDb_loop pcre_compile (xml.rest.length + 2) xml.readNext with
    | error e => simpa [hq] using this
    | ok r2 =>
      obtain ⟨x2, rs⟩ := r2
      rw [hq] at this
      obtain ⟨w2, hw2⟩ := this
      exact ⟨w2, by simpa using hw2⟩

theorem load_loop_parsedFiles (fuel : Nat) (xml : QXmlStreamReader)
    (m : AddrFileDefs) (log : List Msg) :
    match parsedFiles_load_loop pcre_compile fuel xml with
    | .error e => load_loop pcre_compile fuel xml m log = .error e
    | .ok (x, rs) => ∃ w, load_loop pcre_compile fuel xml m log =
        .ok (x, rs.foldl addFile m, log ++ w) := by
  induction fuel generalizing xml m log with
  | zero => simp [parsedFiles_load_loop, load_loop]
  | succ n ih =>
    unfold parsedFiles_load_loop load_loop load_body
    by_cases hg : ¬ xml.atEnd ∧ ¬ xml.hasError
    · simp only [hg, if_true]
      by_cases hf : xml.readNext.tokenType = .StartElement ∧
          xml.readNext.name = QLatin1String "GcnMcFileDb"
      · simp only [hf, if_true]
        have h1 := parseXml_GcnMcFileDb_parsedFiles pcre_compile xml.readNext m
        cases hp : parsedFiles_GcnMcFileDb pcre_compile xml.readNext with
        | error e => rw [hp] at h1; simp [h1]
        | ok r =>
          obtain ⟨x1, rs1⟩ := r
          rw [hp] at h1
          obtain ⟨w1, hw1⟩ := h1
          simp only [hw1]
          have := ih x1 (rs1.foldl addFile m) (log ++ w1)
          cases hq : parsedFiles_load_loop pcre_compile n x1 with
          | error e => simpa [hq] using this
          | ok r2 =>
            obtain ⟨x2, rs⟩ := r2
            rw [hq] at this
            obtain ⟨w2, hw2⟩ := this
            exact ⟨w1 ++ w2, by simp [hw2]⟩
      · simp only [hf, if_false]
        have := ih xml.readNext m (log ++ [])
        cases hq : parsedFiles_load_loop pcre_compile n xml.readNext with
        | error e => simpa [hq] using this
        | ok r2 =>
          obtain ⟨x2, rs⟩ := r2
          rw [hq] at this
          obtain ⟨w2, hw2⟩ := this
          exact ⟨w2, by simpa using hw2⟩
    · simp only [hg, if_false]
      exact ⟨[], by simp⟩

/-! ### `clear` and `load` -/

theorem clear_eq (d d0 : GcnMcFileDbPrivate) (h : clear d = .ok d0) :
    d0 = { d with addr_file_defs := [] } := by
  unfold clear at h
  split at h
  · cases h
  · injection h with h; exact h.symm

theorem clear_empty (es : QString) :
    clear { addr_file_defs := [], errorString := es } =
      .ok { addr_file_defs := [], errorString := es } := rfl

theorem parsedFiles_ok (doc : List Token) : ∃ recs, parsedFiles pcre_compile doc = .ok recs := by
  obtain ⟨r, hr⟩ := load_loop_ok pcre_compile (doc.length + 2) (onDevice doc) [] []
    (by have := remaining_le_length (onDevice doc); simp only [onDevice] at this ⊢; omega)
  have h := load_loop_parsedFiles pcre_compile (doc.length + 2) (onDevice doc) [] []
  unfold parsedFiles
  cases hq : parsedFiles_load_loop pcre_compile (doc.length + 2) (onDevice doc) with
  | error e => rw [hq] at h; simp only at h; rw [h] at hr; cases hr
  | ok r2 => exact ⟨r2.2, rfl⟩

theorem load_of_open (fs : FileSystem) (d d0 : GcnMcFileDbPrivate) (filename : QString)
    (doc : List Token) (hc : clear d = .ok d0) (hf : fs filename = some doc) :
    ∃ recs status es log, parsedFiles pcre_compile doc = .ok recs ∧
      (status = 0 ∨ status = -2) ∧
      load pcre_compile fs d filename =
        .ok (status, { addr_file_defs := recs.foldl addFile [], errorString := es }, log) := by
  have hd0 := clear_eq d d0 hc
  have h := load_loop_parsedFiles pcre_compile (doc.length + 2) (onDevice doc) [] []
  obtain ⟨recs, hrecs⟩ := parsedFiles_ok pcre_compile doc
  unfold parsedFiles at hrecs
  unfold load
  simp only [hc, hf, hd0]
  cases hq : parsedFiles_load_loop pcre_compile (doc.length + 2) (onDevice doc) with
  | error e => rw [hq] at hrecs; cases hrecs
  | ok r2 =>
    obtain ⟨x, rs⟩ := r2
    rw [hq] at h hrecs
    injection hrecs with hrecs
    subst hrecs
    obtain ⟨w, hw⟩ := h
    simp only [hw]
    by_cases he : x.hasError = true
    · simp only [he, if_true]
      exact ⟨rs, -2, _, _, by simp [parsedFiles, hq], Or.inr rfl, rfl⟩
    · simp only [he]
      exact ⟨rs, 0, _, _, by simp [parsedFiles, hq], Or.inl rfl, rfl⟩

theorem load_of_not_open (fs : FileSystem) (d d0 : GcnMcFileDbPrivate) (filename : QString)
    (hc : clear d = .ok d0) (hf : fs filename = none) :
    load pcre_compile fs d filename = .ok (-1, { d with addr_file_defs := [] }, []) := by
  have hd0 := clear_eq d d0 hc
  unfold load
  simp [hc, hf, hd0]

/-! ### The map operations -/

namespace AddrFileDefs

theorem value_insert (m : AddrFileDefs) (key : Nat) (v : List gcn_file_def) (a : Nat) :
    value (insert m key v) a = if a = key then some v else value m a := by
  induction m with
  | nil =>
    simp only [insert, value]
    by_cases h : key = a
    · simp [h]
    · have : ¬ a = key := fun e => h e.symm
      simp [h, this]
  | cons e m ih =>
    obtain ⟨k, w⟩ := e
    unfold insert
    split_ifs with h1 h2 h3 h3
    all_goals simp only [value, ih]
    all_goals split_ifs <;> first | rfl | omega

theorem value_append (m : AddrFileDefs) (key : Nat) (f : gcn_file_def) (a : Nat) :
    value (append m key f) a =
      if a = key then (value m key).map (fun v => v ++ [f]) else value m a := by
  induction m with
  | nil => simp [append, value]
  | cons e m ih =>
    obtain ⟨k, w⟩ := e
    unfold append
    split_ifs with h1 h2 h2
    all_goals simp only [value, ih]
    all_goals split_ifs <;> first | rfl | omega

theorem value_addFile (m : AddrFileDefs) (f : gcn_file_def) (a : Nat) :
    value (addFile m f) a =
      if a = f.search.address then some (lookup m a ++ [f]) else value m a := by
  unfold addFile lookup
  simp only [value_append]
  cases hv : value m f.search.address with
  | none =>
    simp only [Option.isNone_none, if_true, value_insert]
    split_ifs with h
    · subst h; simp [hv]
    · rfl
  | some v =>
    simp only [Option.isNone_some, Bool.false_eq_true, if_false, hv]
    split_ifs with h
    · subst h; simp [hv]
    · rfl

theorem lookup_addFile (m : AddrFileDefs) (f : gcn_file_def) (a : Nat) :
    lookup (addFile m f) a =
      if a = f.search.address then lookup m a ++ [f] else lookup m a := by
  unfold lookup
  rw [value_addFile]
  split_ifs <;> simp [lookup]

theorem lookup_foldl_addFile (recs : List gcn_file_def) (m : AddrFileDefs) (a : Nat) :
    lookup (recs.foldl addFile m) a =
      lookup m a ++ recs.filter (fun f => f.search.address = a) := by
  induction recs generalizing m with
  | nil => simp
  | cons f recs ih =>
    simp only [List.foldl_cons, ih, lookup_addFile, List.filter_cons]
    by_cases h : a = f.search.address
    · simp [h]
    · have : ¬ f.search.address = a := fun e => h e.symm
      simp [h, this]

theorem value_foldl_addFile_isNone (recs : List gcn_file_def) (m : AddrFileDefs) (a : Nat) :
    value (recs.foldl addFile m) a = none ↔
      value m a = none ∧ ∀ f ∈ recs, f.search.address ≠ a := by
  induction recs generalizing m with
  | nil => simp
  | cons f recs ih =>
    simp only [List.foldl_cons, ih, value_addFile, List.mem_cons, forall_eq_or_imp]
    by_cases h : a = f.search.address
    · simp [h]
    · have : ¬ f.search.address = a := fun e => h e.symm
      simp [h, this]

theorem value_eq_some_lookup (m : AddrFileDefs) (a : Nat) (h : value m a ≠ none) :
    value m a = some (lookup m a) := by
  unfold lookup
  cases hv : value m a with
  | none => exact absurd hv h
  | some v => rfl

theorem value_eq_none_iff (m : AddrFileDefs) (a : Nat) : value m a = none ↔ a ∉ keys m := by
  induction m with
  | nil => simp [value, keys]
  | cons e m ih =>
    obtain ⟨k, w⟩ := e
    simp only [value, keys, List.map_cons, List.mem_cons, not_or] at ih ⊢
    split_ifs with h
    · simp [h]
    · simp only [ih, keys]
      constructor
      · intro h2; exact ⟨fun e => h e.symm, h2⟩
      · intro h2; exact h2.2

theorem mem_keys_insert (m : AddrFileDefs) (key : Nat) (v : List gcn_file_def) (a : Nat) :
    a ∈ keys (insert m key v) ↔ a = key ∨ a ∈ keys m := by
  rw [← not_iff_not, ← value_eq_none_iff, value_insert, not_or, ← value_eq_none_iff]
  split_ifs with h <;> simp [h]

theorem keys_append (m : AddrFileDefs) (key : Nat) (f : gcn_file_def) :
    keys (append m key f) = keys m := by
  induction m with
  | nil => rfl
  | cons e m ih =>
    obtain ⟨k, w⟩ := e
    unfold append
    split_ifs with h
    · rfl
    · simp only [keys, List.map_cons] at ih ⊢
      rw [ih]

theorem sorted_insert (m : AddrFileDefs) (key : Nat) (v : List gcn_file_def)
    (h : (keys m).Pairwise (· < ·)) : (keys (insert m key v)).Pairwise (· < ·) := by
  induction m with
  | nil => simp [insert, keys]
  | cons e m ih =>
    obtain ⟨k, w⟩ := e
    have hk : ∀ a ∈ keys m, k < a := by
      simp only [keys, List.map_cons, List.pairwise_cons] at h
      exact h.1
    have hm : (keys m).Pairwise (· < ·) := by
      simp only [keys, List.map_cons, List.pairwise_cons] at h
      exact h.2
    unfold insert
    split_ifs with h1 h2
    · simp only [keys, List.map_cons, List.pairwise_cons, List.mem_cons] at h ⊢
      refine ⟨?_, h⟩
      intro a ha
      rcases ha with ha | ha
      · omega
      · have := hk a ha; omega
    · exact h
    · have h3 := ih hm
      have h4 : ∀ a ∈ keys (insert m key v), k < a := by
        intro a ha
        rcases (mem_keys_insert m key v a).1 ha with ha | ha
        · omega
        · exact hk a ha
      simp only [keys, List.map_cons, List.pairwise_cons] at h3 h4 ⊢
      exact ⟨h4, h3⟩

theorem sorted_addFile (m : AddrFileDefs) (f : gcn_file_def)
    (h : (keys m).Pairwise (· < ·)) : (keys (addFile m f)).Pairwise (· < ·) := by
  unfold addFile
  simp only [keys_append]
  split_ifs
  · exact sorted_insert m _ _ h
  · exact h

theorem sorted_foldl_addFile (recs : List gcn_file_def) (m : AddrFileDefs)
    (h : (keys m).Pairwise (· < ·)) : (keys (recs.foldl addFile m)).Pairwise (· < ·) := by
  induction recs generalizing m with
  | nil => exact h
  | cons f recs ih => exact ih _ (sorted_addFile m f h)

theorem allDefs_insert_nil (m : AddrFileDefs) (key : Nat) (h : value m key = none) :
    allDefs (insert m key []) = allDefs m := by
  induction m with
  | nil => rfl
  | cons e m ih =>
    obtain ⟨k, w⟩ := e
    simp only [value] at h
    split_ifs at h with hk
    have hk2 : ¬ key = k := fun e => hk e.symm
    unfold insert
    split_ifs with h1
    · simp [allDefs]
    · simp only [allDefs, List.map_cons, List.flatten_cons] at ih ⊢
      rw [ih h]

theorem allDefs_append (m : AddrFileDefs) (key : Nat) (f : gcn_file_def)
    (h : value m key ≠ none) : (allDefs (append m key f)).Perm (f :: allDefs m) := by
  induction m with
  | nil => simp [value] at h
  | cons e m ih =>
    obtain ⟨k, w⟩ := e
    unfold append
    split_ifs with hk
    · simp [allDefs]
    · simp only [value, hk, if_false] at h
      have := ih h
      simp only [allDefs, List.map_cons, List.flatten_cons] at this ⊢
      exact (List.Perm.append_left w this).trans (List.perm_middle)

theorem allDefs_addFile (m : AddrFileDefs) (f : gcn_file_def) :
    (allDefs (addFile m f)).Perm (f :: allDefs m) := by
  unfold addFile
  cases hv : value m f.search.address with
  | none =>
    simp only [hv, Option.isNone_none, if_true]
    have h1 : value (insert m f.search.address []) f.search.address ≠ none := by
      simp [value_insert]
    have := allDefs_append _ _ f h1
    rwa [allDefs_insert_nil m _ hv] at this
  | some v =>
    simp only [hv, Option.isNone_some, Bool.false_eq_true, if_false]
    exact allDefs_append m _ f (by rw [hv]; simp)

theorem allDefs_foldl_addFile (recs : List gcn_file_def) (m : AddrFileDefs) :
    (allDefs (recs.foldl addFile m)).Perm (allDefs m ++ recs) := by
  induction recs generalizing m with
  | nil => simp
  | cons f recs ih =>
    simp only [List.foldl_cons]
    refine (ih (addFile m f)).trans ?_
    refine (List.Perm.append_right recs (allDefs_addFile m f)).trans ?_
    simpa using (@List.perm_middle _ f (allDefs m) recs).symm

end AddrFileDefs

/-! ### Every parsed definition comes from a call of `parseXml_file` -/

theorem parsedFiles_GcnMcFileDb_loop_forall (P : gcn_file_def → Prop)
    (hP : ∀ xml x1 f w, parseXml_file pcre_compile xml = .ok (x1, some f, w) → P f)
    (fuel : Nat) (xml x : QXmlStreamReader) (rs : List gcn_file_def)
    (h : parsedFiles_GcnMcFileDb_loop pcre_compile fuel xml = .ok (x, rs)) :
    ∀ f ∈ rs, P f := by
  induction fuel generalizing xml x rs with
  | zero => simp [parsedFiles_GcnMcFileDb_loop] at h
  | succ n ih =>
    unfold parsedFiles_GcnMcFileDb_loop at h
    split_ifs at h with hg hf
    · cases hp : parseXml_file pcre_compile xml with
      | error e => simp [hp] at h
      | ok r =>
        obtain ⟨x1, o, w⟩ := r
        simp only [hp] at h
        cases hq : parsedFiles_GcnMcFileDb_loop pcre_compile n x1.readNext with
        | error e => simp [hq] at h
        | ok r2 =>
          obtain ⟨x2, rs2⟩ := r2
          simp only [hq, Except.ok.injEq, Prod.mk.injEq] at h
          obtain ⟨-, rfl⟩ := h
          intro f hf
          rcases List.mem_append.1 hf with hf | hf
          · cases o with
            | none => simp at hf
            | some g =>
              simp only [Option.toList_some, List.mem_singleton] at hf
              subst hf
              exact hP _ _ _ _ hp
          · exact ih _ _ _ hq f hf
    · exact ih _ _ _ h
    · simp only [Except.ok.injEq, Prod.mk.injEq] at h
      obtain ⟨-, rfl⟩ := h
      simp

theorem parsedFiles_load_loop_forall (P : gcn_file_def → Prop)
    (hP : ∀ xml x1 f w, parseXml_file pcre_compile xml = .ok (x1, some f, w) → P f)
    (fuel : Nat) (xml x : QXmlStreamReader) (rs : List gcn_file_def)
    (h : parsedFiles_load_loop pcre_compile fuel xml = .ok (x, rs)) :
    ∀ f ∈ rs, P f := by
  induction fuel generalizing xml x rs with
  | zero => simp [parsedFiles_load_loop] at h
  | succ n ih =>
    unfold parsedFiles_load_loop at h
    split_ifs at h with hg hf
    · cases hp : parsedFiles_GcnMcFileDb pcre_compile xml.readNext with
      | error e => simp [hp] at h
      | ok r =>
        obtain ⟨x1, rs1⟩ := r
        simp only [hp] at h
        cases hq : parsedFiles_load_loop pcre_compile n x1 with
        | error e => simp [hq] at h
        | ok r2 =>
          obtain ⟨x2, rs2⟩ := r2
          simp only [hq, Except.ok.injEq, Prod.mk.injEq] at h
          obtain ⟨-, rfl⟩ := h
          intro f hf
          rcases List.mem_append.1 hf with hf | hf
          · unfold parsedFiles_GcnMcFileDb at hp
            split_ifs at hp
            · simp only [Except.ok.injEq, Prod.mk.injEq] at hp
              obtain ⟨-, rfl⟩ := hp
              simp at hf
            · exact parsedFiles_GcnMcFileDb_loop_forall pcre_compile P hP _ _ _ _ hp f hf
          · exact ih _ _ _ hq f hf
    · exact ih _ _ _ h
    · simp only [Except.ok.injEq, Prod.mk.injEq] at h
      obtain ⟨-, rfl⟩ := h
      simp

theorem parsedFiles_forall (P : gcn_file_def → Prop)
    (hP : ∀ xml x1 f w, parseXml_file pcre_compile xml = .ok (x1, some f, w) → P f)
    (doc : List Token) (recs : List gcn_file_def)
    (h : parsedFiles pcre_compile doc = .ok recs) : ∀ f ∈ recs, P f := by
  unfold parsedFiles at h
  cases hq : parsedFiles_load_loop pcre_compile (doc.length + 2) (onDevice doc) with
  | error e => simp [hq] at h
  | ok r =>
    obtain ⟨x, rs⟩ := r
    simp only [hq, Except.ok.injEq] at h
    subst h
    exact parsedFiles_load_loop_forall pcre_compile P hP _ _ _ _ hq

/-! ### What `parseXml_file` returns -/

theorem toUInt_lt (s : QString) : toUInt s < 4294967296 := by
  unfold toUInt
  split
  · split_ifs <;> omega
  · omega

/-- The part of the state of a definition that the loops keep: no region is set, and
the address is a 32-bit value. -/
theorem parseXml_file_search_body_keeps (xml : QXmlStreamReader) (f : gcn_file_def) :
    (parseXml_file_search_body xml f).2.regions = f.regions ∧
    (parseXml_file_search_body xml f).2.description = f.description ∧
    (parseXml_file_search_body xml f).2.gamecode = f.gamecode ∧
    (parseXml_file_search_body xml f).2.company = f.company ∧
    (f.search.address < 4294967296 →
      (parseXml_file_search_body xml f).2.search.address < 4294967296) := by
  unfold parseXml_file_search_body
  split_ifs <;> simp [toUInt_lt]

theorem parseXml_file_search_loop_keeps (fuel : Nat) (xml x1 : QXmlStreamReader)
    (f f1 : gcn_file_def) (h : parseXml_file_search_loop fuel xml f = .ok (x1, f1)) :
    f1.regions = f.regions ∧ f1.description = f.description ∧ f1.gamecode = f.gamecode ∧
    f1.company = f.company ∧
    (f.search.address < 4294967296 → f1.search.address < 4294967296) := by
  induction fuel generalizing xml f with
  | zero => simp [parseXml_file_search_loop] at h
  | succ n ih =>
    unfold parseXml_file_search_loop at h
    split_ifs at h with hg
    · have h1 := ih _ _ h
      have h2 := parseXml_file_search_body_keeps xml f
      refine ⟨h1.1.trans h2.1, h1.2.1.trans h2.2.1, h1.2.2.1.trans h2.2.2.1,
        h1.2.2.2.1.trans h2.2.2.2.1, fun hb => h1.2.2.2.2 (h2.2.2.2.2 hb)⟩
    · simp only [Except.ok.injEq, Prod.mk.injEq] at h
      obtain ⟨-, rfl⟩ := h
      simp

/-- A message about a regular expression (not about a game code). -/
theorem compile_regexp_log (regexp : QString) :
    ∀ g, Msg.invalidGameCode g ∉ (compile_regexp pcre_compile regexp).2 := by
  intro g
  simp only [compile_regexp]
  split_ifs <;> simp

theorem parseXml_file_search_spec (xml x1 : QXmlStreamReader) (f f1 : gcn_file_def)
    (w : List Msg) (h : parseXml_file_search pcre_compile xml f = .ok (x1, f1, w))
    (hre : f.search.gamedesc_regexp = (compile_regexp pcre_compile f.search.gamedesc).1 ∧
      f.search.filedesc_regexp = (compile_regexp pcre_compile f.search.filedesc).1) :
    f1.regions = f.regions ∧ f1.description = f.description ∧ f1.gamecode = f.gamecode ∧
    f1.company = f.company ∧
    (f.search.address < 4294967296 → f1.search.address < 4294967296) ∧
    f1.search.gamedesc_regexp = (compile_regexp pcre_compile f1.search.gamedesc).1 ∧
    f1.search.filedesc_regexp = (compile_regexp pcre_compile f1.search.filedesc).1 ∧
    (∀ g, Msg.invalidGameCode g ∉ w) := by
  unfold parseXml_file_search at h
  split_ifs at h with hg
  · simp only [Except.ok.injEq, Prod.mk.injEq] at h
    obtain ⟨-, rfl, rfl⟩ := h
    simp [hre]
  · cases hq : parseXml_file_search_loop (xml.rest.length + 2) xml.readNext f with
    | error e => simp [hq] at h
    | ok r =>
      obtain ⟨x2, f2⟩ := r
      simp only [hq, Except.ok.injEq, Prod.mk.injEq] at h
      obtain ⟨-, rfl, rfl⟩ := h
      have hk := parseXml_file_search_loop_keeps _ _ _ _ _ hq
      refine ⟨hk.1, hk.2.1, hk.2.2.1, hk.2.2.2.1, hk.2.2.2.2, rfl, rfl, ?_⟩
      intro g hmem
      rcases List.mem_append.1 hmem with hm | hm
      · exact compile_regexp_log pcre_compile _ g hm
      · exact compile_regexp_log pcre_compile _ g hm

/-- The invariant of the loop of `parseXml_file`. -/
theorem parseXml_file_body_spec (xml x1 : QXmlStreamReader) (f f1 : gcn_file_def)
    (w : List Msg) (h : parseXml_file_body pcre_compile xml f = .ok (x1, f1, w))
    (hre : f.search.gamedesc_regexp = (compile_regexp pcre_compile f.search.gamedesc).1 ∧
      f.search.filedesc_regexp = (compile_regexp pcre_compile f.search.filedesc).1)
    (hreg : f.regions = 0) (haddr : f.search.address < 4294967296) :
    (f1.search.gamedesc_regexp = (compile_regexp pcre_compile f1.search.gamedesc).1 ∧
      f1.search.filedesc_regexp = (compile_regexp pcre_compile f1.search.filedesc).1) ∧
    f1.regions = 0 ∧ f1.search.address < 4294967296 ∧
    (∀ g, Msg.invalidGameCode g ∉ w) := by
  unfold parseXml_file_body at h
  split_ifs at h
  all_goals first
    | (simp only [Except.ok.injEq, Prod.mk.injEq] at h
       obtain ⟨-, rfl, rfl⟩ := h
       simp [hre, hreg, haddr])
    | exact ⟨⟨(parseXml_file_search_spec pcre_compile _ _ _ _ _ h hre).2.2.2.2.2.1,
          (parseXml_file_search_spec pcre_compile _ _ _ _ _ h hre).2.2.2.2.2.2.1⟩,
        (parseXml_file_search_spec pcre_compile _ _ _ _ _ h hre).1.trans hreg,
        (parseXml_file_search_spec pcre_compile _ _ _ _ _ h hre).2.2.2.2.1 haddr,
        (parseXml_file_search_spec pcre_compile _ _ _ _ _ h hre).2.2.2.2.2.2.2⟩

theorem parseXml_file_loop_spec (fuel : Nat) (xml x1 : QXmlStreamReader) (f f1 : gcn_file_def)
    (log w : List Msg) (h : parseXml_file_loop pcre_compile fuel xml f log = .ok (x1, f1, w))
    (hre : f.search.gamedesc_regexp = (compile_regexp pcre_compile f.search.gamedesc).1 ∧
      f.search.filedesc_regexp = (compile_regexp pcre_compile f.search.filedesc).1)
    (hreg : f.regions = 0) (haddr : f.search.address < 4294967296)
    (hlog : ∀ g, Msg.invalidGameCode g ∉ log) :
    (f1.search.gamedesc_regexp = (compile_regexp pcre_compile f1.search.gamedesc).1 ∧
      f1.search.filedesc_regexp = (compile_regexp pcre_compile f1.search.filedesc).1) ∧
    f1.regions = 0 ∧ f1.search.address < 4294967296 ∧
    (∀ g, Msg.invalidGameCode g ∉ w) := by
  induction fuel generalizing xml f log with
  | zero => simp [parseXml_file_loop] at h
  | succ n ih =>
    unfold parseXml_file_loop at h
    split_ifs at h with hg
    · cases hb : parseXml_file_body pcre_compile xml f with
      | error e => simp [hb] at h
      | ok r =>
        obtain ⟨x2, f2, w2⟩ := r
        simp only [hb] at h
        have hs := parseXml_file_body_spec pcre_compile _ _ _ _ _ hb hre hreg haddr
        refine ih _ _ _ h hs.1 hs.2.1 hs.2.2.1 ?_
        intro g hmem
        rcases List.mem_append.1 hmem with hm | hm
        · exact hlog g hm
        · exact hs.2.2.2 g hm
    · simp only [Except.ok.injEq, Prod.mk.injEq] at h
      obtain ⟨-, rfl, rfl⟩ := h
      exact ⟨hre, hreg, haddr, hlog⟩

theorem compile_regexp_nil : compile_regexp pcre_compile [] = (none, [Msg.emptyRegexp]) := rfl

/-- What every definition returned by `parseXml_file` satisfies. -/
theorem parseXml_file_spec (xml x1 : QXmlStreamReader) (f : gcn_file_def) (w : List Msg)
    (h : parseXml_file pcre_compile xml = .ok (x1, some f, w)) :
    f.search.gamedesc_regexp = (compile_regexp pcre_compile f.search.gamedesc).1 ∧
    f.search.filedesc_regexp = (compile_regexp pcre_compile f.search.filedesc).1 ∧
    f.regions =
      (if f.gamecode.length = 4 then RegionCharToBitfield (f.gamecode.getD 3 0) else 0) ∧
    f.search.address < 4294967296 ∧
    (f.gamecode.length ≠ 4 → Msg.invalidGameCode f.gamecode ∈ w) ∧
    (f.gamecode.length = 4 → ∀ g, Msg.invalidGameCode g ∉ w) := by
  unfold parseXml_file at h
  split_ifs at h with hg
  · simp at h
  cases hq : parseXml_file_loop pcre_compile (xml.rest.length + 2) xml.readNext {} [] with
  | error e => simp [hq] at h
  | ok r =>
    obtain ⟨x2, f2, w2⟩ := r
    simp only [hq, Except.ok.injEq, Prod.mk.injEq, Option.some.injEq] at h
    obtain ⟨-, rfl, rfl⟩ := h
    have hs := parseXml_file_loop_spec pcre_compile _ _ _ _ _ _ _ hq
      ⟨rfl, rfl⟩ rfl (by decide) (by simp)
    by_cases h4 : f2.gamecode.length = 4
    · have hr : parseXml_file_regions f2 =
          ({ f2 with regions := RegionCharToBitfield (f2.gamecode.getD 3 0) }, []) := by
        simp [parseXml_file_regions, h4]
      rw [hr]
      refine ⟨hs.1.1, hs.1.2, ?_, hs.2.2.1, ?_, ?_⟩
      · simp [h4]
      · intro hne; exact absurd h4 hne
      · intro _ g
        simpa using hs.2.2.2 g
    · have hr : parseXml_file_regions f2 = (f2, [Msg.invalidGameCode f2.gamecode]) := by
        simp [parseXml_file_regions, h4]
      rw [hr]
      refine ⟨hs.1.1, hs.1.2, ?_, hs.2.2.1, ?_, ?_⟩
      · simp [h4, hs.2.1]
      · intro _; simp
      · intro h; exact absurd h h4

/-! ### Reading a database document -/

theorem readNext_cons (c t : Token) (ts : List Token) (hc : c.type ≠ .Invalid) :
    readNext ⟨c, t :: ts⟩ = ⟨t, ts⟩ := by
  simp [readNext, hc]

theorem parseXml_element_textElement (name text : QString) (rest : List Token) :
    parseXml_element
        ⟨startElement name, (if text = [] then [] else [characters text]) ++
          endElement name :: rest⟩ =
      (⟨endElement name, rest⟩, text) := by
  unfold parseXml_element readElementText
  by_cases h : text = []
  · simp [h, tokenType, startElement, readElementText_loop, endElement]
  · simp [h, tokenType, startElement, readElementText_loop, endElement, characters]

theorem name_gamedesc_ne_address : QLatin1String "gamedesc" ≠ QLatin1String "address" := by
  decide

theorem name_filedesc_ne_address : QLatin1String "filedesc" ≠ QLatin1String "address" := by
  decide

theorem name_filedesc_ne_gamedesc : QLatin1String "filedesc" ≠ QLatin1String "gamedesc" := by
  decide

theorem parseXml_file_search_loop_items (items : List SearchItem) (rest : List Token)
    (c : Token) (hc : c.type ≠ .Invalid) (f : gcn_file_def) (fuel : Nat)
    (hfuel : (searchTokens items).length + 1 ≤ fuel) :
    parseXml_file_search_loop fuel
        (readNext ⟨c, searchTokens items ++ endElement (QLatin1String "search") :: rest⟩) f =
      .ok (⟨endElement (QLatin1String "search"), rest⟩,
        { f with search := items.foldl SearchItem.apply f.search }) := by
  induction items generalizing c f fuel with
  | nil =>
    obtain ⟨n, rfl⟩ : ∃ n, fuel = n + 1 := ⟨fuel - 1, by omega⟩
    simp [searchTokens, readNext_cons _ _ _ hc, parseXml_file_search_loop, hasError,
      tokenType, name, endElement]
  | cons i is ih =>
    obtain ⟨n, rfl⟩ : ∃ n, fuel = n + 1 := ⟨fuel - 1, by omega⟩
    cases i with
    | address t =>
      have hn : (searchTokens is).length + 1 ≤ n := by
        simp only [searchTokens, SearchItem.tokens, textElement, List.length_append,
          List.length_cons] at hfuel
        omega
      have e : searchTokens (SearchItem.address t :: is) ++
          endElement (QLatin1String "search") :: rest =
          startElement (QLatin1String "address") ::
            ((if t = [] then [] else [characters t]) ++
              endElement (QLatin1String "address") ::
                (searchTokens is ++ endElement (QLatin1String "search") :: rest)) := by
        simp [searchTokens, SearchItem.tokens, textElement]
      rw [e, readNext_cons _ _ _ hc]
      unfold parseXml_file_search_loop
      have hb : parseXml_file_search_body
          ⟨startElement (QLatin1String "address"),
            (if t = [] then [] else [characters t]) ++
              endElement (QLatin1String "address") ::
                (searchTokens is ++ endElement (QLatin1String "search") :: rest)⟩ f =
          (⟨endElement (QLatin1String "address"),
              searchTokens is ++ endElement (QLatin1String "search") :: rest⟩,
            { f with search := { f.search with address := toUInt t } }) := by
        unfold parseXml_file_search_body
        rw [parseXml_element_textElement]
        simp [tokenType, name, startElement]
      rw [hb]
      simp only [hasError, tokenType, startElement]
      simp only [reduceCtorEq, decide_False, Bool.false_eq_true, not_false_eq_true,
        false_and, and_self, if_true]
      rw [ih _ (by simp [endElement]) _ _ hn]
      rfl
    | gamedesc t =>
      have hn : (searchTokens is).length + 1 ≤ n := by
        simp only [searchTokens, SearchItem.tokens, textElement, List.length_append,
          List.length_cons] at hfuel
        omega
      have e : searchTokens (SearchItem.gamedesc t :: is) ++
          endElement (QLatin1String "search") :: rest =
          startElement (QLatin1String "gamedesc") ::
            ((if t = [] then [] else [characters t]) ++
              endElement (QLatin1String "gamedesc") ::
                (searchTokens is ++ endElement (QLatin1String "search") :: rest)) := by
        simp [searchTokens, SearchItem.tokens, textElement]
      rw [e, readNext_cons _ _ _ hc]
      unfold parseXml_file_search_loop
      have hb : parseXml_file_search_body
          ⟨startElement (QLatin1String "gamedesc"),
            (if t = [] then [] else [characters t]) ++
              endElement (QLatin1String "gamedesc") ::
                (searchTokens is ++ endElement (QLatin1String "search") :: rest)⟩ f =
          (⟨endElement (QLatin1String "gamedesc"),
              searchTokens is ++ endElement (QLatin1String "search") :: rest⟩,
            { f with search := { f.search with gamedesc := t } }) := by
        unfold parseXml_file_search_body
        rw [parseXml_element_textElement]
        simp [tokenType, name, startElement, name_gamedesc_ne_address]
      rw [hb]
      simp only [hasError, tokenType, startElement]
      simp only [reduceCtorEq, decide_False, Bool.false_eq_true, not_false_eq_true,
        false_and, and_self, if_true]
      rw [ih _ (by simp [endElement]) _ _ hn]
      rfl
    | filedesc t =>
      have hn : (searchTokens is).length + 1 ≤ n := by
        simp only [searchTokens, SearchItem.tokens, textElement, List.length_append,
          List.length_cons] at hfuel
        omega
      have e : searchTokens (SearchItem.filedesc t :: is) ++
          endElement (QLatin1String "search") :: rest =
          startElement (QLatin1String "filedesc") ::
            ((if t = [] then [] else [characters t]) ++
              endElement (QLatin1String "filedesc") ::
                (searchTokens is ++ endElement (QLatin1String "search") :: rest)) := by
        simp [searchTokens, SearchItem.tokens, textElement]
      rw [e, readNext_cons _ _ _ hc]
      unfold parseXml_file_search_loop
      have hb : parseXml_file_search_body
          ⟨startElement (QLatin1String "filedesc"),
            (if t = [] then [] else [characters t]) ++
              endElement (QLatin1String "filedesc") ::
                (searchTokens is ++ endElement (QLatin1String "search") :: rest)⟩ f =
          (⟨endElement (QLatin1String "filedesc"),
              searchTokens is ++ endElement (QLatin1String "search") :: rest⟩,
            { f with search := { f.search with filedesc := t } }) := by
        unfold parseXml_file_search_body
        rw [parseXml_element_textElement]
        simp [tokenType, name, startElement, name_filedesc_ne_address, name_filedesc_ne_gamedesc]
      rw [hb]
      simp only [hasError, tokenType, startElement]
      simp only [reduceCtorEq, decide_False, Bool.false_eq_true, not_false_eq_true,
        false_and, and_self, if_true]
      rw [ih _ (by simp [endElement]) _ _ hn]
      rfl
    | space t =>
      have hn : (searchTokens is).length + 1 ≤ n := by
        simp only [searchTokens, SearchItem.tokens, List.length_append,
          List.length_cons] at hfuel
        omega
      have e : searchTokens (SearchItem.space t :: is) ++
          endElement (QLatin1String "search") :: rest =
          characters t ::
            (searchTokens is ++ endElement (QLatin1String "search") :: rest) := by
        simp [searchTokens, SearchItem.tokens]
      rw [e, readNext_cons _ _ _ hc]
      unfold parseXml_file_search_loop
      have hb : parseXml_file_search_body
          ⟨characters t, searchTokens is ++ endElement (QLatin1String "search") :: rest⟩ f =
          (⟨characters t, searchTokens is ++ endElement (QLatin1String "search") :: rest⟩, f) := by
        unfold parseXml_file_search_body
        simp [tokenType, characters]
      rw [hb]
      simp only [hasError, tokenType, characters]
      simp only [reduceCtorEq, decide_False, Bool.false_eq_true, not_false_eq_true,
        false_and, and_self, if_true]
      exact ih _ (by simp) _ _ hn
    | comment t =>
      have hn : (searchTokens is).length + 1 ≤ n := by
        simp only [searchTokens, SearchItem.tokens, List.length_append,
          List.length_cons] at hfuel
        omega
      have e : searchTokens (SearchItem.comment t :: is) ++
          endElement (QLatin1String "search") :: rest =
          commentToken t ::
            (searchTokens is ++ endElement (QLatin1String "search") :: rest) := by
        simp [searchTokens, SearchItem.tokens]
      rw [e, readNext_cons _ _ _ hc]
      unfold parseXml_file_search_loop
      have hb : parseXml_file_search_body
          ⟨commentToken t, searchTokens is ++ endElement (QLatin1String "search") :: rest⟩ f =
          (⟨commentToken t, searchTokens is ++ endElement (QLatin1String "search") :: rest⟩, f) := by
        unfold parseXml_file_search_body
        simp [tokenType, commentToken]
      rw [hb]
      simp only [hasError, tokenType, commentToken]
      simp only [reduceCtorEq, decide_False, Bool.false_eq_true, not_false_eq_true,
        false_and, and_self, if_true]
      exact ih _ (by simp) _ _ hn

theorem compile_regexp_eq (regexp : QString) :
    compile_regexp pcre_compile regexp =
      (matcherFor pcre_compile regexp, patternLog pcre_compile regexp) := by
  simp only [compile_regexp, matcherFor, patternLog]
  cases regexp with
  | nil => simp
  | cons a r =>
    simp only [List.isEmpty_cons, Bool.false_eq_true, if_false, reduceCtorEq]
    cases pcre_compile (a :: r) <;> simp

theorem parseXml_file_search_items (items : List SearchItem) (rest : List Token)
    (f : gcn_file_def) :
    parseXml_file_search pcre_compile
        ⟨startElement (QLatin1String "search"),
          searchTokens items ++ endElement (QLatin1String "search") :: rest⟩ f =
      .ok (⟨endElement (QLatin1String "search"), rest⟩,
        { f with search :=
            { items.foldl SearchItem.apply f.search with
              gamedesc_regexp :=
                matcherFor pcre_compile (items.foldl SearchItem.apply f.search).gamedesc,
              filedesc_regexp :=
                matcherFor pcre_compile (items.foldl SearchItem.apply f.search).filedesc } },
        patternLog pcre_compile (items.foldl SearchItem.apply f.search).gamedesc ++
          patternLog pcre_compile (items.foldl SearchItem.apply f.search).filedesc) := by
  unfold parseXml_file_search
  have hg : ¬ ((⟨startElement (QLatin1String "search"),
      searchTokens items ++ endElement (QLatin1String "search") :: rest⟩ :
        QXmlStreamReader).tokenType ≠ .StartElement ∨
      (⟨startElement (QLatin1String "search"),
        searchTokens items ++ endElement (QLatin1String "search") :: rest⟩ :
          QXmlStreamReader).name ≠ QLatin1String "search") := by
    simp [tokenType, name, startElement]
  rw [if_neg hg]
  rw [parseXml_file_search_loop_items items rest _ (by simp [startElement]) f _
    (by simp only [List.length_append, List.length_cons]; omega)]
  simp only [compile_regexp_eq]

theorem name_gamecode_ne_description :
    QLatin1String "gamecode" ≠ QLatin1String "description" := by decide

theorem name_company_ne_description :
    QLatin1String "company" ≠ QLatin1String "description" := by decide

theorem name_company_ne_gamecode :
    QLatin1String "company" ≠ QLatin1String "gamecode" := by decide

theorem name_search_ne_description :
    QLatin1String "search" ≠ QLatin1String "description" := by decide

theorem name_search_ne_gamecode :
    QLatin1String "search" ≠ QLatin1String "gamecode" := by decide

theorem name_search_ne_company :
    QLatin1String "search" ≠ QLatin1String "company" := by decide

theorem parseXml_file_loop_step (n : Nat) (xml x1 : QXmlStreamReader) (f f1 : gcn_file_def)
    (log w : List Msg) (hne : xml.cur.type ≠ .Invalid) (hend : xml.cur.type ≠ .EndElement)
    (hb : parseXml_file_body pcre_compile xml f = .ok (x1, f1, w)) :
    parseXml_file_loop pcre_compile (n + 1) xml f log =
      parseXml_file_loop pcre_compile n x1.readNext f1 (log ++ w) := by
  rw [parseXml_file_loop, hb]
  simp [hasError, tokenType, hne, hend]

theorem parseXml_file_loop_items (items : List FileItem) (rest : List Token)
    (c : Token) (hc : c.type ≠ .Invalid) (f : gcn_file_def) (log : List Msg) (fuel : Nat)
    (hfuel : (fileTokens items).length + 1 ≤ fuel) :
    parseXml_file_loop pcre_compile fuel
        (readNext ⟨c, fileTokens items ++ endElement (QLatin1String "file") :: rest⟩) f log =
      .ok (⟨endElement (QLatin1String "file"), rest⟩,
        (items.foldl (FileItem.apply pcre_compile) (f, log)).1,
        (items.foldl (FileItem.apply pcre_compile) (f, log)).2) := by
  induction items generalizing c f log fuel with
  | nil =>
    obtain ⟨n, rfl⟩ : ∃ n, fuel = n + 1 := ⟨fuel - 1, by omega⟩
    simp [fileTokens, readNext_cons _ _ _ hc, parseXml_file_loop, hasError,
      tokenType, name, endElement]
  | cons i is ih =>
    obtain ⟨n, rfl⟩ : ∃ n, fuel = n + 1 := ⟨fuel - 1, by omega⟩
    have hn : (fileTokens is).length + 1 ≤ n := by
      cases i <;>
        simp only [fileTokens, FileItem.tokens, textElement, List.length_append,
          List.length_cons] at hfuel <;> omega
    cases i with
    | description t =>
      have e : fileTokens (FileItem.description t :: is) ++
          endElement (QLatin1String "file") :: rest =
          startElement (QLatin1String "description") ::
            ((if t = [] then [] else [characters t]) ++
              endElement (QLatin1String "description") ::
                (fileTokens is ++ endElement (QLatin1String "file") :: rest)) := by
        simp [fileTokens, FileItem.tokens, textElement]
      rw [e, readNext_cons _ _ _ hc]
      rw [parseXml_file_loop_step pcre_compile n _
        ⟨endElement (QLatin1String "description"),
          fileTokens is ++ endElement (QLatin1String "file") :: rest⟩
        f { f with description := t } log [] (by simp [startElement])
        (by simp [startElement])
        (by
          unfold parseXml_file_body
          rw [parseXml_element_textElement]
          simp [tokenType, name, startElement])]
      rw [ih _ (by simp [endElement]) _ _ _ hn]
      simp [FileItem.apply]
    | gamecode t =>
      have e : fileTokens (FileItem.gamecode t :: is) ++
          endElement (QLatin1String "file") :: rest =
          startElement (QLatin1String "gamecode") ::
            ((if t = [] then [] else [characters t]) ++
              endElement (QLatin1String "gamecode") ::
                (fileTokens is ++ endElement (QLatin1String "file") :: rest)) := by
        simp [fileTokens, FileItem.tokens, textElement]
      rw [e, readNext_cons _ _ _ hc]
      rw [parseXml_file_loop_step pcre_compile n _
        ⟨endElement (QLatin1String "gamecode"),
          fileTokens is ++ endElement (QLatin1String "file") :: rest⟩
        f { f with gamecode := t } log [] (by simp [startElement])
        (by simp [startElement])
        (by
          unfold parseXml_file_body
          rw [parseXml_element_textElement]
          simp [tokenType, name, startElement, name_gamecode_ne_description])]
      rw [ih _ (by simp [endElement]) _ _ _ hn]
      simp [FileItem.apply]
    | company t =>
      have e : fileTokens (FileItem.company t :: is) ++
          endElement (QLatin1String "file") :: rest =
          startElement (QLatin1String "company") ::
            ((if t = [] then [] else [characters t]) ++
              endElement (QLatin1String "company") ::
                (fileTokens is ++ endElement (QLatin1String "file") :: rest)) := by
        simp [fileTokens, FileItem.tokens, textElement]
      rw [e, readNext_cons _ _ _ hc]
      rw [parseXml_file_loop_step pcre_compile n _
        ⟨endElement (QLatin1String "company"),
          fileTokens is ++ endElement (QLatin1String "file") :: rest⟩
        f { f with company := t } log [] (by simp [startElement])
        (by simp [startElement])
        (by
          unfold parseXml_file_body
          rw [parseXml_element_textElement]
          simp [tokenType, name, startElement, name_company_ne_description,
            name_company_ne_gamecode])]
      rw [ih _ (by simp [endElement]) _ _ _ hn]
      simp [FileItem.apply]
    | search items =>
      have e : fileTokens (FileItem.search items :: is) ++
          endElement (QLatin1String "file") :: rest =
          startElement (QLatin1String "search") ::
            (searchTokens items ++ endElement (QLatin1String "search") ::
                (fileTokens is ++ endElement (QLatin1String "file") :: rest)) := by
        simp [fileTokens, FileItem.tokens]
      rw [e, readNext_cons _ _ _ hc]
      have hb : parseXml_file_body pcre_compile
          ⟨startElement (QLatin1String "search"),
            searchTokens items ++ endElement (QLatin1String "search") ::
              (fileTokens is ++ endElement (QLatin1String "file") :: rest)⟩ f =
          .ok (⟨endElement (QLatin1String "search"),
              fileTokens is ++ endElement (QLatin1String "file") :: rest⟩,
            (FileItem.apply pcre_compile (f, []) (FileItem.search items)).1,
            (FileItem.apply pcre_compile (f, []) (FileItem.search items)).2) := by
        unfold parseXml_file_body
        rw [parseXml_file_search_items]
        simp [tokenType, name, startElement, name_search_ne_description,
          name_search_ne_gamecode, name_search_ne_company, FileItem.apply]
      rw [parseXml_file_loop_step pcre_compile n _ _ f _ log _ (by simp [startElement])
        (by simp [startElement]) hb]
      rw [ih _ (by simp [endElement]) _ _ _ hn]
      simp [FileItem.apply]
    | space t =>
      have e : fileTokens (FileItem.space t :: is) ++
          endElement (QLatin1String "file") :: rest =
          characters t :: (fileTokens is ++ endElement (QLatin1String "file") :: rest) := by
        simp [fileTokens, FileItem.tokens]
      rw [e, readNext_cons _ _ _ hc]
      rw [parseXml_file_loop_step pcre_compile n
        ⟨characters t, fileTokens is ++ endElement (QLatin1String "file") :: rest⟩
        ⟨characters t, fileTokens is ++ endElement (QLatin1String "file") :: rest⟩
        f f log [] (by simp [characters])
        (by simp [characters])
        (by unfold parseXml_file_body; simp [tokenType, characters])]
      rw [ih _ (by simp [characters]) _ _ _ hn]
      simp [FileItem.apply]
    | comment t =>
      have e : fileTokens (FileItem.comment t :: is) ++
          endElement (QLatin1String "file") :: rest =
          commentToken t :: (fileTokens is ++ endElement (QLatin1String "file") :: rest) := by
        simp [fileTokens, FileItem.tokens]
      rw [e, readNext_cons _ _ _ hc]
      rw [parseXml_file_loop_step pcre_compile n
        ⟨commentToken t, fileTokens is ++ endElement (QLatin1String "file") :: rest⟩
        ⟨commentToken t, fileTokens is ++ endElement (QLatin1String "file") :: rest⟩
        f f log [] (by simp [commentToken])
        (by simp [commentToken])
        (by unfold parseXml_file_body; simp [tokenType, commentToken])]
      rw [ih _ (by simp [commentToken]) _ _ _ hn]
      simp [FileItem.apply]

theorem regionsFor_eq (gamecode : QString) :
    regionsFor gamecode =
      if gamecode.length = 4 then RegionCharToBitfield (gamecode.getD 3 0) else 0 := by
  rcases gamecode with _ | ⟨a, _ | ⟨b, _ | ⟨c, _ | ⟨d, _ | ⟨e, g⟩⟩⟩⟩⟩ <;>
    simp [regionsFor]

theorem foldl_apply_regions (items : List FileItem) (st : gcn_file_def × List Msg) :
    (items.foldl (FileItem.apply pcre_compile) st).1.regions = st.1.regions := by
  induction items generalizing st with
  | nil => rfl
  | cons i is ih =>
    rw [List.foldl_cons, ih]
    cases i <;> rfl

theorem fileFields_regions (items : List FileItem) :
    (fileFields pcre_compile items).1.regions = 0 :=
  foldl_apply_regions pcre_compile items _

theorem parseXml_file_regions_eq (f : gcn_file_def) (h : f.regions = 0) :
    parseXml_file_regions f =
      ({ f with regions := regionsFor f.gamecode },
        if f.gamecode.length = 4 then [] else [Msg.invalidGameCode f.gamecode]) := by
  unfold parseXml_file_regions
  rw [regionsFor_eq]
  by_cases h4 : f.gamecode.length = 4
  · simp [h4]
  · simp only [h4, if_false, Prod.mk.injEq, and_true]
    cases f
    simp only at h
    simp [h]

theorem parseXml_file_items (items : List FileItem) (rest : List Token) :
    parseXml_file pcre_compile
        ⟨startElement (QLatin1String "file"),
          fileTokens items ++ endElement (QLatin1String "file") :: rest⟩ =
      .ok (⟨endElement (QLatin1String "file"), rest⟩, some (fileDef pcre_compile items),
        fileLog pcre_compile items) := by
  unfold parseXml_file
  have hg : ¬ ((⟨startElement (QLatin1String "file"),
      fileTokens items ++ endElement (QLatin1String "file") :: rest⟩ :
        QXmlStreamReader).tokenType ≠ .StartElement ∨
      (⟨startElement (QLatin1String "file"),
        fileTokens items ++ endElement (QLatin1String "file") :: rest⟩ :
          QXmlStreamReader).name ≠ QLatin1String "file") := by
    simp [tokenType, name, startElement]
  rw [if_neg hg]
  rw [parseXml_file_loop_items pcre_compile items rest _ (by simp [startElement]) _ _ _
    (by simp only [List.length_append, List.length_cons]; omega)]
  simp only
  rw [parseXml_file_regions_eq _ (foldl_apply_regions pcre_compile items _)]
  rfl

theorem parseXml_GcnMcFileDb_loop_step (n : Nat) (xml x1 : QXmlStreamReader)
    (m m1 : AddrFileDefs) (log w : List Msg) (hne : xml.cur.type ≠ .Invalid)
    (hend : xml.cur.type ≠ .EndElement)
    (hb : parseXml_GcnMcFileDb_body pcre_compile xml m = .ok (x1, m1, w)) :
    parseXml_GcnMcFileDb_loop pcre_compile (n + 1) xml m log =
      parseXml_GcnMcFileDb_loop pcre_compile n x1.readNext m1 (log ++ w) := by
  rw [parseXml_GcnMcFileDb_loop, hb]
  simp [hasError, tokenType, hne, hend]

theorem parseXml_GcnMcFileDb_loop_items (items : List DbItem) (rest : List Token)
    (c : Token) (hc : c.type ≠ .Invalid) (m : AddrFileDefs) (log : List Msg) (fuel : Nat)
    (hfuel : (dbTokens items).length + 1 ≤ fuel) :
    parseXml_GcnMcFileDb_loop pcre_compile fuel
        (readNext ⟨c, dbTokens items ++ endElement (QLatin1String "GcnMcFileDb") :: rest⟩)
        m log =
      .ok (⟨endElement (QLatin1String "GcnMcFileDb"), rest⟩,
        ((dbFiles items).map (fileDef pcre_compile)).foldl addFile m,
        log ++ ((dbFiles items).map (fileLog pcre_compile)).flatten) := by
  induction items generalizing c m log fuel with
  | nil =>
    obtain ⟨n, rfl⟩ : ∃ n, fuel = n + 1 := ⟨fuel - 1, by omega⟩
    simp [dbTokens, dbFiles, readNext_cons _ _ _ hc, parseXml_GcnMcFileDb_loop, hasError,
      tokenType, name, endElement]
  | cons i is ih =>
    obtain ⟨n, rfl⟩ : ∃ n, fuel = n + 1 := ⟨fuel - 1, by omega⟩
    have hn : (dbTokens is).length + 1 ≤ n := by
      cases i <;>
        simp only [dbTokens, DbItem.tokens, List.length_append,
          List.length_cons] at hfuel <;> omega
    cases i with
    | file items =>
      have e : dbTokens (DbItem.file items :: is) ++
          endElement (QLatin1String "GcnMcFileDb") :: rest =
          startElement (QLatin1String "file") ::
            (fileTokens items ++ endElement (QLatin1String "file") ::
                (dbTokens is ++ endElement (QLatin1String "GcnMcFileDb") :: rest)) := by
        simp [dbTokens, DbItem.tokens]
      rw [e, readNext_cons _ _ _ hc]
      have hb : parseXml_GcnMcFileDb_body pcre_compile
          ⟨startElement (QLatin1String "file"),
            fileTokens items ++ endElement (QLatin1String "file") ::
              (dbTokens is ++ endElement (QLatin1String "GcnMcFileDb") :: rest)⟩ m =
          .ok (⟨endElement (QLatin1String "file"),
              dbTokens is ++ endElement (QLatin1String "GcnMcFileDb") :: rest⟩,
            addFile m (fileDef pcre_compile items), fileLog pcre_compile items) := by
        unfold parseXml_GcnMcFileDb_body
        rw [parseXml_file_items]
        simp [tokenType, name, startElement]
      rw [parseXml_GcnMcFileDb_loop_step pcre_compile n _ _ m _ log _
        (by simp [startElement]) (by simp [startElement]) hb]
      rw [ih _ (by simp [endElement]) _ _ _ hn]
      simp [dbFiles]
    | space t =>
      have e : dbTokens (DbItem.space t :: is) ++
          endElement (QLatin1String "GcnMcFileDb") :: rest =
          characters t ::
            (dbTokens is ++ endElement (QLatin1String "GcnMcFileDb") :: rest) := by
        simp [dbTokens, DbItem.tokens]
      rw [e, readNext_cons _ _ _ hc]
      rw [parseXml_GcnMcFileDb_loop_step pcre_compile n
        ⟨characters t, dbTokens is ++ endElement (QLatin1String "GcnMcFileDb") :: rest⟩
        ⟨characters t, dbTokens is ++ endElement (QLatin1String "GcnMcFileDb") :: rest⟩
        m m log [] (by simp [characters]) (by simp [characters])
        (by unfold parseXml_GcnMcFileDb_body; simp [tokenType, characters])]
      rw [ih _ (by simp [characters]) _ _ _ hn]
      simp [dbFiles]
    | comment t =>
      have e : dbTokens (DbItem.comment t :: is) ++
          endElement (QLatin1String "GcnMcFileDb") :: rest =
          commentToken t ::
            (dbTokens is ++ endElement (QLatin1String "GcnMcFileDb") :: rest) := by
        simp [dbTokens, DbItem.tokens]
      rw [e, readNext_cons _ _ _ hc]
      rw [parseXml_GcnMcFileDb_loop_step pcre_compile n
        ⟨commentToken t, dbTokens is ++ endElement (QLatin1String "GcnMcFileDb") :: rest⟩
        ⟨commentToken t, dbTokens is ++ endElement (QLatin1String "GcnMcFileDb") :: rest⟩
        m m log [] (by simp [commentToken]) (by simp [commentToken])
        (by unfold parseXml_GcnMcFileDb_body; simp [tokenType, commentToken])]
      rw [ih _ (by simp [commentToken]) _ _ _ hn]
      simp [dbFiles]

theorem parseXml_GcnMcFileDb_document (items : List DbItem) (rest : List Token)
    (m : AddrFileDefs) :
    parseXml_GcnMcFileDb pcre_compile
        ⟨startElement (QLatin1String "GcnMcFileDb"),
          dbTokens items ++ endElement (QLatin1String "GcnMcFileDb") :: rest⟩ m =
      .ok (⟨endElement (QLatin1String "GcnMcFileDb"), rest⟩,
        ((dbFiles items).map (fileDef pcre_compile)).foldl addFile m,
        ((dbFiles items).map (fileLog pcre_compile)).flatten) := by
  unfold parseXml_GcnMcFileDb
  have hg : ¬ ((⟨startElement (QLatin1String "GcnMcFileDb"),
      dbTokens items ++ endElement (QLatin1String "GcnMcFileDb") :: rest⟩ :
        QXmlStreamReader).tokenType ≠ .StartElement ∨
      (⟨startElement (QLatin1String "GcnMcFileDb"),
        dbTokens items ++ endElement (QLatin1String "GcnMcFileDb") :: rest⟩ :
          QXmlStreamReader).name ≠ QLatin1String "GcnMcFileDb") := by
    simp [tokenType, name, startElement]
  rw [if_neg hg]
  rw [parseXml_GcnMcFileDb_loop_items pcre_compile items rest _ (by simp [startElement]) _ _ _
    (by simp only [List.length_append, List.length_cons]; omega)]
  simp

theorem load_loop_document (db : DbDocument) (m : AddrFileDefs) (fuel : Nat)
    (hfuel : 4 ≤ fuel) :
    load_loop pcre_compile fuel (onDevice db.tokens) m [] =
      .ok (⟨{ type := .EndDocument }, []⟩, (db.defs pcre_compile).foldl addFile m,
        db.log pcre_compile) := by
  obtain ⟨n, rfl⟩ : ∃ n, fuel = n + 4 := ⟨fuel - 4, by omega⟩
  have h1 : load_body pcre_compile (onDevice db.tokens) m =
      .ok (⟨{ type := .StartDocument }, startElement (QLatin1String "GcnMcFileDb") ::
        (dbTokens db.items ++
          [endElement (QLatin1String "GcnMcFileDb"), { type := .EndDocument }])⟩, m, []) := by
    simp [load_body, onDevice, DbDocument.tokens, readNext, tokenType]
  have h2 : load_body pcre_compile
      ⟨{ type := .StartDocument }, startElement (QLatin1String "GcnMcFileDb") ::
        (dbTokens db.items ++
          [endElement (QLatin1String "GcnMcFileDb"), { type := .EndDocument }])⟩ m =
      .ok (⟨endElement (QLatin1String "GcnMcFileDb"), [{ type := .EndDocument }]⟩,
        (db.defs pcre_compile).foldl addFile m, db.log pcre_compile) := by
    unfold load_body
    rw [readNext_cons _ _ _ (by simp)]
    rw [parseXml_GcnMcFileDb_document]
    simp [tokenType, name, startElement, DbDocument.defs, DbDocument.log, DbDocument.files]
  have h3 : ∀ m1 : AddrFileDefs, load_body pcre_compile
      ⟨endElement (QLatin1String "GcnMcFileDb"), [{ type := .EndDocument }]⟩ m1 =
      .ok (⟨{ type := .EndDocument }, []⟩, m1, []) := by
    intro m1
    simp [load_body, readNext, tokenType, endElement]
  rw [load_loop, h1]
  simp only [onDevice, atEnd, hasError]
  simp only [reduceCtorEq, or_self, decide_False, Bool.false_eq_true, not_false_eq_true,
    and_self, if_true]
  rw [load_loop, h2]
  simp only [atEnd, hasError]
  simp only [reduceCtorEq, or_self, decide_False, Bool.false_eq_true, not_false_eq_true,
    and_self, if_true]
  rw [load_loop, h3]
  simp only [atEnd, hasError, endElement]
  simp only [reduceCtorEq, or_self, decide_False, Bool.false_eq_true, not_false_eq_true,
    and_self, if_true]
  rw [load_loop]
  simp [atEnd]

/-- Loading a database document succeeds and builds the index of its definitions. -/
theorem load_document (fs : FileSystem) (d d0 : GcnMcFileDbPrivate) (filename : QString)
    (db : DbDocument) (hc : clear d = .ok d0) (hf : fs filename = some db.tokens) :
    load pcre_compile fs d filename =
      .ok (0, { addr_file_defs := (db.defs pcre_compile).foldl addFile [],
                errorString := [] }, db.log pcre_compile) := by
  have hd0 := clear_eq d d0 hc
  unfold load
  simp only [hc, hf]
  rw [hd0, load_loop_document pcre_compile db [] _
    (by simp only [DbDocument.tokens, List.length_cons]; omega)]
  simp [hasError]

theorem parsedFiles_GcnMcFileDb_loop_items (items : List DbItem) (rest : List Token)
    (c : Token) (hc : c.type ≠ .Invalid) (fuel : Nat)
    (hfuel : (dbTokens items).length + 1 ≤ fuel) :
    parsedFiles_GcnMcFileDb_loop pcre_compile fuel
        (readNext ⟨c, dbTokens items ++ endElement (QLatin1String "GcnMcFileDb") :: rest⟩) =
      .ok (⟨endElement (QLatin1String "GcnMcFileDb"), rest⟩,
        (dbFiles items).map (fileDef pcre_compile)) := by
  induction items generalizing c fuel with
  | nil =>
    obtain ⟨n, rfl⟩ : ∃ n, fuel = n + 1 := ⟨fuel - 1, by omega⟩
    simp [dbTokens, dbFiles, readNext_cons _ _ _ hc, parsedFiles_GcnMcFileDb_loop, hasError,
      tokenType, name, endElement]
  | cons i is ih =>
    obtain ⟨n, rfl⟩ : ∃ n, fuel = n + 1 := ⟨fuel - 1, by omega⟩
    have hn : (dbTokens is).length + 1 ≤ n := by
      cases i <;>
        simp only [dbTokens, DbItem.tokens, List.length_append,
          List.length_cons] at hfuel <;> omega
    cases i with
    | file items =>
      have e : dbTokens (DbItem.file items :: is) ++
          endElement (QLatin1String "GcnMcFileDb") :: rest =
          startElement (QLatin1String "file") ::
            (fileTokens items ++ endElement (QLatin1String "file") ::
                (dbTokens is ++ endElement (QLatin1String "GcnMcFileDb") :: rest)) := by
        simp [dbTokens, DbItem.tokens]
      rw [e, readNext_cons _ _ _ hc, parsedFiles_GcnMcFileDb_loop, parseXml_file_items]
      have h := ih (endElement (QLatin1String "file")) (by simp [endElement]) n hn
      simp [hasError, tokenType, name, startElement, dbFiles, h]
    | space t =>
      have e : dbTokens (DbItem.space t :: is) ++
          endElement (QLatin1String "GcnMcFileDb") :: rest =
          characters t ::
            (dbTokens is ++ endElement (QLatin1String "GcnMcFileDb") :: rest) := by
        simp [dbTokens, DbItem.tokens]
      rw [e, readNext_cons _ _ _ hc, parsedFiles_GcnMcFileDb_loop]
      have h := ih (characters t) (by simp [characters]) n hn
      simp only [characters] at h
      simp [hasError, tokenType, characters, dbFiles, h]
    | comment t =>
      have e : dbTokens (DbItem.comment t :: is) ++
          endElement (QLatin1String "GcnMcFileDb") :: rest =
          commentToken t ::
            (dbTokens is ++ endElement (QLatin1String "GcnMcFileDb") :: rest) := by
        simp [dbTokens, DbItem.tokens]
      rw [e, readNext_cons _ _ _ hc, parsedFiles_GcnMcFileDb_loop]
      have h := ih (commentToken t) (by simp [commentToken]) n hn
      simp only [commentToken] at h
      simp [hasError, tokenType, commentToken, dbFiles, h]

/-- The definitions parsed from a database document are those its records denote. -/
theorem parsedFiles_document (db : DbDocument) :
    parsedFiles pcre_compile db.tokens = .ok (db.defs pcre_compile) := by
  unfold parsedFiles
  obtain ⟨n, hn⟩ : ∃ n, db.tokens.length + 2 = n + 4 :=
    ⟨db.tokens.length - 2, by simp only [DbDocument.tokens, List.length_cons]; omega⟩
  rw [hn]
  have h2 : parsedFiles_GcnMcFileDb pcre_compile
      ⟨startElement (QLatin1String "GcnMcFileDb"), dbTokens db.items ++
          [endElement (QLatin1String "GcnMcFileDb"), { type := .EndDocument }]⟩ =
      .ok (⟨endElement (QLatin1String "GcnMcFileDb"), [{ type := .EndDocument }]⟩,
        db.defs pcre_compile) := by
    unfold parsedFiles_GcnMcFileDb
    rw [parsedFiles_GcnMcFileDb_loop_items pcre_compile db.items _ _ (by simp [startElement]) _
      (by simp only [List.length_append, List.length_cons]; omega)]
    simp [tokenType, name, startElement, DbDocument.defs, DbDocument.files]
  rw [parsedFiles_load_loop]
  simp only [onDevice, DbDocument.tokens, atEnd, hasError]
  simp only [reduceCtorEq, or_self, decide_False, Bool.false_eq_true, not_false_eq_true,
    and_self, if_true]
  rw [readNext_cons _ _ _ (by simp)]
  simp only [tokenType, reduceCtorEq, false_and, if_false]
  rw [parsedFiles_load_loop]
  simp only [atEnd, hasError]
  simp only [reduceCtorEq, or_self, decide_False, Bool.false_eq_true, not_false_eq_true,
    and_self, if_true]
  rw [readNext_cons _ _ _ (by simp), h2]
  simp only [tokenType, name, startElement, and_self, if_true]
  rw [parsedFiles_load_loop]
  simp only [atEnd, hasError, endElement]
  simp only [reduceCtorEq, or_self, decide_False, Bool.false_eq_true, not_false_eq_true,
    and_self, if_true]
  rw [readNext_cons _ _ _ (by simp)]
  simp only [tokenType, reduceCtorEq, false_and, if_false]
  rw [parsedFiles_load_loop]
  simp [atEnd]

/-! ### The index after a load -/

namespace AddrFileDefs

theorem value_of_mem (m : AddrFileDefs) (h : (keys m).Pairwise (· < ·))
    (e : Nat × List gcn_file_def) (he : e ∈ m) : value m e.1 = some e.2 := by
  induction m with
  | nil => simp at he
  | cons x m ih =>
    obtain ⟨k, v⟩ := x
    simp only [keys, List.map_cons, List.pairwise_cons] at h
    rcases List.mem_cons.1 he with rfl | hm
    · simp [value]
    · have hk : k < e.1 := h.1 e.1 (List.mem_map.2 ⟨e, hm, rfl⟩)
      have hne : ¬ k = e.1 := by omega
      simp only [value, hne, if_false]
      exact ih h.2 hm

theorem value_foldl_addFile_nil (recs : List gcn_file_def) (a : Nat) :
    value (recs.foldl addFile []) a =
      if ∀ f ∈ recs, f.search.address ≠ a then none
      else some (recs.filter (fun f => f.search.address = a)) := by
  split_ifs with h
  · exact (value_foldl_addFile_isNone recs [] a).2 ⟨rfl, h⟩
  · have hne : value (recs.foldl addFile []) a ≠ none := by
      intro hv
      exact h ((value_foldl_addFile_isNone recs [] a).1 hv).2
    rw [value_eq_some_lookup _ _ hne, lookup_foldl_addFile]
    simp [lookup, value]

end AddrFileDefs

/-- C1: after a load, for every search address the bucket of the index holds the
definitions parsed with that address in the order in which the document has them
(each is appended to the end of its bucket); in particular two records that share
an address are at positions 0 and 1 of their bucket in load order. For a database
document the parsed definitions are those its `file` records denote, and the load
succeeds. -/
theorem C1_bucket_keeps_document_order (pcre_compile : QString → Option pcre)
    (fs : FileSystem) (d d0 : GcnMcFileDbPrivate) (filename : QString) (doc : List Token)
    (hclear : clear d = .ok d0) (hopen : fs filename = some doc) :
    ∃ recs idx status es log,
      parsedFiles pcre_compile doc = .ok recs ∧
      load pcre_compile fs d filename =
        .ok (status, { addr_file_defs := idx, errorString := es }, log) ∧
      (∀ a, idx.lookup a = recs.filter (fun f => f.search.address = a)) ∧
      (∀ r1 r2, recs = [r1, r2] → r1.search.address = r2.search.address →
        idx.lookup r1.search.address = [r1, r2]) ∧
      (∀ db : DbDocument, doc = db.tokens →
        recs = db.files.map (fileDef pcre_compile) ∧ status = 0) := by
  obtain ⟨recs, status, es, log, hrecs, hstatus, hload⟩ :=
    load_of_open pcre_compile fs d d0 filename doc hclear hopen
  refine ⟨recs, _, status, es, log, hrecs, hload, ?_, ?_, ?_⟩
  · intro a
    rw [AddrFileDefs.lookup_foldl_addFile]
    simp [AddrFileDefs.lookup, AddrFileDefs.value]
  · intro r1 r2 hr haddr
    rw [AddrFileDefs.lookup_foldl_addFile, hr]
    simp [AddrFileDefs.lookup, AddrFileDefs.value, List.filter_cons, haddr]
  · intro db hdb
    subst hdb
    have h1 := parsedFiles_document pcre_compile db
    rw [hrecs] at h1
    injection h1 with h1
    have h2 := load_document pcre_compile fs d d0 filename db hclear hopen
    rw [hload] at h2
    injection h2 with h2
    simp only [Prod.mk.injEq] at h2
    exact ⟨h1, h2.1⟩

/-- C1 at the example with two records that share the address 0x2000, on a fresh object. -/
theorem C1_bucket_keeps_document_order_witness :
    clear GcnMcFileDbPrivate.fresh = .ok GcnMcFileDbPrivate.fresh ∧
    exampleFs (QLatin1String "shared.xml") = some exampleDbShared.tokens ∧
    ∃ recs idx status es log,
      parsedFiles exampleCompile exampleDbShared.tokens = .ok recs ∧
      load exampleCompile exampleFs GcnMcFileDbPrivate.fresh (QLatin1String "shared.xml") =
        .ok (status, { addr_file_defs := idx, errorString := es }, log) ∧
      (∀ a, idx.lookup a = recs.filter (fun f => f.search.address = a)) ∧
      (∀ r1 r2, recs = [r1, r2] → r1.search.address = r2.search.address →
        idx.lookup r1.search.address = [r1, r2]) ∧
      (∀ db : DbDocument, exampleDbShared.tokens = db.tokens →
        recs = db.files.map (fileDef exampleCompile) ∧ status = 0) :=
  ⟨rfl, rfl, C1_bucket_keeps_document_order exampleCompile exampleFs
    GcnMcFileDbPrivate.fresh GcnMcFileDbPrivate.fresh (QLatin1String "shared.xml")
    exampleDbShared.tokens rfl rfl⟩

/-- C2: after a load the index is keyed by exact search address. Every parsed
definition occurs exactly once in the index (the definitions of all buckets are a
rearrangement of the parsed ones), every definition of a bucket has the key of the
bucket as its search address, there is one bucket per key, the bucket of an address
holds exactly the definitions parsed with that address, and an address that no
parsed definition has is not a key of the index. -/
theorem C2_index_keyed_by_exact_address (pcre_compile : QString → Option pcre)
    (fs : FileSystem) (d d0 : GcnMcFileDbPrivate) (filename : QString) (doc : List Token)
    (hclear : clear d = .ok d0) (hopen : fs filename = some doc) :
    ∃ recs idx status es log,
      parsedFiles pcre_compile doc = .ok recs ∧
      load pcre_compile fs d filename =
        .ok (status, { addr_file_defs := idx, errorString := es }, log) ∧
      idx.allDefs.Perm recs ∧
      idx.keys.Pairwise (· < ·) ∧
      (∀ e ∈ idx, e.2 ≠ [] ∧ e.2 = recs.filter (fun f => f.search.address = e.1) ∧
        ∀ f ∈ e.2, f.search.address = e.1) ∧
      (∀ f ∈ recs, ∃ bucket, idx.value f.search.address = some bucket ∧ f ∈ bucket) ∧
      (∀ a, (∀ f ∈ recs, f.search.address ≠ a) → idx.value a = none ∧ a ∉ idx.keys) := by
  obtain ⟨recs, status, es, log, hrecs, hstatus, hload⟩ :=
    load_of_open pcre_compile fs d d0 filename doc hclear hopen
  have hsorted : (AddrFileDefs.keys (recs.foldl addFile [])).Pairwise (· < ·) :=
    AddrFileDefs.sorted_foldl_addFile recs [] (by simp [AddrFileDefs.keys])
  refine ⟨recs, _, status, es, log, hrecs, hload, ?_, hsorted, ?_, ?_, ?_⟩
  · simpa [AddrFileDefs.allDefs] using AddrFileDefs.allDefs_foldl_addFile recs []
  · intro e he
    have hv := AddrFileDefs.value_of_mem _ hsorted e he
    rw [AddrFileDefs.value_foldl_addFile_nil] at hv
    split_ifs at hv with hno
    injection hv with hv
    refine ⟨?_, hv.symm, ?_⟩
    · rw [← hv]
      intro hnil
      apply hno
      intro f hf hfa
      have : f ∈ recs.filter (fun f => decide (f.search.address = e.1)) :=
        List.mem_filter.2 ⟨hf, by simpa using hfa⟩
      rw [hnil] at this
      simp at this
    · intro f hf
      rw [← hv] at hf
      simpa using (List.mem_filter.1 hf).2
  · intro f hf
    refine ⟨recs.filter (fun g => g.search.address = f.search.address), ?_, ?_⟩
    · rw [AddrFileDefs.value_foldl_addFile_nil]
      have : ¬ ∀ g ∈ recs, g.search.address ≠ f.search.address := fun h => h f hf rfl
      simp only [this, if_false]
    · exact List.mem_filter.2 ⟨hf, by simp⟩
  · intro a ha
    have hv : AddrFileDefs.value (recs.foldl addFile []) a = none := by
      rw [AddrFileDefs.value_foldl_addFile_nil]
      exact if_pos (fun f hf => ha f hf)
    exact ⟨hv, (AddrFileDefs.value_eq_none_iff _ a).1 hv⟩

/-- C2 at the example with three records under two addresses, on a fresh object. -/
theorem C2_index_keyed_by_exact_address_witness :
    clear GcnMcFileDbPrivate.fresh = .ok GcnMcFileDbPrivate.fresh ∧
    exampleFs (QLatin1String "odd.xml") = some exampleDbOdd.tokens ∧
    ∃ recs idx status es log,
      parsedFiles exampleCompile exampleDbOdd.tokens = .ok recs ∧
      load exampleCompile exampleFs GcnMcFileDbPrivate.fresh (QLatin1String "odd.xml") =
        .ok (status, { addr_file_defs := idx, errorString := es }, log) ∧
      idx.allDefs.Perm recs ∧
      idx.keys.Pairwise (· < ·) ∧
      (∀ e ∈ idx, e.2 ≠ [] ∧ e.2 = recs.filter (fun f => f.search.address = e.1) ∧
        ∀ f ∈ e.2, f.search.address = e.1) ∧
      (∀ f ∈ recs, ∃ bucket, idx.value f.search.address = some bucket ∧ f ∈ bucket) ∧
      (∀ a, (∀ f ∈ recs, f.search.address ≠ a) → idx.value a = none ∧ a ∉ idx.keys) :=
  ⟨rfl, rfl, C2_index_keyed_by_exact_address exampleCompile exampleFs
    GcnMcFileDbPrivate.fresh GcnMcFileDbPrivate.fresh (QLatin1String "odd.xml")
    exampleDbOdd.tokens rfl rfl⟩

/-- C3 (the code at the failing input): after loading a database whose one record
has the search address 0x10000, the index has the key 65536; the next `load` starts
with `clear()`, whose 16-bit loop variable turns that key into 0, finds no bucket
for 0 and dereferences the NULL pointer, so the second load does not return at all,
while the same second load on a fresh object returns 0. -/
theorem C3_reload_faults_after_high_address :
    ∃ d1,
      load exampleCompile exampleFs GcnMcFileDbPrivate.fresh (QLatin1String "high.xml") =
        .ok (0, d1, []) ∧
      d1.addr_file_defs.keys = [65536] ∧
      clear d1 = .error .nullDeref ∧
      load exampleCompile exampleFs d1 (QLatin1String "shared.xml") = .error .nullDeref ∧
      ∃ d2, load exampleCompile exampleFs GcnMcFileDbPrivate.fresh
        (QLatin1String "shared.xml") = .ok (0, d2, []) :=
  ⟨_, rfl, rfl, rfl, rfl, _, rfl⟩

/-- C4: when the file cannot be opened, `load` returns -1, reads and parses nothing
(nothing is written to `stderr`) and leaves the index empty; the error string keeps
its old value. This holds from every state in which the initial `clear()` completes,
the fresh state among them. -/
theorem C4_failed_open_is_fatal (pcre_compile : QString → Option pcre) (fs : FileSystem)
    (d d0 : GcnMcFileDbPrivate) (filename : QString)
    (hclear : clear d = .ok d0) (hopen : fs filename = none) :
    load pcre_compile fs d filename =
      .ok (-1, { addr_file_defs := [], errorString := d.errorString }, []) :=
  load_of_not_open pcre_compile fs d d0 filename hclear hopen

/-- C4 at a file that cannot be opened, from a state with one bucket at address 0x2000. -/
theorem C4_failed_open_is_fatal_witness :
    clear { addr_file_defs := [(8192, [{}])], errorString := [] } =
      .ok { addr_file_defs := [], errorString := [] } ∧
    exampleFs (QLatin1String "missing.xml") = none ∧
    load exampleCompile exampleFs { addr_file_defs := [(8192, [{}])], errorString := [] }
        (QLatin1String "missing.xml") =
      .ok (-1, { addr_file_defs := [], errorString := [] }, []) :=
  ⟨rfl, rfl, C4_failed_open_is_fatal exampleCompile exampleFs
    { addr_file_defs := [(8192, [{}])], errorString := [] }
    { addr_file_defs := [], errorString := [] } (QLatin1String "missing.xml") rfl rfl⟩

/-! ### Documents without a `GcnMcFileDb` element -/

theorem wellFormedFrom_split (stack : List QString) (root : Bool) (ts : List Token)
    (h : wellFormedFrom stack root ts = true) :
    ∃ pre last, ts = pre ++ [last] ∧ last.type = .EndDocument ∧
      ∀ t ∈ pre, t.type ≠ .Invalid ∧ t.type ≠ .EndDocument := by
  induction ts generalizing stack root with
  | nil => simp [wellFormedFrom] at h
  | cons t ts ih =>
    unfold wellFormedFrom at h
    split at h
    case h_8 heq =>
      simp only [Bool.and_eq_true, List.isEmpty_iff] at h
      refine ⟨[], t, ?_, heq, by simp⟩
      simp [h.2]
    case h_9 => simp at h
    all_goals
      rename_i heq
      try simp only [Bool.and_eq_true] at h
      obtain ⟨pre, last, hts, hl, hp⟩ := ih _ _ (by first | exact h | exact h.2)
      refine ⟨t :: pre, last, by simp [hts], hl, ?_⟩
      intro u hu
      rcases List.mem_cons.1 hu with rfl | hu
      · simp [heq]
      · exact hp u hu

theorem load_loop_skip (pre post : List Token) (c last : Token) (m : AddrFileDefs)
    (log : List Msg) (fuel : Nat) (hfuel : pre.length + 2 ≤ fuel)
    (hc : c.type ≠ .Invalid ∧ c.type ≠ .EndDocument) (hl : last.type = .EndDocument)
    (hpre : ∀ t ∈ pre, (t.type ≠ .Invalid ∧ t.type ≠ .EndDocument) ∧
      ¬ (t.type = .StartElement ∧ t.name = QLatin1String "GcnMcFileDb")) :
    load_loop pcre_compile fuel ⟨c, pre ++ last :: post⟩ m log = .ok (⟨last, post⟩, m, log) := by
  induction pre generalizing c log fuel with
  | nil =>
    obtain ⟨n, rfl⟩ : ∃ n, fuel = n + 2 := ⟨fuel - 2, by simp at hfuel; omega⟩
    rw [load_loop, load_body]
    simp only [List.nil_append, readNext_cons _ _ _ hc.1, atEnd, hasError, tokenType, hc, hl]
    simp only [reduceCtorEq, or_self, decide_False, Bool.false_eq_true, not_false_eq_true,
      and_self, if_true, false_and, if_false]
    rw [load_loop]
    simp [atEnd, hl]
  | cons t pre ih =>
    obtain ⟨n, rfl⟩ : ∃ n, fuel = n + 1 := ⟨fuel - 1, by simp at hfuel; omega⟩
    have ht := hpre t (List.mem_cons_self _ _)
    rw [load_loop, load_body]
    simp only [List.cons_append, readNext_cons _ _ _ hc.1, atEnd, hasError, tokenType, name, hc]
    simp only [or_self, decide_False, Bool.false_eq_true, not_false_eq_true,
      and_self, if_true, ht.2, if_false]
    rw [ih t (log ++ []) n (by simp only [List.length_cons] at hfuel; omega) ht.1
      (fun u hu => hpre u (List.mem_cons_of_mem _ hu))]
    simp

/-- C5 (as the code behaves): `load` does not look at the name of the root element.
A well-formed document that has no element named `GcnMcFileDb`, whatever its root
is called, loads with status 0, writes no warning and leaves the index empty. -/
theorem C5_foreign_root_loads_as_empty (pcre_compile : QString → Option pcre)
    (fs : FileSystem) (d d0 : GcnMcFileDbPrivate) (filename : QString) (doc : List Token)
    (hclear : clear d = .ok d0) (hopen : fs filename = some doc)
    (hwf : wellFormed doc = true)
    (hforeign : ∀ t ∈ doc,
      ¬ (t.type = .StartElement ∧ t.name = QLatin1String "GcnMcFileDb")) :
    load pcre_compile fs d filename =
      .ok (0, { addr_file_defs := [], errorString := [] }, []) := by
  have hd0 := clear_eq d d0 hclear
  cases doc with
  | nil => simp [wellFormed] at hwf
  | cons t ts =>
    simp only [wellFormed, Bool.and_eq_true, decide_eq_true_eq] at hwf
    obtain ⟨pre, last, hts, hl, hp⟩ := wellFormedFrom_split _ _ _ hwf.2
    subst hts
    have hloop := load_loop_skip pcre_compile (t :: pre) [] { type := .NoToken } last [] []
      ((t :: pre ++ [last]).length + 2) (by simp) (by simp) hl (by
        intro u hu
        refine ⟨?_, hforeign u (by
          rcases List.mem_cons.1 hu with rfl | hu
          · simp
          · simp [hu])⟩
        rcases List.mem_cons.1 hu with rfl | hu
        · simp [hwf.1]
        · exact hp u hu)
    unfold load
    simp only [hclear, hopen, hd0, onDevice]
    have e : t :: (pre ++ [last]) = t :: pre ++ [last] := rfl
    rw [e, hloop]
    simp [hasError, hl]

/-- C5 at the well-formed document whose root element is `foo`. -/
theorem C5_foreign_root_loads_as_empty_witness :
    clear GcnMcFileDbPrivate.fresh = .ok GcnMcFileDbPrivate.fresh ∧
    exampleFs (QLatin1String "foo.xml") = some exampleForeignRoot ∧
    wellFormed exampleForeignRoot = true ∧
    (∀ t ∈ exampleForeignRoot,
      ¬ (t.type = .StartElement ∧ t.name = QLatin1String "GcnMcFileDb")) ∧
    load exampleCompile exampleFs GcnMcFileDbPrivate.fresh (QLatin1String "foo.xml") =
      .ok (0, { addr_file_defs := [], errorString := [] }, []) :=
  ⟨rfl, rfl, rfl, by decide,
    C5_foreign_root_loads_as_empty exampleCompile exampleFs GcnMcFileDbPrivate.fresh
      GcnMcFileDbPrivate.fresh (QLatin1String "foo.xml") exampleForeignRoot rfl rfl rfl
      (by decide)⟩

/-- C5 (counterexample): a well-formed document whose root element is `foo`, not
`GcnMcFileDb`, is loaded with status 0. -/
theorem C5_counterexample :
    wellFormed exampleForeignRoot = true ∧
    rootElement exampleForeignRoot = some (QLatin1String "foo") ∧
    QLatin1String "foo" ≠ QLatin1String "GcnMcFileDb" ∧
    exampleFs (QLatin1String "foo.xml") = some exampleForeignRoot ∧
    ∃ d log, load exampleCompile exampleFs GcnMcFileDbPrivate.fresh
      (QLatin1String "foo.xml") = .ok (0, d, log) :=
  ⟨rfl, rfl, by decide, rfl, _, _, rfl⟩

/-! ### Regions and game codes -/

theorem mem_allDefs_of_load (fs : FileSystem) (d d0 : GcnMcFileDbPrivate)
    (filename : QString) (doc : List Token) (hclear : clear d = .ok d0)
    (hopen : fs filename = some doc) :
    ∃ recs idx status es log,
      parsedFiles pcre_compile doc = .ok recs ∧
      load pcre_compile fs d filename =
        .ok (status, { addr_file_defs := idx, errorString := es }, log) ∧
      ∀ f, f ∈ idx.allDefs ↔ f ∈ recs := by
  obtain ⟨recs, status, es, log, hrecs, -, hload⟩ :=
    load_of_open pcre_compile fs d d0 filename doc hclear hopen
  refine ⟨recs, _, status, es, log, hrecs, hload, ?_⟩
  intro f
  have hp := AddrFileDefs.allDefs_foldl_addFile recs []
  simpa [AddrFileDefs.allDefs] using (hp.mem_iff : f ∈ _ ↔ f ∈ _)

theorem RegionCharToBitfield_cases (c : QChar) :
    RegionCharToBitfield c = 0 ∨ RegionCharToBitfield c = 1 ∨ RegionCharToBitfield c = 2 ∨
      RegionCharToBitfield c = 4 ∨ RegionCharToBitfield c = 8 := by
  unfold RegionCharToBitfield
  split_ifs <;> simp [REGION_JPN, REGION_USA, REGION_EUR, REGION_KOR]

/-- C6: `RegionCharToBitfield` maps J to bit 0 (JPN), E to bit 1 (USA), P to bit 2
(EUR), K to bit 3 (KOR) and every other character, the lowercase letters included,
to 0; and in every definition of the index whose game code has four characters the
regions are the value of that mapping at the fourth character, hence 0 or one of
the four single bits. -/
theorem C6_region_mapping (pcre_compile : QString → Option pcre)
    (fs : FileSystem) (d d0 : GcnMcFileDbPrivate) (filename : QString) (doc : List Token)
    (hclear : clear d = .ok d0) (hopen : fs filename = some doc) :
    (RegionCharToBitfield 'J'.toNat = REGION_JPN ∧ REGION_JPN = 2 ^ 0) ∧
    (RegionCharToBitfield 'E'.toNat = REGION_USA ∧ REGION_USA = 2 ^ 1) ∧
    (RegionCharToBitfield 'P'.toNat = REGION_EUR ∧ REGION_EUR = 2 ^ 2) ∧
    (RegionCharToBitfield 'K'.toNat = REGION_KOR ∧ REGION_KOR = 2 ^ 3) ∧
    (∀ c : QChar, c ≠ 'J'.toNat → c ≠ 'E'.toNat → c ≠ 'P'.toNat → c ≠ 'K'.toNat →
      RegionCharToBitfield c = 0) ∧
    (RegionCharToBitfield 'j'.toNat = 0 ∧ RegionCharToBitfield 'e'.toNat = 0 ∧
      RegionCharToBitfield 'p'.toNat = 0 ∧ RegionCharToBitfield 'k'.toNat = 0) ∧
    ∃ idx status es log,
      load pcre_compile fs d filename =
        .ok (status, { addr_file_defs := idx, errorString := es }, log) ∧
      ∀ f ∈ idx.allDefs, f.gamecode.length = 4 →
        f.regions = RegionCharToBitfield (f.gamecode.getD 3 0) ∧
        (f.regions = 0 ∨ f.regions = REGION_JPN ∨ f.regions = REGION_USA ∨
          f.regions = REGION_EUR ∨ f.regions = REGION_KOR) := by
  refine ⟨⟨rfl, rfl⟩, ⟨rfl, rfl⟩, ⟨rfl, rfl⟩, ⟨rfl, rfl⟩, ?_, ⟨rfl, rfl, rfl, rfl⟩, ?_⟩
  · intro c hJ hE hP hK
    have hJ2 : ¬ c = 74 := hJ
    have hE2 : ¬ c = 69 := hE
    have hP2 : ¬ c = 80 := hP
    have hK2 : ¬ c = 75 := hK
    simp [RegionCharToBitfield, hJ2, hE2, hP2, hK2]
  · obtain ⟨recs, idx, status, es, log, hrecs, hload, hmem⟩ :=
      mem_allDefs_of_load pcre_compile fs d d0 filename doc hclear hopen
    refine ⟨idx, status, es, log, hload, ?_⟩
    intro f hf h4
    have hspec := parsedFiles_forall pcre_compile
      (fun f => f.regions =
        (if f.gamecode.length = 4 then RegionCharToBitfield (f.gamecode.getD 3 0) else 0))
      (fun xml x1 f w h => (parseXml_file_spec pcre_compile xml x1 f w h).2.2.1)
      doc recs hrecs f ((hmem f).1 hf)
    simp only [h4, if_true] at hspec
    refine ⟨hspec, ?_⟩
    rw [hspec]
    simpa [REGION_JPN, REGION_USA, REGION_EUR, REGION_KOR] using
      RegionCharToBitfield_cases (f.gamecode.getD 3 0)

/-- C6 at the example with the game codes `GAL`, `GALX` and `GALJ`. -/
theorem C6_region_mapping_witness :
    clear GcnMcFileDbPrivate.fresh = .ok GcnMcFileDbPrivate.fresh ∧
    exampleFs (QLatin1String "odd.xml") = some exampleDbOdd.tokens ∧
    ((RegionCharToBitfield 'J'.toNat = REGION_JPN ∧ REGION_JPN = 2 ^ 0) ∧
    (RegionCharToBitfield 'E'.toNat = REGION_USA ∧ REGION_USA = 2 ^ 1) ∧
    (RegionCharToBitfield 'P'.toNat = REGION_EUR ∧ REGION_EUR = 2 ^ 2) ∧
    (RegionCharToBitfield 'K'.toNat = REGION_KOR ∧ REGION_KOR = 2 ^ 3) ∧
    (∀ c : QChar, c ≠ 'J'.toNat → c ≠ 'E'.toNat → c ≠ 'P'.toNat → c ≠ 'K'.toNat →
      RegionCharToBitfield c = 0) ∧
    (RegionCharToBitfield 'j'.toNat = 0 ∧ RegionCharToBitfield 'e'.toNat = 0 ∧
      RegionCharToBitfield 'p'.toNat = 0 ∧ RegionCharToBitfield 'k'.toNat = 0) ∧
    ∃ idx status es log,
      load exampleCompile exampleFs GcnMcFileDbPrivate.fresh (QLatin1String "odd.xml") =
        .ok (status, { addr_file_defs := idx, errorString := es }, log) ∧
      ∀ f ∈ idx.allDefs, f.gamecode.length = 4 →
        f.regions = RegionCharToBitfield (f.gamecode.getD 3 0) ∧
        (f.regions = 0 ∨ f.regions = REGION_JPN ∨ f.regions = REGION_USA ∨
          f.regions = REGION_EUR ∨ f.regions = REGION_KOR)) :=
  ⟨rfl, rfl, C6_region_mapping exampleCompile exampleFs GcnMcFileDbPrivate.fresh
    GcnMcFileDbPrivate.fresh (QLatin1String "odd.xml") exampleDbOdd.tokens rfl rfl⟩

theorem getLast?_cons_getD (t x : QString) (l : List QString) :
    ((t :: l).getLast?).getD x = (l.getLast?).getD t := by
  cases l with
  | nil => simp
  | cons a l =>
    rw [List.getLast?_cons_cons]
    cases h : (a :: l).getLast? with
    | none => simp at h
    | some v => rfl

theorem foldl_apply_gamecode (items : List FileItem) (st : gcn_file_def × List Msg) :
    (items.foldl (FileItem.apply pcre_compile) st).1.gamecode =
      ((items.filterMap fun
        | .gamecode t => some t
        | _ => none).getLast?).getD st.1.gamecode := by
  induction items generalizing st with
  | nil => simp
  | cons i is ih =>
    rw [List.foldl_cons, ih]
    cases i <;> simp [FileItem.apply, List.filterMap_cons, getLast?_cons_getD]

theorem fileDef_gamecode (items : List FileItem) :
    (fileDef pcre_compile items).gamecode = gamecodeOf items := by
  simp only [fileDef, fileFields, gamecodeOf]
  exact foldl_apply_gamecode pcre_compile items _

theorem fileFields_gamecode (items : List FileItem) :
    (fileFields pcre_compile items).1.gamecode = gamecodeOf items :=
  foldl_apply_gamecode pcre_compile items _

theorem fileLog_subset (db : DbDocument) (items : List FileItem) (h : items ∈ db.files)
    (msg : Msg) (hm : msg ∈ fileLog pcre_compile items) : msg ∈ db.log pcre_compile := by
  simp only [DbDocument.log, List.mem_flatten, List.mem_map]
  exact ⟨_, ⟨items, h, rfl⟩, hm⟩

theorem fileDef_mem_lookup (db : DbDocument) (items : List FileItem) (h : items ∈ db.files) :
    fileDef pcre_compile items ∈
      AddrFileDefs.lookup ((db.defs pcre_compile).foldl addFile [])
        (fileDef pcre_compile items).search.address := by
  rw [AddrFileDefs.lookup_foldl_addFile]
  simp only [AddrFileDefs.lookup, AddrFileDefs.value, Option.getD_none, List.nil_append]
  exact List.mem_filter.2 ⟨List.mem_map.2 ⟨items, h, rfl⟩, by simp⟩

/-- C7: a game code whose length is not 4 (a missing or empty one included) costs a
warning, not the load. Whenever `parseXml_file` returns a definition whose game code
has another length than 4, its regions are 0 and the warning for that game code has
been written; and when a database document has such a record, `load` returns 0, the
definition of the record is in the bucket of its search address, its regions are 0
and the warning is in the output of the load. -/
theorem C7_wrong_length_gamecode_is_a_warning (pcre_compile : QString → Option pcre)
    (fs : FileSystem) (d d0 : GcnMcFileDbPrivate) (filename : QString)
    (db : DbDocument) (items : List FileItem)
    (hclear : clear d = .ok d0) (hopen : fs filename = some db.tokens)
    (hrecord : items ∈ db.files) (hlen : (gamecodeOf items).length ≠ 4) :
    (∀ xml x1 f w, parseXml_file pcre_compile xml = .ok (x1, some f, w) →
      f.gamecode.length ≠ 4 → f.regions = 0 ∧ Msg.invalidGameCode f.gamecode ∈ w) ∧
    ∃ idx log,
      load pcre_compile fs d filename =
        .ok (0, { addr_file_defs := idx, errorString := [] }, log) ∧
      (fileDef pcre_compile items).gamecode = gamecodeOf items ∧
      fileDef pcre_compile items ∈ idx.lookup (fileDef pcre_compile items).search.address ∧
      (fileDef pcre_compile items).regions = 0 ∧
      Msg.invalidGameCode (gamecodeOf items) ∈ log := by
  constructor
  · intro xml x1 f w h hne
    have hs := parseXml_file_spec pcre_compile xml x1 f w h
    refine ⟨?_, hs.2.2.2.2.1 hne⟩
    rw [hs.2.2.1]
    simp [hne]
  · refine ⟨_, _, load_document pcre_compile fs d d0 filename db hclear hopen,
      fileDef_gamecode pcre_compile items, fileDef_mem_lookup pcre_compile db items hrecord,
      ?_, ?_⟩
    · simp only [fileDef, regionsFor_eq, fileFields_gamecode, hlen, if_false]
    · apply fileLog_subset pcre_compile db items hrecord
      simp [fileLog, fileFields_gamecode, hlen]

/-- C7 at the record with the three-character game code `GAL`. -/
theorem C7_wrong_length_gamecode_is_a_warning_witness :
    clear GcnMcFileDbPrivate.fresh = .ok GcnMcFileDbPrivate.fresh ∧
    exampleFs (QLatin1String "odd.xml") = some exampleDbOdd.tokens ∧
    exampleItems "short" "GAL" "0x2000" "^A" "^B" ∈ exampleDbOdd.files ∧
    (gamecodeOf (exampleItems "short" "GAL" "0x2000" "^A" "^B")).length ≠ 4 ∧
    (∀ xml x1 f w, parseXml_file exampleCompile xml = .ok (x1, some f, w) →
      f.gamecode.length ≠ 4 → f.regions = 0 ∧ Msg.invalidGameCode f.gamecode ∈ w) ∧
    ∃ idx log,
      load exampleCompile exampleFs GcnMcFileDbPrivate.fresh (QLatin1String "odd.xml") =
        .ok (0, { addr_file_defs := idx, errorString := [] }, log) ∧
      (fileDef exampleCompile (exampleItems "short" "GAL" "0x2000" "^A" "^B")).gamecode =
        gamecodeOf (exampleItems "short" "GAL" "0x2000" "^A" "^B") ∧
      fileDef exampleCompile (exampleItems "short" "GAL" "0x2000" "^A" "^B") ∈
        idx.lookup
          (fileDef exampleCompile
            (exampleItems "short" "GAL" "0x2000" "^A" "^B")).search.address ∧
      (fileDef exampleCompile (exampleItems "short" "GAL" "0x2000" "^A" "^B")).regions = 0 ∧
      Msg.invalidGameCode (gamecodeOf (exampleItems "short" "GAL" "0x2000" "^A" "^B")) ∈
        log :=
  ⟨rfl, rfl, List.Mem.head _, by decide,
    C7_wrong_length_gamecode_is_a_warning exampleCompile exampleFs
      GcnMcFileDbPrivate.fresh GcnMcFileDbPrivate.fresh (QLatin1String "odd.xml")
      exampleDbOdd (exampleItems "short" "GAL" "0x2000" "^A" "^B") rfl rfl
      (List.Mem.head _) (by decide)⟩

theorem RegionCharToBitfield_unknown (c : QChar) (hJ : c ≠ 'J'.toNat) (hE : c ≠ 'E'.toNat)
    (hP : c ≠ 'P'.toNat) (hK : c ≠ 'K'.toNat) : RegionCharToBitfield c = 0 := by
  have hJ2 : ¬ c = 74 := hJ
  have hE2 : ¬ c = 69 := hE
  have hP2 : ¬ c = 80 := hP
  have hK2 : ¬ c = 75 := hK
  simp [RegionCharToBitfield, hJ2, hE2, hP2, hK2]

/-- C8 (as the code behaves): a game code of exactly four characters whose fourth
character is none of J, E, P, K causes no warning. Whenever `parseXml_file` returns
such a definition its regions are 0 and no game-code warning has been written; and
when a database document has such a record, `load` returns 0, its output is the
output of the records in document order, the definition of the record is in the
bucket of its search address with regions 0, and the output of the record holds no
game-code warning. -/
theorem C8_unknown_region_is_silent (pcre_compile : QString → Option pcre)
    (fs : FileSystem) (d d0 : GcnMcFileDbPrivate) (filename : QString)
    (db : DbDocument) (items : List FileItem)
    (hclear : clear d = .ok d0) (hopen : fs filename = some db.tokens)
    (hrecord : items ∈ db.files) (hlen : (gamecodeOf items).length = 4)
    (hJ : (gamecodeOf items).getD 3 0 ≠ 'J'.toNat)
    (hE : (gamecodeOf items).getD 3 0 ≠ 'E'.toNat)
    (hP : (gamecodeOf items).getD 3 0 ≠ 'P'.toNat)
    (hK : (gamecodeOf items).getD 3 0 ≠ 'K'.toNat) :
    (∀ xml x1 f w, parseXml_file pcre_compile xml = .ok (x1, some f, w) →
      f.gamecode.length = 4 → f.gamecode.getD 3 0 ≠ 'J'.toNat →
      f.gamecode.getD 3 0 ≠ 'E'.toNat → f.gamecode.getD 3 0 ≠ 'P'.toNat →
      f.gamecode.getD 3 0 ≠ 'K'.toNat →
      f.regions = 0 ∧ ∀ g, Msg.invalidGameCode g ∉ w) ∧
    ∃ idx,
      load pcre_compile fs d filename =
        .ok (0, { addr_file_defs := idx, errorString := [] },
          (db.files.map (fileLog pcre_compile)).flatten) ∧
      (fileDef pcre_compile items).gamecode = gamecodeOf items ∧
      fileDef pcre_compile items ∈ idx.lookup (fileDef pcre_compile items).search.address ∧
      (fileDef pcre_compile items).regions = 0 ∧
      ∀ g, Msg.invalidGameCode g ∉ fileLog pcre_compile items := by
  have hcall : ∀ xml x1 f w, parseXml_file pcre_compile xml = .ok (x1, some f, w) →
      f.gamecode.length = 4 → f.gamecode.getD 3 0 ≠ 'J'.toNat →
      f.gamecode.getD 3 0 ≠ 'E'.toNat → f.gamecode.getD 3 0 ≠ 'P'.toNat →
      f.gamecode.getD 3 0 ≠ 'K'.toNat →
      f.regions = 0 ∧ ∀ g, Msg.invalidGameCode g ∉ w := by
    intro xml x1 f w h h4 hJ hE hP hK
    have hs := parseXml_file_spec pcre_compile xml x1 f w h
    refine ⟨?_, hs.2.2.2.2.2 h4⟩
    rw [hs.2.2.1]
    simp only [h4, if_true]
    exact RegionCharToBitfield_unknown _ hJ hE hP hK
  refine ⟨hcall, _, load_document pcre_compile fs d d0 filename db hclear hopen,
    fileDef_gamecode pcre_compile items, fileDef_mem_lookup pcre_compile db items hrecord,
    ?_, ?_⟩
  · have hg := fileDef_gamecode pcre_compile items
    exact (hcall _ _ _ _ (parseXml_file_items pcre_compile items []) (by rw [hg]; exact hlen)
      (by rw [hg]; exact hJ) (by rw [hg]; exact hE) (by rw [hg]; exact hP)
      (by rw [hg]; exact hK)).1
  · have hg := fileDef_gamecode pcre_compile items
    exact (hcall _ _ _ _ (parseXml_file_items pcre_compile items []) (by rw [hg]; exact hlen)
      (by rw [hg]; exact hJ) (by rw [hg]; exact hE) (by rw [hg]; exact hP)
      (by rw [hg]; exact hK)).2

/-- C8 at the record with the game code `GALX`. -/
theorem C8_unknown_region_is_silent_witness :
    clear GcnMcFileDbPrivate.fresh = .ok GcnMcFileDbPrivate.fresh ∧
    exampleFs (QLatin1String "odd.xml") = some exampleDbOdd.tokens ∧
    exampleItems "region" "GALX" "0x2000" "^A" "^B" ∈ exampleDbOdd.files ∧
    (gamecodeOf (exampleItems "region" "GALX" "0x2000" "^A" "^B")).length = 4 ∧
    (gamecodeOf (exampleItems "region" "GALX" "0x2000" "^A" "^B")).getD 3 0 = 'X'.toNat ∧
    (∀ xml x1 f w, parseXml_file exampleCompile xml = .ok (x1, some f, w) →
      f.gamecode.length = 4 → f.gamecode.getD 3 0 ≠ 'J'.toNat →
      f.gamecode.getD 3 0 ≠ 'E'.toNat → f.gamecode.getD 3 0 ≠ 'P'.toNat →
      f.gamecode.getD 3 0 ≠ 'K'.toNat →
      f.regions = 0 ∧ ∀ g, Msg.invalidGameCode g ∉ w) ∧
    ∃ idx,
      load exampleCompile exampleFs GcnMcFileDbPrivate.fresh (QLatin1String "odd.xml") =
        .ok (0, { addr_file_defs := idx, errorString := [] },
          (exampleDbOdd.files.map (fileLog exampleCompile)).flatten) ∧
      (fileDef exampleCompile (exampleItems "region" "GALX" "0x2000" "^A" "^B")).gamecode =
        gamecodeOf (exampleItems "region" "GALX" "0x2000" "^A" "^B") ∧
      fileDef exampleCompile (exampleItems "region" "GALX" "0x2000" "^A" "^B") ∈
        idx.lookup
          (fileDef exampleCompile
            (exampleItems "region" "GALX" "0x2000" "^A" "^B")).search.address ∧
      (fileDef exampleCompile (exampleItems "region" "GALX" "0x2000" "^A" "^B")).regions = 0 ∧
      ∀ g, Msg.invalidGameCode g ∉
        fileLog exampleCompile (exampleItems "region" "GALX" "0x2000" "^A" "^B") :=
  ⟨rfl, rfl, List.Mem.tail _ (List.Mem.head _), by decide, by decide,
    C8_unknown_region_is_silent exampleCompile exampleFs
      GcnMcFileDbPrivate.fresh GcnMcFileDbPrivate.fresh (QLatin1String "odd.xml")
      exampleDbOdd (exampleItems "region" "GALX" "0x2000" "^A" "^B") rfl rfl
      (List.Mem.tail _ (List.Mem.head _)) (by decide) (by decide) (by decide) (by decide)
      (by decide)⟩

/-- C8 (counterexample): a database whose one record has the game code `GALX`, four
characters of which the fourth is none of J, E, P, K, is loaded with status 0 and
nothing at all is written to `stderr`: no warning is emitted for the record. -/
theorem C8_counterexample :
    exampleFs (QLatin1String "region.xml") = some exampleDbRegion.tokens ∧
    exampleDbRegion.files = [exampleItems "region" "GALX" "0x2000" "^A" "^B"] ∧
    gamecodeOf (exampleItems "region" "GALX" "0x2000" "^A" "^B") = QLatin1String "GALX" ∧
    (QLatin1String "GALX").length = 4 ∧
    RegionCharToBitfield ((QLatin1String "GALX").getD 3 0) = 0 ∧
    ∃ d, load exampleCompile exampleFs GcnMcFileDbPrivate.fresh
      (QLatin1String "region.xml") = .ok (0, d, []) :=
  ⟨rfl, rfl, rfl, rfl, rfl, _, rfl⟩

/-! ### Patterns and matchers -/

theorem foldl_search_gamedesc_nil (is : List SearchItem) (s : gcn_file_def.Search)
    (hs : s.gamedesc = []) (h : ∀ t ∈ gamedescTexts is, t = []) :
    (is.foldl SearchItem.apply s).gamedesc = [] := by
  induction is generalizing s with
  | nil => exact hs
  | cons i is ih =>
    rw [List.foldl_cons]
    cases i with
    | gamedesc t =>
      apply ih
      · exact h t (by simp [gamedescTexts])
      · intro u hu; exact h u (by simp [gamedescTexts] at hu ⊢; exact Or.inr hu)
    | address t => exact ih _ hs (fun u hu => h u (by simpa [gamedescTexts] using hu))
    | filedesc t => exact ih _ hs (fun u hu => h u (by simpa [gamedescTexts] using hu))
    | space t => exact ih _ hs (fun u hu => h u (by simpa [gamedescTexts] using hu))
    | comment t => exact ih _ hs (fun u hu => h u (by simpa [gamedescTexts] using hu))

theorem foldl_search_filedesc_nil (is : List SearchItem) (s : gcn_file_def.Search)
    (hs : s.filedesc = []) (h : ∀ t ∈ filedescTexts is, t = []) :
    (is.foldl SearchItem.apply s).filedesc = [] := by
  induction is generalizing s with
  | nil => exact hs
  | cons i is ih =>
    rw [List.foldl_cons]
    cases i with
    | filedesc t =>
      apply ih
      · exact h t (by simp [filedescTexts])
      · intro u hu; exact h u (by simp [filedescTexts] at hu ⊢; exact Or.inr hu)
    | address t => exact ih _ hs (fun u hu => h u (by simpa [filedescTexts] using hu))
    | gamedesc t => exact ih _ hs (fun u hu => h u (by simpa [filedescTexts] using hu))
    | space t => exact ih _ hs (fun u hu => h u (by simpa [filedescTexts] using hu))
    | comment t => exact ih _ hs (fun u hu => h u (by simpa [filedescTexts] using hu))

theorem foldl_apply_gamedesc_nil (items : List FileItem) (st : gcn_file_def × List Msg)
    (hs : st.1.search.gamedesc = [])
    (h : ∀ s ∈ searchesOf items, ∀ t ∈ gamedescTexts s, t = []) :
    (items.foldl (FileItem.apply pcre_compile) st).1.search.gamedesc = [] := by
  induction items generalizing st with
  | nil => exact hs
  | cons i is ih =>
    rw [List.foldl_cons]
    cases i with
    | search s =>
      apply ih
      · exact foldl_search_gamedesc_nil s _ hs (h s (by simp [searchesOf]))
      · intro u hu; exact h u (by simp [searchesOf] at hu ⊢; exact Or.inr hu)
    | description t => exact ih _ hs (fun u hu => h u (by simpa [searchesOf] using hu))
    | gamecode t => exact ih _ hs (fun u hu => h u (by simpa [searchesOf] using hu))
    | company t => exact ih _ hs (fun u hu => h u (by simpa [searchesOf] using hu))
    | space t => exact ih _ hs (fun u hu => h u (by simpa [searchesOf] using hu))
    | comment t => exact ih _ hs (fun u hu => h u (by simpa [searchesOf] using hu))

theorem foldl_apply_filedesc_nil (items : List FileItem) (st : gcn_file_def × List Msg)
    (hs : st.1.search.filedesc = [])
    (h : ∀ s ∈ searchesOf items, ∀ t ∈ filedescTexts s, t = []) :
    (items.foldl (FileItem.apply pcre_compile) st).1.search.filedesc = [] := by
  induction items generalizing st with
  | nil => exact hs
  | cons i is ih =>
    rw [List.foldl_cons]
    cases i with
    | search s =>
      apply ih
      · exact foldl_search_filedesc_nil s _ hs (h s (by simp [searchesOf]))
      · intro u hu; exact h u (by simp [searchesOf] at hu ⊢; exact Or.inr hu)
    | description t => exact ih _ hs (fun u hu => h u (by simpa [searchesOf] using hu))
    | gamecode t => exact ih _ hs (fun u hu => h u (by simpa [searchesOf] using hu))
    | company t => exact ih _ hs (fun u hu => h u (by simpa [searchesOf] using hu))
    | space t => exact ih _ hs (fun u hu => h u (by simpa [searchesOf] using hu))
    | comment t => exact ih _ hs (fun u hu => h u (by simpa [searchesOf] using hu))

/-- The matchers of the definition a record denotes are those of its patterns. -/
theorem fileDef_regexps (items : List FileItem) :
    (fileDef pcre_compile items).search.gamedesc_regexp =
      matcherFor pcre_compile (fileDef pcre_compile items).search.gamedesc ∧
    (fileDef pcre_compile items).search.filedesc_regexp =
      matcherFor pcre_compile (fileDef pcre_compile items).search.filedesc := by
  have hs := parseXml_file_spec pcre_compile _ _ _ _ (parseXml_file_items pcre_compile items [])
  rw [compile_regexp_eq, compile_regexp_eq] at hs
  exact ⟨hs.1, hs.2.1⟩

/-- C9: the empty pattern is never compiled and never matches. `compile_regexp`
returns NULL for it whatever the compiler would say (the compiler is not called);
in every definition of the index an empty `gamedesc` (`filedesc`) pattern has the
NULL matcher; and a record of a database document that has no `gamedesc`
(`filedesc`) element, or only empty ones, is in the index with the NULL matcher. -/
theorem C9_empty_pattern_never_compiled (pcre_compile : QString → Option pcre)
    (fs : FileSystem) (d d0 : GcnMcFileDbPrivate) (filename : QString) (doc : List Token)
    (hclear : clear d = .ok d0) (hopen : fs filename = some doc) :
    (∀ compiler : QString → Option pcre,
      compile_regexp compiler [] = (none, [Msg.emptyRegexp])) ∧
    ∃ idx status es log,
      load pcre_compile fs d filename =
        .ok (status, { addr_file_defs := idx, errorString := es }, log) ∧
      (∀ f ∈ idx.allDefs,
        (f.search.gamedesc = [] → f.search.gamedesc_regexp = none) ∧
        (f.search.filedesc = [] → f.search.filedesc_regexp = none)) ∧
      (∀ db : DbDocument, doc = db.tokens → ∀ items ∈ db.files,
        fileDef pcre_compile items ∈ idx.allDefs ∧
        ((∀ s ∈ searchesOf items, ∀ t ∈ gamedescTexts s, t = []) →
          (fileDef pcre_compile items).search.gamedesc = [] ∧
          (fileDef pcre_compile items).search.gamedesc_regexp = none) ∧
        ((∀ s ∈ searchesOf items, ∀ t ∈ filedescTexts s, t = []) →
          (fileDef pcre_compile items).search.filedesc = [] ∧
          (fileDef pcre_compile items).search.filedesc_regexp = none)) := by
  refine ⟨fun _ => rfl, ?_⟩
  obtain ⟨recs, idx, status, es, log, hrecs, hload, hmem⟩ :=
    mem_allDefs_of_load pcre_compile fs d d0 filename doc hclear hopen
  refine ⟨idx, status, es, log, hload, ?_, ?_⟩
  · intro f hf
    have hspec := parsedFiles_forall pcre_compile
      (fun f => f.search.gamedesc_regexp = (compile_regexp pcre_compile f.search.gamedesc).1 ∧
        f.search.filedesc_regexp = (compile_regexp pcre_compile f.search.filedesc).1)
      (fun xml x1 f w h =>
        ⟨(parseXml_file_spec pcre_compile xml x1 f w h).1,
          (parseXml_file_spec pcre_compile xml x1 f w h).2.1⟩)
      doc recs hrecs f ((hmem f).1 hf)
    constructor
    · intro h0
      rw [hspec.1, h0]
      rfl
    · intro h0
      rw [hspec.2, h0]
      rfl
  · intro db hdb items hitems
    subst hdb
    have h1 := parsedFiles_document pcre_compile db
    rw [hrecs] at h1
    injection h1 with h1
    have hre := fileDef_regexps pcre_compile items
    refine ⟨(hmem _).2 (by rw [h1]; exact List.mem_map.2 ⟨items, hitems, rfl⟩), ?_, ?_⟩
    · intro h
      have h0 : (fileDef pcre_compile items).search.gamedesc = [] :=
        foldl_apply_gamedesc_nil pcre_compile items _ rfl h
      refine ⟨h0, ?_⟩
      rw [hre.1, h0]
      rfl
    · intro h
      have h0 : (fileDef pcre_compile items).search.filedesc = [] :=
        foldl_apply_filedesc_nil pcre_compile items _ rfl h
      refine ⟨h0, ?_⟩
      rw [hre.2, h0]
      rfl

/-- C9 at the example with an empty `gamedesc` pattern and a record without `search`. -/
theorem C9_empty_pattern_never_compiled_witness :
    clear GcnMcFileDbPrivate.fresh = .ok GcnMcFileDbPrivate.fresh ∧
    exampleFs (QLatin1String "empty.xml") = some exampleDbEmpty.tokens ∧
    (∀ compiler : QString → Option pcre,
      compile_regexp compiler [] = (none, [Msg.emptyRegexp])) ∧
    ∃ idx status es log,
      load acceptAll exampleFs GcnMcFileDbPrivate.fresh (QLatin1String "empty.xml") =
        .ok (status, { addr_file_defs := idx, errorString := es }, log) ∧
      (∀ f ∈ idx.allDefs,
        (f.search.gamedesc = [] → f.search.gamedesc_regexp = none) ∧
        (f.search.filedesc = [] → f.search.filedesc_regexp = none)) ∧
      (∀ db : DbDocument, exampleDbEmpty.tokens = db.tokens → ∀ items ∈ db.files,
        fileDef acceptAll items ∈ idx.allDefs ∧
        ((∀ s ∈ searchesOf items, ∀ t ∈ gamedescTexts s, t = []) →
          (fileDef acceptAll items).search.gamedesc = [] ∧
          (fileDef acceptAll items).search.gamedesc_regexp = none) ∧
        ((∀ s ∈ searchesOf items, ∀ t ∈ filedescTexts s, t = []) →
          (fileDef acceptAll items).search.filedesc = [] ∧
          (fileDef acceptAll items).search.filedesc_regexp = none)) :=
  ⟨rfl, rfl, C9_empty_pattern_never_compiled acceptAll exampleFs GcnMcFileDbPrivate.fresh
    GcnMcFileDbPrivate.fresh (QLatin1String "empty.xml") exampleDbEmpty.tokens rfl rfl⟩

/-! ### The compiler only decides the matchers -/

theorem parseXml_file_search_body_setMatchers (g h : Option pcre) (xml : QXmlStreamReader)
    (f : gcn_file_def) :
    parseXml_file_search_body xml (setMatchers g h f) =
      ((parseXml_file_search_body xml f).1,
        setMatchers g h (parseXml_file_search_body xml f).2) := by
  unfold parseXml_file_search_body
  split_ifs <;> rfl

theorem parseXml_file_search_loop_setMatchers (g h : Option pcre) (fuel : Nat)
    (xml x1 : QXmlStreamReader) (f f1 : gcn_file_def)
    (hl : parseXml_file_search_loop fuel xml f = .ok (x1, f1)) :
    parseXml_file_search_loop fuel xml (setMatchers g h f) = .ok (x1, setMatchers g h f1) := by
  induction fuel generalizing xml f with
  | zero => simp [parseXml_file_search_loop] at hl
  | succ n ih =>
    unfold parseXml_file_search_loop at hl ⊢
    split_ifs at hl ⊢ with hg
    · rw [parseXml_file_search_body_setMatchers]
      exact ih _ _ hl
    · simp only [Except.ok.injEq, Prod.mk.injEq] at hl
      obtain ⟨rfl, rfl⟩ := hl
      rfl

theorem recompile_setMatchers (c : QString → Option pcre) (g h : Option pcre)
    (f : gcn_file_def) : recompile c (setMatchers g h f) = recompile c f := rfl

theorem parseXml_file_search_recompile (c c' : QString → Option pcre)
    (xml x1 : QXmlStreamReader) (f f1 : gcn_file_def) (w' : List Msg)
    (hs : parseXml_file_search c' xml f = .ok (x1, f1, w')) :
    ∃ w, parseXml_file_search c xml (recompile c f) = .ok (x1, recompile c f1, w) := by
  unfold parseXml_file_search at hs ⊢
  split_ifs at hs ⊢ with hg
  · simp only [Except.ok.injEq, Prod.mk.injEq] at hs
    obtain ⟨rfl, rfl, -⟩ := hs
    exact ⟨[], rfl⟩
  · cases hq : parseXml_file_search_loop (xml.rest.length + 2) xml.readNext f with
    | error e => simp [hq] at hs
    | ok r =>
      obtain ⟨x2, f2⟩ := r
      simp only [hq, Except.ok.injEq, Prod.mk.injEq] at hs
      obtain ⟨rfl, rfl, -⟩ := hs
      have := parseXml_file_search_loop_setMatchers
        (matcherFor c f.search.gamedesc) (matcherFor c f.search.filedesc) _ _ _ _ _ hq
      simp only [recompile] at this ⊢
      rw [this]
      refine ⟨patternLog c f2.search.gamedesc ++ patternLog c f2.search.filedesc, ?_⟩
      simp only [compile_regexp_eq, setMatchers]

theorem parseXml_file_body_recompile (c c' : QString → Option pcre)
    (xml x1 : QXmlStreamReader) (f f1 : gcn_file_def) (w' : List Msg)
    (hb : parseXml_file_body c' xml f = .ok (x1, f1, w')) :
    ∃ w, parseXml_file_body c xml (recompile c f) = .ok (x1, recompile c f1, w) := by
  unfold parseXml_file_body at hb ⊢
  split_ifs at hb ⊢
  all_goals first
    | (simp only [Except.ok.injEq, Prod.mk.injEq] at hb
       obtain ⟨rfl, rfl, -⟩ := hb
       exact ⟨[], rfl⟩)
    | exact parseXml_file_search_recompile c c' _ _ _ _ _ hb

theorem parseXml_file_loop_recompile (c c' : QString → Option pcre) (fuel : Nat)
    (xml x1 : QXmlStreamReader) (f f1 : gcn_file_def) (log log' w' : List Msg)
    (hl : parseXml_file_loop c' fuel xml f log' = .ok (x1, f1, w')) :
    ∃ w, parseXml_file_loop c fuel xml (recompile c f) log = .ok (x1, recompile c f1, w) := by
  induction fuel generalizing xml f log log' with
  | zero => simp [parseXml_file_loop] at hl
  | succ n ih =>
    unfold parseXml_file_loop at hl ⊢
    split_ifs at hl ⊢ with hg
    · cases hb : parseXml_file_body c' xml f with
      | error e => simp [hb] at hl
      | ok r =>
        obtain ⟨x2, f2, w2⟩ := r
        simp only [hb] at hl
        obtain ⟨w, hw⟩ := parseXml_file_body_recompile c c' _ _ _ _ _ hb
        simp only [hw]
        exact ih _ _ _ _ hl
    · simp only [Except.ok.injEq, Prod.mk.injEq] at hl
      obtain ⟨rfl, rfl, -⟩ := hl
      exact ⟨_, rfl⟩

theorem parseXml_file_regions_recompile (c : QString → Option pcre) (f : gcn_file_def) :
    (parseXml_file_regions (recompile c f)).1 = recompile c (parseXml_file_regions f).1 := by
  unfold parseXml_file_regions
  have : (recompile c f).gamecode = f.gamecode := rfl
  rw [this]
  split_ifs <;> rfl

theorem parseXml_file_recompile (c c' : QString → Option pcre)
    (xml x1 : QXmlStreamReader) (o : Option gcn_file_def) (w' : List Msg)
    (hp : parseXml_file c' xml = .ok (x1, o, w')) :
    ∃ w, parseXml_file c xml = .ok (x1, o.map (recompile c), w) := by
  unfold parseXml_file at hp ⊢
  split_ifs at hp ⊢ with hg
  · simp only [Except.ok.injEq, Prod.mk.injEq] at hp
    obtain ⟨rfl, rfl, -⟩ := hp
    exact ⟨[], rfl⟩
  · cases hq : parseXml_file_loop c' (xml.rest.length + 2) xml.readNext {} [] with
    | error e => simp [hq] at hp
    | ok r =>
      obtain ⟨x2, f2, w2⟩ := r
      simp only [hq, Except.ok.injEq, Prod.mk.injEq] at hp
      obtain ⟨rfl, rfl, -⟩ := hp
      obtain ⟨w, hw⟩ := parseXml_file_loop_recompile c c' _ _ _ _ _ [] _ _ hq
      have h0 : recompile c ({} : gcn_file_def) = {} := rfl
      rw [h0] at hw
      simp only [hw, Option.map_some', parseXml_file_regions_recompile]
      exact ⟨_, rfl⟩

theorem parsedFiles_GcnMcFileDb_loop_recompile (c c' : QString → Option pcre) (fuel : Nat)
    (xml x : QXmlStreamReader) (rs : List gcn_file_def)
    (hl : parsedFiles_GcnMcFileDb_loop c' fuel xml = .ok (x, rs)) :
    parsedFiles_GcnMcFileDb_loop c fuel xml = .ok (x, rs.map (recompile c)) := by
  induction fuel generalizing xml x rs with
  | zero => simp [parsedFiles_GcnMcFileDb_loop] at hl
  | succ n ih =>
    unfold parsedFiles_GcnMcFileDb_loop at hl ⊢
    split_ifs at hl ⊢ with hg hf
    · cases hp : parseXml_file c' xml with
      | error e => simp [hp] at hl
      | ok r =>
        obtain ⟨x1, o, w⟩ := r
        simp only [hp] at hl
        cases hq : parsedFiles_GcnMcFileDb_loop c' n x1.readNext with
        | error e => simp [hq] at hl
        | ok r2 =>
          obtain ⟨x2, rs2⟩ := r2
          simp only [hq, Except.ok.injEq, Prod.mk.injEq] at hl
          obtain ⟨rfl, rfl⟩ := hl
          obtain ⟨w2, hw2⟩ := parseXml_file_recompile c c' _ _ _ _ hp
          simp only [hw2, ih _ _ _ hq]
          cases o <;> simp
    · exact ih _ _ _ hl
    · simp only [Except.ok.injEq, Prod.mk.injEq] at hl
      obtain ⟨rfl, rfl⟩ := hl
      rfl

theorem parsedFiles_load_loop_recompile (c c' : QString → Option pcre) (fuel : Nat)
    (xml x : QXmlStreamReader) (rs : List gcn_file_def)
    (hl : parsedFiles_load_loop c' fuel xml = .ok (x, rs)) :
    parsedFiles_load_loop c fuel xml = .ok (x, rs.map (recompile c)) := by
  induction fuel generalizing xml x rs with
  | zero => simp [parsedFiles_load_loop] at hl
  | succ n ih =>
    unfold parsedFiles_load_loop at hl ⊢
    split_ifs at hl ⊢ with hg hf
    · cases hp : parsedFiles_GcnMcFileDb c' xml.readNext with
      | error e => simp [hp] at hl
      | ok r =>
        obtain ⟨x1, rs1⟩ := r
        simp only [hp] at hl
        cases hq : parsedFiles_load_loop c' n x1 with
        | error e => simp [hq] at hl
        | ok r2 =>
          obtain ⟨x2, rs2⟩ := r2
          simp only [hq, Except.ok.injEq, Prod.mk.injEq] at hl
          obtain ⟨rfl, rfl⟩ := hl
          have hp2 : parsedFiles_GcnMcFileDb c xml.readNext =
              .ok (x1, rs1.map (recompile c)) := by
            unfold parsedFiles_GcnMcFileDb at hp ⊢
            split_ifs at hp ⊢
            · simp only [Except.ok.injEq, Prod.mk.injEq] at hp
              obtain ⟨rfl, rfl⟩ := hp
              rfl
            · exact parsedFiles_GcnMcFileDb_loop_recompile c c' _ _ _ _ hp
          simp only [hp2, ih _ _ _ hq, List.map_append]
    · exact ih _ _ _ hl
    · simp only [Except.ok.injEq, Prod.mk.injEq] at hl
      obtain ⟨rfl, rfl⟩ := hl
      rfl

namespace AddrFileDefs

theorem value_mapDefs (g : gcn_file_def → gcn_file_def) (m : AddrFileDefs) (key : Nat) :
    value (mapDefs g m) key = (value m key).map (List.map g) := by
  induction m with
  | nil => rfl
  | cons e m ih =>
    obtain ⟨k, v⟩ := e
    simp only [mapDefs, List.map_cons, value] at ih ⊢
    split_ifs
    · rfl
    · exact ih

theorem insert_mapDefs (g : gcn_file_def → gcn_file_def) (m : AddrFileDefs) (key : Nat)
    (v : List gcn_file_def) :
    insert (mapDefs g m) key (v.map g) = mapDefs g (insert m key v) := by
  induction m with
  | nil => rfl
  | cons e m ih =>
    obtain ⟨k, w⟩ := e
    simp only [mapDefs, List.map_cons, insert] at ih ⊢
    split_ifs
    · rfl
    · rfl
    · simp only [List.map_cons, ih]

theorem append_mapDefs (g : gcn_file_def → gcn_file_def) (m : AddrFileDefs) (key : Nat)
    (f : gcn_file_def) :
    append (mapDefs g m) key (g f) = mapDefs g (append m key f) := by
  induction m with
  | nil => rfl
  | cons e m ih =>
    obtain ⟨k, w⟩ := e
    simp only [mapDefs, List.map_cons, append] at ih ⊢
    split_ifs
    · simp
    · simp only [List.map_cons, ih]

theorem addFile_mapDefs (g : gcn_file_def → gcn_file_def)
    (hg : ∀ f, (g f).search.address = f.search.address) (m : AddrFileDefs)
    (f : gcn_file_def) : addFile (mapDefs g m) (g f) = mapDefs g (addFile m f) := by
  unfold addFile
  simp only [hg, value_mapDefs, Option.isNone_map']
  split_ifs
  · have := insert_mapDefs g m f.search.address []
    simp only [List.map_nil] at this
    rw [this, append_mapDefs]
  · rw [append_mapDefs]

theorem foldl_addFile_mapDefs (g : gcn_file_def → gcn_file_def)
    (hg : ∀ f, (g f).search.address = f.search.address) (recs : List gcn_file_def)
    (m : AddrFileDefs) :
    (recs.map g).foldl addFile (mapDefs g m) = mapDefs g (recs.foldl addFile m) := by
  induction recs generalizing m with
  | nil => rfl
  | cons f recs ih =>
    simp only [List.map_cons, List.foldl_cons, addFile_mapDefs g hg, ih]

theorem mem_allDefs_mapDefs (g : gcn_file_def → gcn_file_def) (m : AddrFileDefs)
    (f : gcn_file_def) : f ∈ allDefs (mapDefs g m) ↔ ∃ f0 ∈ allDefs m, g f0 = f := by
  simp only [allDefs, mapDefs, List.map_map, List.mem_flatten, List.mem_map,
    Function.comp_apply]
  constructor
  · rintro ⟨l, ⟨e, he, rfl⟩, hf⟩
    obtain ⟨f0, hf0, rfl⟩ := List.mem_map.1 hf
    exact ⟨f0, ⟨e.2, ⟨e, he, rfl⟩, hf0⟩, rfl⟩
  · rintro ⟨f0, ⟨l, ⟨e, he, rfl⟩, hf0⟩, rfl⟩
    exact ⟨e.2.map g, ⟨e, he, rfl⟩, List.mem_map.2 ⟨f0, hf0, rfl⟩⟩

end AddrFileDefs

theorem load_of_open_reader (fs : FileSystem) (d d0 : GcnMcFileDbPrivate)
    (filename : QString) (doc : List Token) (hc : clear d = .ok d0)
    (hf : fs filename = some doc) :
    ∃ x recs log,
      parsedFiles_load_loop pcre_compile (doc.length + 2) (onDevice doc) = .ok (x, recs) ∧
      load pcre_compile fs d filename =
        .ok (if x.hasError then -2 else 0,
          { addr_file_defs := recs.foldl addFile [],
            errorString := if x.hasError then load_errorString x else [] }, log) := by
  have hd0 := clear_eq d d0 hc
  have h := load_loop_parsedFiles pcre_compile (doc.length + 2) (onDevice doc) [] []
  obtain ⟨recs, hrecs⟩ := parsedFiles_ok pcre_compile doc
  unfold parsedFiles at hrecs
  unfold load
  simp only [hc, hf, hd0]
  cases hq : parsedFiles_load_loop pcre_compile (doc.length + 2) (onDevice doc) with
  | error e => rw [hq] at hrecs; cases hrecs
  | ok r2 =>
    obtain ⟨x, rs⟩ := r2
    rw [hq] at h
    obtain ⟨w, hw⟩ := h
    simp only [hw]
    by_cases he : x.hasError = true
    · simp only [he, if_true]
      exact ⟨x, rs, w, rfl, by simp [he]⟩
    · simp only [he]
      exact ⟨x, rs, w, rfl, by simp [he]⟩

theorem recompile_eq_self (c c' : QString → Option pcre) (f : gcn_file_def)
    (hg : f.search.gamedesc_regexp = matcherFor c' f.search.gamedesc)
    (hf : f.search.filedesc_regexp = matcherFor c' f.search.filedesc)
    (hcg : c f.search.gamedesc = c' f.search.gamedesc)
    (hcf : c f.search.filedesc = c' f.search.filedesc) : recompile c f = f := by
  obtain ⟨de, ga, co, re, ⟨a, gd, fd, gr, fr⟩⟩ := f
  simp only at hg hf hcg hcf
  simp only [recompile, setMatchers, matcherFor, hcg, hcf]
  simp only [matcherFor] at hg hf
  rw [← hg, ← hf]

/-- C10: a pattern the compiler rejects invalidates only its own matcher. For every
document, loading it with a compiler `c` and with any other compiler `c'` (one that
accepts the pattern, say) returns the same status and error string, and the index
under `c` is the index under `c'`, key for key and position for position, with the
two matchers of each definition replaced by what `c` makes of that definition's own
patterns. So each matcher is NULL exactly when its pattern is empty or rejected, the
other matcher of the record does not depend on it, the record is in the index, and
a definition on whose two patterns the compilers agree is identical in both loads.
A database document loads with status 0 whatever the compiler rejects. -/
theorem C10_rejected_pattern_invalidates_one_matcher (c c' : QString → Option pcre)
    (fs : FileSystem) (d d0 : GcnMcFileDbPrivate) (filename : QString) (doc : List Token)
    (hclear : clear d = .ok d0) (hopen : fs filename = some doc) :
    ∃ idx idx' status es log log',
      load c fs d filename =
        .ok (status, { addr_file_defs := idx, errorString := es }, log) ∧
      load c' fs d filename =
        .ok (status, { addr_file_defs := idx', errorString := es }, log') ∧
      idx = idx'.mapDefs (recompile c) ∧
      (∀ f ∈ idx.allDefs,
        f.search.gamedesc_regexp =
          (if f.search.gamedesc = [] then none else c f.search.gamedesc) ∧
        f.search.filedesc_regexp =
          (if f.search.filedesc = [] then none else c f.search.filedesc)) ∧
      (∀ f ∈ idx'.allDefs, c f.search.gamedesc = c' f.search.gamedesc →
        c f.search.filedesc = c' f.search.filedesc → recompile c f = f) ∧
      (∀ db : DbDocument, doc = db.tokens → status = 0) := by
  obtain ⟨x', recs', log', hloop', hload'⟩ :=
    load_of_open_reader c' fs d d0 filename doc hclear hopen
  obtain ⟨x, recs, log, hloop, hload⟩ :=
    load_of_open_reader c fs d d0 filename doc hclear hopen
  have hrel := parsedFiles_load_loop_recompile c c' _ _ _ _ hloop'
  rw [hloop] at hrel
  simp only [Except.ok.injEq, Prod.mk.injEq] at hrel
  obtain ⟨rfl, rfl⟩ := hrel
  have hidx : (recs'.map (recompile c)).foldl addFile [] =
      AddrFileDefs.mapDefs (recompile c) (recs'.foldl addFile []) :=
    AddrFileDefs.foldl_addFile_mapDefs (recompile c) (fun _ => rfl) recs' []
  have hparsed' : parsedFiles c' doc = .ok recs' := by simp [parsedFiles, hloop']
  have hparsed : parsedFiles c doc = .ok (recs'.map (recompile c)) := by
    simp [parsedFiles, hloop]
  rw [hidx] at hload
  refine ⟨_, _, _, _, log, log', hload, hload', rfl, ?_, ?_, ?_⟩
  · intro f hf
    obtain ⟨f0, -, rfl⟩ := (AddrFileDefs.mem_allDefs_mapDefs _ _ f).1 hf
    exact ⟨rfl, rfl⟩
  · intro f hf hcg hcf
    have hmem : f ∈ recs' := by
      have hp := AddrFileDefs.allDefs_foldl_addFile recs' []
      simpa [AddrFileDefs.allDefs] using hp.mem_iff.1 hf
    have hspec := parsedFiles_forall c'
      (fun f => f.search.gamedesc_regexp = (compile_regexp c' f.search.gamedesc).1 ∧
        f.search.filedesc_regexp = (compile_regexp c' f.search.filedesc).1)
      (fun xml x1 f w h =>
        ⟨(parseXml_file_spec c' xml x1 f w h).1, (parseXml_file_spec c' xml x1 f w h).2.1⟩)
      doc recs' hparsed' f hmem
    simp only [compile_regexp_eq] at hspec
    exact recompile_eq_self c c' f hspec.1 hspec.2 hcg hcf
  · intro db hdb
    subst hdb
    have h2 := load_document c fs d d0 filename db hclear hopen
    rw [hload] at h2
    injection h2 with h2
    simp only [Prod.mk.injEq] at h2
    exact h2.1

/-- C10 at the example with the rejected pattern `(`, against the compiler that accepts every pattern. -/
theorem C10_rejected_pattern_invalidates_one_matcher_witness :
    clear GcnMcFileDbPrivate.fresh = .ok GcnMcFileDbPrivate.fresh ∧
    exampleFs (QLatin1String "odd.xml") = some exampleDbOdd.tokens ∧
    exampleCompile (QLatin1String "(") = none ∧
    ∃ idx idx' status es log log',
      load exampleCompile exampleFs GcnMcFileDbPrivate.fresh (QLatin1String "odd.xml") =
        .ok (status, { addr_file_defs := idx, errorString := es }, log) ∧
      load acceptAll exampleFs GcnMcFileDbPrivate.fresh (QLatin1String "odd.xml") =
        .ok (status, { addr_file_defs := idx', errorString := es }, log') ∧
      idx = idx'.mapDefs (recompile exampleCompile) ∧
      (∀ f ∈ idx.allDefs,
        f.search.gamedesc_regexp =
          (if f.search.gamedesc = [] then none else exampleCompile f.search.gamedesc) ∧
        f.search.filedesc_regexp =
          (if f.search.filedesc = [] then none else exampleCompile f.search.filedesc)) ∧
      (∀ f ∈ idx'.allDefs, exampleCompile f.search.gamedesc = acceptAll f.search.gamedesc →
        exampleCompile f.search.filedesc = acceptAll f.search.filedesc →
        recompile exampleCompile f = f) ∧
      (∀ db : DbDocument, exampleDbOdd.tokens = db.tokens → status = 0) :=
  ⟨rfl, rfl, rfl, C10_rejected_pattern_invalidates_one_matcher exampleCompile acceptAll
    exampleFs GcnMcFileDbPrivate.fresh GcnMcFileDbPrivate.fresh (QLatin1String "odd.xml")
    exampleDbOdd.tokens rfl rfl⟩

/-! ### Termination and the faults of `clear` -/

theorem clear_loop_ne_outOfFuel (m : AddrFileDefs) (keys freed : List Nat) :
    clear_loop m keys freed ≠ .error .outOfFuel := by
  induction keys generalizing freed with
  | nil => simp [clear_loop]
  | cons k ks ih =>
    unfold clear_loop
    simp only
    split
    · simp
    · split_ifs
      · simp
      · exact ih _

/-- No call of `load` runs out of fuel: the loops of the model always end. -/
theorem load_never_outOfFuel (fs : FileSystem) (d : GcnMcFileDbPrivate)
    (filename : QString) : load pcre_compile fs d filename ≠ .error .outOfFuel := by
  cases hc : clear d with
  | error e =>
    have he : e ≠ .outOfFuel := by
      intro h
      subst h
      unfold clear at hc
      split at hc
      · rename_i e2 h2
        injection hc with hc
        subst hc
        exact clear_loop_ne_outOfFuel _ _ _ h2
      · cases hc
    unfold load
    simp only [hc]
    intro h
    injection h with h
    exact he h
  | ok d0 =>
    cases hf : fs filename with
    | none => rw [load_of_not_open pcre_compile fs d d0 filename hc hf]; simp
    | some doc =>
      obtain ⟨recs, status, es, log, -, -, hload⟩ :=
        load_of_open pcre_compile fs d d0 filename doc hc hf
      rw [hload]
      simp

/-- The loop of `clear()` completes when every key fits in 16 bits. -/
theorem clear_loop_ok (m : AddrFileDefs) (keys freed : List Nat)
    (hsmall : ∀ k ∈ keys, k < 65536) (hmem : ∀ k ∈ keys, k ∈ m.keys)
    (hnodup : keys.Nodup) (hfreed : ∀ k ∈ keys, k ∉ freed) :
    ∃ r, clear_loop m keys freed = .ok r := by
  induction keys generalizing freed with
  | nil => exact ⟨_, rfl⟩
  | cons k ks ih =>
    have hk : k % 65536 = k := Nat.mod_eq_of_lt (hsmall k (List.mem_cons_self _ _))
    have hv : m.value k ≠ none := by
      rw [Ne, AddrFileDefs.value_eq_none_iff]
      exact fun h => h (hmem k (List.mem_cons_self _ _))
    unfold clear_loop
    simp only [hk]
    cases hv2 : m.value k with
    | none => exact absurd hv2 hv
    | some v =>
      simp only [hfreed k (List.mem_cons_self _ _), if_false]
      apply ih
      · exact fun a ha => hsmall a (List.mem_cons_of_mem _ ha)
      · exact fun a ha => hmem a (List.mem_cons_of_mem _ ha)
      · exact (List.nodup_cons.1 hnodup).2
      · intro a ha hmf
        rcases List.mem_cons.1 hmf with rfl | h
        · exact (List.nodup_cons.1 hnodup).1 ha
        · exact hfreed a (List.mem_cons_of_mem _ ha) h

/-- From a state whose keys all fit in 16 bits (and are distinct, as the keys of a
map are) `clear()` completes and empties the index. -/
theorem clear_ok_of_small_keys (d : GcnMcFileDbPrivate)
    (hsmall : ∀ k ∈ d.addr_file_defs.keys, k < 65536)
    (hnodup : d.addr_file_defs.keys.Nodup) :
    clear d = .ok { d with addr_file_defs := [] } := by
  obtain ⟨r, hr⟩ := clear_loop_ok d.addr_file_defs d.addr_file_defs.keys [] hsmall
    (fun _ h => h) hnodup (by simp)
  unfold clear
  rw [hr]

/-! ### Re-loading -/

theorem mem_keys_foldl_addFile (recs : List gcn_file_def) (k : Nat)
    (h : k ∈ AddrFileDefs.keys (recs.foldl addFile [])) : ∃ f ∈ recs, f.search.address = k := by
  by_contra hno
  have hnone := (AddrFileDefs.value_foldl_addFile_isNone recs [] k).2
    ⟨rfl, fun f hf hfa => hno ⟨f, hf, hfa⟩⟩
  exact (AddrFileDefs.value_eq_none_iff _ k).1 hnone h

/-- A load depends on the previous state only through `clear()`: when `clear()`
completes, the status, the index and the output are those of the same load on a
fresh object. -/
theorem load_eq_fresh_load (fs : FileSystem) (d d0 : GcnMcFileDbPrivate)
    (filename : QString) (hc : clear d = .ok d0) :
    ∃ status idx es es0 log,
      load pcre_compile fs d filename =
        .ok (status, { addr_file_defs := idx, errorString := es }, log) ∧
      load pcre_compile fs GcnMcFileDbPrivate.fresh filename =
        .ok (status, { addr_file_defs := idx, errorString := es0 }, log) := by
  have hd0 := clear_eq d d0 hc
  unfold load
  simp only [hc, hd0]
  have hfresh : clear GcnMcFileDbPrivate.fresh = .ok GcnMcFileDbPrivate.fresh := rfl
  rw [hfresh]
  simp only [GcnMcFileDbPrivate.fresh]
  cases fs filename with
  | none => exact ⟨_, _, _, _, _, rfl, rfl⟩
  | some doc =>
    obtain ⟨⟨x, m, log⟩, hr⟩ := load_loop_ok pcre_compile (doc.length + 2) (onDevice doc) [] []
      (by have := remaining_le_length (onDevice doc); simp only [onDevice] at this ⊢; omega)
    simp only [hr]
    split_ifs
    · exact ⟨_, _, _, _, _, rfl, rfl⟩
    · exact ⟨_, _, _, _, _, rfl, rfl⟩

/-- When every definition parsed from the first document has a search address below
65536, the `clear()` of the next load completes, and the next load gives the status,
the index and the output of the same load on a fresh object. -/
theorem reload_eq_fresh_load_of_small_addresses (fs : FileSystem)
    (d d0 : GcnMcFileDbPrivate) (file1 file2 : QString) (doc1 : List Token)
    (recs1 : List gcn_file_def) (hc : clear d = .ok d0) (hopen : fs file1 = some doc1)
    (hrecs : parsedFiles pcre_compile doc1 = .ok recs1)
    (hsmall : ∀ f ∈ recs1, f.search.address < 65536) :
    ∃ status1 d1 log1 status idx es es0 log,
      load pcre_compile fs d file1 = .ok (status1, d1, log1) ∧
      load pcre_compile fs d1 file2 =
        .ok (status, { addr_file_defs := idx, errorString := es }, log) ∧
      load pcre_compile fs GcnMcFileDbPrivate.fresh file2 =
        .ok (status, { addr_file_defs := idx, errorString := es0 }, log) := by
  obtain ⟨recs, status1, es1, log1, hrecs2, -, hload1⟩ :=
    load_of_open pcre_compile fs d d0 file1 doc1 hc hopen
  rw [hrecs] at hrecs2
  injection hrecs2 with hrecs2
  subst hrecs2
  have hclear1 := clear_ok_of_small_keys
    { addr_file_defs := recs1.foldl addFile [], errorString := es1 }
    (by
      intro k hk
      obtain ⟨f, hf, rfl⟩ := mem_keys_foldl_addFile recs1 k hk
      exact hsmall f hf)
    ((AddrFileDefs.sorted_foldl_addFile recs1 [] (by simp [AddrFileDefs.keys])).imp
      (fun h => Nat.ne_of_lt h))
  obtain ⟨status, idx, es, es0, log, h2, h3⟩ :=
    load_eq_fresh_load pcre_compile fs _ _ file2 hclear1
  exact ⟨status1, _, log1, status, idx, es, es0, log, hload1, h2, h3⟩

/-! ### Database documents are well-formed -/

theorem wellFormedFrom_textElement (name text : QString) (stack : List QString)
    (rest : List Token) (hs : stack ≠ []) :
    wellFormedFrom stack true (textElement name text ++ rest) =
      wellFormedFrom stack true rest := by
  cases stack with
  | nil => exact absurd rfl hs
  | cons a s =>
    by_cases h : text = []
    · simp [textElement, h, wellFormedFrom, startElement, endElement]
    · simp [textElement, h, wellFormedFrom, startElement, endElement, characters]

theorem wellFormedFrom_searchTokens (items : List SearchItem) (stack : List QString)
    (rest : List Token) (hs : stack ≠ []) :
    wellFormedFrom stack true (searchTokens items ++ rest) =
      wellFormedFrom stack true rest := by
  induction items with
  | nil => rfl
  | cons i is ih =>
    simp only [searchTokens, List.append_assoc]
    cases i with
    | address t => rw [SearchItem.tokens, wellFormedFrom_textElement _ _ _ _ hs, ih]
    | gamedesc t => rw [SearchItem.tokens, wellFormedFrom_textElement _ _ _ _ hs, ih]
    | filedesc t => rw [SearchItem.tokens, wellFormedFrom_textElement _ _ _ _ hs, ih]
    | space t => simp [SearchItem.tokens, wellFormedFrom, characters, ih]
    | comment t => simp [SearchItem.tokens, wellFormedFrom, commentToken, ih]

theorem wellFormedFrom_fileTokens (items : List FileItem) (stack : List QString)
    (rest : List Token) (hs : stack ≠ []) :
    wellFormedFrom stack true (fileTokens items ++ rest) =
      wellFormedFrom stack true rest := by
  induction items with
  | nil => rfl
  | cons i is ih =>
    simp only [fileTokens, List.append_assoc]
    cases i with
    | description t => rw [FileItem.tokens, wellFormedFrom_textElement _ _ _ _ hs, ih]
    | gamecode t => rw [FileItem.tokens, wellFormedFrom_textElement _ _ _ _ hs, ih]
    | company t => rw [FileItem.tokens, wellFormedFrom_textElement _ _ _ _ hs, ih]
    | search s =>
      cases stack with
      | nil => exact absurd rfl hs
      | cons a st =>
        simp only [FileItem.tokens, List.cons_append, List.append_assoc]
        rw [wellFormedFrom]
        simp only [startElement]
        rw [wellFormedFrom_searchTokens _ _ _ (by simp)]
        simp [wellFormedFrom, endElement, ih]
    | space t => simp [FileItem.tokens, wellFormedFrom, characters, ih]
    | comment t => simp [FileItem.tokens, wellFormedFrom, commentToken, ih]

theorem wellFormedFrom_dbTokens (items : List DbItem) (stack : List QString)
    (rest : List Token) (hs : stack ≠ []) :
    wellFormedFrom stack true (dbTokens items ++ rest) =
      wellFormedFrom stack true rest := by
  induction items with
  | nil => rfl
  | cons i is ih =>
    simp only [dbTokens, List.append_assoc]
    cases i with
    | file s =>
      cases stack with
      | nil => exact absurd rfl hs
      | cons a st =>
        simp only [DbItem.tokens, List.cons_append, List.append_assoc]
        rw [wellFormedFrom]
        simp only [startElement]
        rw [wellFormedFrom_fileTokens _ _ _ (by simp)]
        simp [wellFormedFrom, endElement, ih]
    | space t => simp [DbItem.tokens, wellFormedFrom, characters, ih]
    | comment t => simp [DbItem.tokens, wellFormedFrom, commentToken, ih]

/-- The token sequence of a database document is a well-formed document whose root
element is `GcnMcFileDb`. -/
theorem wellFormed_document (db : DbDocument) :
    wellFormed db.tokens = true ∧
    rootElement db.tokens = some (QLatin1String "GcnMcFileDb") := by
  constructor
  · simp only [DbDocument.tokens, wellFormed, decide_True, Bool.true_and]
    rw [wellFormedFrom]
    simp only [startElement]
    rw [wellFormedFrom_dbTokens _ _ _ (by simp)]
    simp [wellFormedFrom, endElement]
  · simp [DbDocument.tokens, rootElement, startElement]

/-! ### Numeric literals -/

theorem digitValue_digitChar : ∀ d, d < 16 →
    digitValue (Nat.digitChar d).toNat = some d ∧ isSpace (Nat.digitChar d).toNat = false ∧
    (Nat.digitChar d).toNat ≠ 43 ∧ ((Nat.digitChar d).toNat = 48 → d = 0) := by
  decide

theorem parseDigits_append (base : Nat) (xs ys : List QChar) (acc : Nat) :
    parseDigits base (xs ++ ys) acc =
      (parseDigits base xs acc).bind (fun a => parseDigits base ys a) := by
  induction xs generalizing acc with
  | nil => rfl
  | cons c cs ih =>
    simp only [List.cons_append, parseDigits]
    cases digitValue c with
    | none => rfl
    | some d =>
      simp only
      split_ifs
      · exact ih _
      · rfl

/-- The digits `Nat.toDigitsCore` puts in front of its accumulator are read back as
the number by `parseDigits`. -/
theorem toDigitsCore_spec (b : Nat) (hb2 : 2 ≤ b) (hb16 : b ≤ 16) (fuel n : Nat)
    (ds : List Char) (hfuel : n < fuel) :
    ∃ pre : List Char, Nat.toDigitsCore b fuel n ds = pre ++ ds ∧
      parseDigits b (pre.map Char.toNat) 0 = some n ∧
      (∀ c ∈ pre, isSpace c.toNat = false ∧ c.toNat ≠ 43) ∧
      (∃ c rest, pre = c :: rest ∧ (c.toNat = 48 → n = 0)) := by
  induction fuel generalizing n ds with
  | zero => omega
  | succ f ih =>
    have hdig := digitValue_digitChar (n % b) (by
      have := Nat.mod_lt n (by omega : 0 < b); omega)
    unfold Nat.toDigitsCore
    simp only
    by_cases h0 : n / b = 0
    · simp only [h0, if_true]
      have hlt : n < b := by
        by_contra hge
        have : 0 < n / b := Nat.div_pos (by omega) (by omega)
        omega
      have hmod : n % b = n := Nat.mod_eq_of_lt hlt
      refine ⟨[Nat.digitChar (n % b)], rfl, ?_, ?_, ?_⟩
      · simp only [List.map_cons, List.map_nil, parseDigits, hdig.1]
        simp [hmod, hlt]
      · intro c hc
        simp only [List.mem_singleton] at hc
        subst hc
        exact ⟨hdig.2.1, hdig.2.2.1⟩
      · exact ⟨_, [], rfl, fun h => by have := hdig.2.2.2 h; omega⟩
    · simp only [h0, if_false]
      have hpos : 0 < n / b := Nat.pos_of_ne_zero h0
      have hlt : n / b < f := by
        have : n / b < n := Nat.div_lt_self (by
          by_contra hn
          have : n = 0 := by omega
          subst this
          simp at h0) (by omega)
        omega
      obtain ⟨pre, hpre, hval, hchars, c, rest, hhead, hzero⟩ :=
        ih (n / b) (Nat.digitChar (n % b) :: ds) hlt
      refine ⟨pre ++ [Nat.digitChar (n % b)], by simp [hpre], ?_, ?_, ?_⟩
      · rw [List.map_append, parseDigits_append, hval]
        simp only [Option.some_bind, List.map_cons, List.map_nil, parseDigits, hdig.1]
        simp only [Nat.mod_lt n (by omega : 0 < b), if_true, Option.some.injEq]
        have := Nat.div_add_mod n b
        rw [Nat.mul_comm] at this
        exact this
      · intro x hx
        rcases List.mem_append.1 hx with hx | hx
        · exact hchars x hx
        · simp only [List.mem_singleton] at hx
          subst hx
          exact ⟨hdig.2.1, hdig.2.2.1⟩
      · refine ⟨c, rest ++ [Nat.digitChar (n % b)], by simp [hhead], ?_⟩
        intro h
        have := hzero h
        omega

theorem dropWhile_isSpace_eq_self (s : QString) (h : ∀ c ∈ s, isSpace c = false) :
    s.dropWhile isSpace = s := by
  cases s with
  | nil => rfl
  | cons c cs => simp [List.dropWhile, h c (List.mem_cons_self _ _)]

theorem trimmed_eq_self (s : QString) (h : ∀ c ∈ s, isSpace c = false) : trimmed s = s := by
  unfold trimmed
  rw [dropWhile_isSpace_eq_self s h,
    dropWhile_isSpace_eq_self s.reverse (fun c hc => h c (List.mem_reverse.1 hc)),
    List.reverse_reverse]

/-- The digit string of a number in base 10 or 16, as `Nat.toDigits` writes it. -/
theorem toDigits_spec (b : Nat) (hb2 : 2 ≤ b) (hb16 : b ≤ 16) (n : Nat) :
    parseDigits b ((Nat.toDigits b n).map Char.toNat) 0 = some n ∧
    (∀ c ∈ (Nat.toDigits b n).map Char.toNat, isSpace c = false ∧ c ≠ 43) ∧
    (∃ c rest, (Nat.toDigits b n).map Char.toNat = c :: rest ∧ (c = 48 → n = 0)) := by
  obtain ⟨pre, hpre, hval, hchars, c, rest, hhead, hzero⟩ :=
    toDigitsCore_spec b hb2 hb16 (n + 1) n [] (by omega)
  unfold Nat.toDigits
  rw [hpre, List.append_nil]
  refine ⟨hval, ?_, c.toNat, rest.map Char.toNat, by simp [hhead], hzero⟩
  intro x hx
  obtain ⟨y, hy, rfl⟩ := List.mem_map.1 hx
  exact hchars y hy

theorem QString_number_eq (n : Nat) :
    QString_number n = (Nat.toDigits 10 n).map Char.toNat := rfl

/-- The decimal text of `n` denotes `n`. -/
theorem parseLiteral_number (n : Nat) : parseLiteral (QString_number n) = some n := by
  obtain ⟨hval, hchars, c, rest, hhead, hzero⟩ := toDigits_spec 10 (by omega) (by omega) n
  rw [QString_number_eq]
  unfold parseLiteral
  rw [trimmed_eq_self _ (fun x hx => (hchars x hx).1)]
  have hc : c ≠ 43 := (hchars c (by rw [hhead]; exact List.mem_cons_self _ _)).2
  rw [hhead] at hval ⊢
  by_cases h48 : c = 48
  · have hn := hzero h48
    subst hn
    have hr : (Nat.toDigits 10 0).map Char.toNat = [48] := rfl
    rw [hr] at hhead
    injection hhead with h1 h2
    subst h2
    subst h48
    rfl
  · simp only
    split
    · rename_i heq
      split at heq
      · rename_i h2; injection h2 with h3; exact absurd h3 hc
      · cases heq
    · rename_i heq
      split at heq
      · rename_i h2; injection h2 with h3; exact absurd h3 hc
      · injection heq with h3; exact absurd h3 h48
    · rename_i heq
      split at heq
      · rename_i h2; injection h2 with h3; exact absurd h3 hc
      · injection heq with h3; exact absurd h3 h48
    · rename_i heq
      split at heq
      · rename_i h2; injection h2 with h3; exact absurd h3 hc
      · injection heq with h3; exact absurd h3 h48
    · rename_i heq
      split
      · rename_i h2; injection h2 with h3; exact absurd h3 hc
      · exact hval

/-- The 0x-prefixed hexadecimal text of `n` denotes `n`. -/
theorem parseLiteral_hexLiteral (n : Nat) : parseLiteral (hexLiteral n) = some n := by
  obtain ⟨hval, hchars, c, rest, hhead, -⟩ := toDigits_spec 16 (by omega) (by omega) n
  have he : hexLiteral n = 48 :: 120 :: (c :: rest) := by
    unfold hexLiteral
    rw [hhead]
    rfl
  have hsp : ∀ x ∈ hexLiteral n, isSpace x = false := by
    intro x hx
    rw [he] at hx
    rcases List.mem_cons.1 hx with rfl | hx
    · rfl
    · rcases List.mem_cons.1 hx with rfl | hx
      · rfl
      · exact (hchars x (by rw [hhead]; exact hx)).1
  unfold parseLiteral
  rw [trimmed_eq_self _ hsp, he]
  simp only [reduceCtorEq, if_false]
  rw [← hhead]
  exact hval

theorem toUInt_number (n : Nat) (hn : n < 4294967296) : toUInt (QString_number n) = n := by
  unfold toUInt
  rw [parseLiteral_number]
  simp only
  rw [if_pos (by omega)]

theorem toUInt_hexLiteral (n : Nat) (hn : n < 4294967296) : toUInt (hexLiteral n) = n := by
  unfold toUInt
  rw [parseLiteral_hexLiteral]
  simp only
  rw [if_pos (by omega)]

/-! ### The address of a record -/

theorem getLast?_append_map_getD (f : QString → Nat) (l1 l2 : List QString) (x : Nat) :
    (((l1 ++ l2).getLast?).map f).getD x =
      ((l2.getLast?).map f).getD (((l1.getLast?).map f).getD x) := by
  induction l2 using List.reverseRecOn with
  | nil => simp
  | append_singleton l a _ => simp [← List.append_assoc]

theorem foldl_search_address (is : List SearchItem) (s : gcn_file_def.Search) :
    (is.foldl SearchItem.apply s).address =
      (((addressTextsOf is).getLast?).map toUInt).getD s.address := by
  induction is generalizing s with
  | nil => rfl
  | cons i is ih =>
    rw [List.foldl_cons, ih]
    cases i with
    | address t =>
      have e : addressTextsOf (SearchItem.address t :: is) = [t] ++ addressTextsOf is := rfl
      rw [e, getLast?_append_map_getD]
      rfl
    | gamedesc t => rfl
    | filedesc t => rfl
    | space t => rfl
    | comment t => rfl

theorem foldl_apply_address (items : List FileItem) (st : gcn_file_def × List Msg) :
    (items.foldl (FileItem.apply pcre_compile) st).1.search.address =
      (((addressTexts items).getLast?).map toUInt).getD st.1.search.address := by
  induction items generalizing st with
  | nil => rfl
  | cons i is ih =>
    rw [List.foldl_cons, ih]
    cases i with
    | search s =>
      have e : addressTexts (FileItem.search s :: is) = addressTextsOf s ++ addressTexts is := rfl
      rw [e, getLast?_append_map_getD]
      simp only [FileItem.apply]
      rw [← foldl_search_address]
    | description t => rfl
    | gamecode t => rfl
    | company t => rfl
    | space t => rfl
    | comment t => rfl

/-- The search address of the definition a record denotes. -/
theorem fileDef_address (items : List FileItem) :
    (fileDef pcre_compile items).search.address = addressOf items :=
  foldl_apply_address pcre_compile items _

/-- C11: the address text is read with the C prefixes for base 0. For every
`n < 2^32` both the decimal text of `n` and its 0x-prefixed hexadecimal text are
converted to `n` by `toUInt`; so a record of a database document whose last
`address` element holds either text gets the search address `n` and is found in the
bucket of `n` after the load (`8192` and `0x2000` give the same key). -/
theorem C11_address_honours_literal_prefixes (pcre_compile : QString → Option pcre)
    (fs : FileSystem) (d d0 : GcnMcFileDbPrivate) (filename : QString)
    (db : DbDocument) (items : List FileItem) (text : QString) (n : Nat)
    (hclear : clear d = .ok d0) (hopen : fs filename = some db.tokens)
    (hrecord : items ∈ db.files) (hlast : (addressTexts items).getLast? = some text)
    (hliteral : text = QString_number n ∨ text = hexLiteral n) (hn : n < 2 ^ 32) :
    toUInt (QString_number n) = n ∧ toUInt (hexLiteral n) = n ∧
    ∃ idx log,
      load pcre_compile fs d filename =
        .ok (0, { addr_file_defs := idx, errorString := [] }, log) ∧
      (fileDef pcre_compile items).search.address = n ∧
      fileDef pcre_compile items ∈ idx.lookup n := by
  have hn2 : n < 4294967296 := by simpa using hn
  have haddr : (fileDef pcre_compile items).search.address = n := by
    rw [fileDef_address, addressOf, hlast]
    rcases hliteral with rfl | rfl
    · exact toUInt_number n hn2
    · exact toUInt_hexLiteral n hn2
  refine ⟨toUInt_number n hn2, toUInt_hexLiteral n hn2, _, _,
    load_document pcre_compile fs d d0 filename db hclear hopen, haddr, ?_⟩
  have := fileDef_mem_lookup pcre_compile db items hrecord
  rwa [haddr] at this

/-- C11 at the two records of the example that write the address 8192 as `0x2000`
and as `8192`. -/
theorem C11_address_honours_literal_prefixes_witness :
    clear GcnMcFileDbPrivate.fresh = .ok GcnMcFileDbPrivate.fresh ∧
    exampleFs (QLatin1String "shared.xml") = some exampleDbShared.tokens ∧
    exampleItems "first" "GALE" "0x2000" "^A" "^B" ∈ exampleDbShared.files ∧
    (addressTexts (exampleItems "first" "GALE" "0x2000" "^A" "^B")).getLast? =
      some (QLatin1String "0x2000") ∧
    QLatin1String "0x2000" = hexLiteral 8192 ∧ QLatin1String "8192" = QString_number 8192 ∧
    8192 < 2 ^ 32 ∧
    toUInt (QString_number 8192) = 8192 ∧ toUInt (hexLiteral 8192) = 8192 ∧
    ∃ idx log,
      load exampleCompile exampleFs GcnMcFileDbPrivate.fresh (QLatin1String "shared.xml") =
        .ok (0, { addr_file_defs := idx, errorString := [] }, log) ∧
      (fileDef exampleCompile
        (exampleItems "first" "GALE" "0x2000" "^A" "^B")).search.address = 8192 ∧
      fileDef exampleCompile (exampleItems "first" "GALE" "0x2000" "^A" "^B") ∈
        idx.lookup 8192 :=
  ⟨rfl, rfl, List.Mem.head _, rfl, rfl, rfl, by decide,
    C11_address_honours_literal_prefixes exampleCompile exampleFs
      GcnMcFileDbPrivate.fresh GcnMcFileDbPrivate.fresh (QLatin1String "shared.xml")
      exampleDbShared (exampleItems "first" "GALE" "0x2000" "^A" "^B")
      (QLatin1String "0x2000") 8192 rfl rfl (List.Mem.head _) rfl (Or.inr rfl) (by decide)⟩

/-! ### Texts that are no literal -/

theorem mem_dropWhile_isSpace (s : QString) (c : QChar) (hc : c ∈ s)
    (hsp : isSpace c = false) : c ∈ s.dropWhile isSpace := by
  induction s with
  | nil => exact hc
  | cons x xs ih =>
    by_cases hx : isSpace x = true
    · rw [List.dropWhile_cons_of_pos hx]
      rcases List.mem_cons.1 hc with rfl | h
      · rw [hsp] at hx; cases hx
      · exact ih h
    · rw [List.dropWhile_cons_of_neg hx]
      exact hc

theorem mem_trimmed (s : QString) (c : QChar) (hc : c ∈ s) (hsp : isSpace c = false) :
    c ∈ trimmed s := by
  unfold trimmed
  rw [List.mem_reverse]
  apply mem_dropWhile_isSpace _ _ _ hsp
  rw [List.mem_reverse]
  exact mem_dropWhile_isSpace _ _ hc hsp

theorem parseDigits_eq_none_of_mem (base : Nat) (cs : List QChar) (acc : Nat) (c : QChar)
    (hc : c ∈ cs) (hd : digitValue c = none) : parseDigits base cs acc = none := by
  induction cs generalizing acc with
  | nil => simp at hc
  | cons x xs ih =>
    unfold parseDigits
    rcases List.mem_cons.1 hc with rfl | h
    · rw [hd]
    · cases digitValue x with
      | none => rfl
      | some v =>
        simp only
        split_ifs
        · exact ih _ h
        · rfl

/-- A text that holds a character which is no digit, no letter, no white space and
no plus sign (a minus sign, say) is no literal. -/
theorem parseLiteral_eq_none_of_mem (s : QString) (c : QChar) (hc : c ∈ s)
    (hd : digitValue c = none) (hsp : isSpace c = false) (hplus : c ≠ 43) :
    parseLiteral s = none := by
  have ht := mem_trimmed s c hc hsp
  have h48 : c ≠ 48 := by rintro rfl; simp [digitValue] at hd
  have h120 : c ≠ 120 := by rintro rfl; simp [digitValue] at hd
  have h88 : c ≠ 88 := by rintro rfl; simp [digitValue] at hd
  unfold parseLiteral
  generalize trimmed s = t at ht
  have hu : c ∈ (match t with
      | 43 :: r => r
      | _ => t) := by
    split
    · rcases List.mem_cons.1 ht with h | h
      · exact absurd h hplus
      · exact h
    · exact ht
  simp only
  generalize (match t with
      | 43 :: r => r
      | _ => t) = u at hu
  split
  · simp at hu
  · rename_i r
    have hr : c ∈ r := by
      rcases List.mem_cons.1 hu with h | h
      · exact absurd h h48
      · rcases List.mem_cons.1 h with h | h
        · exact absurd h h120
        · exact h
    split_ifs with hnil
    · rfl
    · exact parseDigits_eq_none_of_mem _ _ _ c hr hd
  · rename_i r
    have hr : c ∈ r := by
      rcases List.mem_cons.1 hu with h | h
      · exact absurd h h48
      · rcases List.mem_cons.1 h with h | h
        · exact absurd h h88
        · exact h
    split_ifs with hnil
    · rfl
    · exact parseDigits_eq_none_of_mem _ _ _ c hr hd
  · rename_i r _ _
    have hr : c ∈ r := by
      rcases List.mem_cons.1 hu with h | h
      · exact absurd h h48
      · exact h
    exact parseDigits_eq_none_of_mem _ _ _ c hr hd
  · exact parseDigits_eq_none_of_mem _ _ _ c hu hd

/-- C20: an address that cannot be parsed degrades to 0. `toUInt` gives 0 for every
text that is no literal (a text with a minus sign or another character that is no
digit, no letter and no white space, `abc`, the empty text) and for every literal
above `2^32 - 1`. White space around a literal, the separators of Unicode such as
U+00A0 included, is skipped and does not make the text unparsable. So a record of a
database document that has no `address` element, or whose last `address` text is no
literal after the white space around it is skipped or is too large, has the search
address 0 and is in the bucket of address 0 after the load, which returns 0. -/
theorem C20_unparsable_address_is_zero (pcre_compile : QString → Option pcre)
    (fs : FileSystem) (d d0 : GcnMcFileDbPrivate) (filename : QString)
    (db : DbDocument) (items : List FileItem)
    (hclear : clear d = .ok d0) (hopen : fs filename = some db.tokens)
    (hrecord : items ∈ db.files)
    (hbad : ∀ text, (addressTexts items).getLast? = some text →
      parseLiteral text = none ∨ ∃ v, parseLiteral text = some v ∧ 4294967295 < v) :
    (∀ text c, c ∈ text → digitValue c = none → isSpace c = false → c ≠ 43 →
      toUInt text = 0) ∧
    (∀ rest, toUInt ('-'.toNat :: rest) = 0) ∧
    (∀ n, 2 ^ 32 ≤ n → toUInt (QString_number n) = 0 ∧ toUInt (hexLiteral n) = 0) ∧
    (toUInt (QLatin1String "abc") = 0 ∧ toUInt [] = 0 ∧ toUInt (QLatin1String "0x") = 0 ∧
      toUInt (QLatin1String "12 34") = 0) ∧
    (toUInt (0xA0 :: QLatin1String "8192") = 8192 ∧
      toUInt (QLatin1String "8192" ++ [0x2003]) = 8192 ∧
      toUInt ([9, 0x3000] ++ QLatin1String "0x2000" ++ [32, 0x2028, 10]) = 8192 ∧
      toUInt (0xA0 :: QLatin1String "-1") = 0) ∧
    ∃ idx log,
      load pcre_compile fs d filename =
        .ok (0, { addr_file_defs := idx, errorString := [] }, log) ∧
      (fileDef pcre_compile items).search.address = 0 ∧
      fileDef pcre_compile items ∈ idx.lookup 0 ∧
      idx.value 0 ≠ none := by
  have hchar : ∀ text c, c ∈ text → digitValue c = none → isSpace c = false → c ≠ 43 →
      toUInt text = 0 := by
    intro text c hc hd hsp hplus
    unfold toUInt
    rw [parseLiteral_eq_none_of_mem text c hc hd hsp hplus]
  have haddr : (fileDef pcre_compile items).search.address = 0 := by
    rw [fileDef_address, addressOf]
    cases hl : (addressTexts items).getLast? with
    | none => rfl
    | some text =>
      simp only [Option.map_some', Option.getD_some]
      unfold toUInt
      rcases hbad text hl with h | ⟨v, h, hv⟩
      · rw [h]
      · rw [h]
        simp only
        rw [if_neg (by omega)]
  have hmem := fileDef_mem_lookup pcre_compile db items hrecord
  rw [haddr] at hmem
  refine ⟨hchar, ?_, ?_, ⟨rfl, rfl, rfl, rfl⟩, ⟨by decide, by decide, by decide, by decide⟩,
    _, _, load_document pcre_compile fs d d0 filename db hclear hopen, haddr, hmem, ?_⟩
  · intro rest
    exact hchar _ 45 (List.mem_cons_self _ _) rfl rfl (by decide)
  · intro n hn
    have hn2 : ¬ n ≤ 4294967295 := by
      have : (2 : Nat) ^ 32 = 4294967296 := by norm_num
      omega
    unfold toUInt
    rw [parseLiteral_number, parseLiteral_hexLiteral]
    simp only [hn2, if_false, and_self]
  · intro hnone
    rw [AddrFileDefs.lookup, hnone] at hmem
    simp at hmem

/-- C20 at the record of the example whose address text is `-1`. -/
theorem C20_unparsable_address_is_zero_witness :
    clear GcnMcFileDbPrivate.fresh = .ok GcnMcFileDbPrivate.fresh ∧
    exampleFs (QLatin1String "bad.xml") = some exampleDbBadAddress.tokens ∧
    exampleItems "negative" "GALE" "-1" "^A" "^B" ∈ exampleDbBadAddress.files ∧
    (addressTexts (exampleItems "negative" "GALE" "-1" "^A" "^B")).getLast? =
      some (QLatin1String "-1") ∧
    parseLiteral (QLatin1String "-1") = none ∧
    (∀ text c, c ∈ text → digitValue c = none → isSpace c = false → c ≠ 43 →
      toUInt text = 0) ∧
    (∀ rest, toUInt ('-'.toNat :: rest) = 0) ∧
    (∀ n, 2 ^ 32 ≤ n → toUInt (QString_number n) = 0 ∧ toUInt (hexLiteral n) = 0) ∧
    (toUInt (QLatin1String "abc") = 0 ∧ toUInt [] = 0 ∧ toUInt (QLatin1String "0x") = 0 ∧
      toUInt (QLatin1String "12 34") = 0) ∧
    (toUInt (0xA0 :: QLatin1String "8192") = 8192 ∧
      toUInt (QLatin1String "8192" ++ [0x2003]) = 8192 ∧
      toUInt ([9, 0x3000] ++ QLatin1String "0x2000" ++ [32, 0x2028, 10]) = 8192 ∧
      toUInt (0xA0 :: QLatin1String "-1") = 0) ∧
    ∃ idx log,
      load exampleCompile exampleFs GcnMcFileDbPrivate.fresh (QLatin1String "bad.xml") =
        .ok (0, { addr_file_defs := idx, errorString := [] }, log) ∧
      (fileDef exampleCompile
        (exampleItems "negative" "GALE" "-1" "^A" "^B")).search.address = 0 ∧
      fileDef exampleCompile (exampleItems "negative" "GALE" "-1" "^A" "^B") ∈
        idx.lookup 0 ∧
      idx.value 0 ≠ none :=
  ⟨rfl, rfl, List.Mem.tail _ (List.Mem.head _), rfl, rfl,
    C20_unparsable_address_is_zero exampleCompile exampleFs
      GcnMcFileDbPrivate.fresh GcnMcFileDbPrivate.fresh (QLatin1String "bad.xml")
      exampleDbBadAddress (exampleItems "negative" "GALE" "-1" "^A" "^B") rfl rfl
      (List.Mem.tail _ (List.Mem.head _))
      (fun text h => Or.inl (by
        have e : (addressTexts (exampleItems "negative" "GALE" "-1" "^A" "^B")).getLast? =
            some (QLatin1String "-1") := rfl
        rw [e] at h
        injection h with h
        subst h
        rfl))⟩

/-! ### The error string -/

/-- What `load` leaves in the error string: nothing after status 0, the message of
the reader with the position after status -2, and the old value after status -1. -/
theorem load_errorString_spec (fs : FileSystem) (d d0 : GcnMcFileDbPrivate)
    (filename : QString) (hc : clear d = .ok d0) :
    ∃ status d1 log, load pcre_compile fs d filename = .ok (status, d1, log) ∧
      (status = 0 ∨ status = -1 ∨ status = -2) ∧
      (status = 0 → d1.errorString = []) ∧
      (status = -2 → d1.errorString ≠ []) ∧
      (status = -1 → d1.errorString = d.errorString) := by
  cases hf : fs filename with
  | none =>
    rw [load_of_not_open pcre_compile fs d d0 filename hc hf]
    exact ⟨_, _, _, rfl, Or.inr (Or.inl rfl), fun h => absurd h (by decide),
      fun h => absurd h (by decide), fun _ => rfl⟩
  | some doc =>
    obtain ⟨x, recs, log, -, hload⟩ :=
      load_of_open_reader pcre_compile fs d d0 filename doc hc hf
    rw [hload]
    by_cases he : x.hasError = true
    · simp only [he, if_true]
      refine ⟨_, _, _, rfl, Or.inr (Or.inr rfl), fun h => absurd h (by decide), ?_,
        fun h => absurd h (by decide)⟩
      intro _
      simp [load_errorString]
    · simp only [he, if_false]
      exact ⟨_, _, _, rfl, Or.inl rfl, fun _ => rfl, fun h => absurd h (by decide),
        fun h => absurd h (by decide)⟩

/-- C13 (the code at the failing input): `load` of a file that cannot be opened
returns -1 and does not touch the error string. On a fresh object `errorString()`
is empty after the failed call; after an earlier load that failed with an XML error
it still holds the message of that earlier call. -/
theorem C13_failed_open_leaves_errorString :
    exampleFs (QLatin1String "missing.xml") = none ∧
    load exampleCompile exampleFs GcnMcFileDbPrivate.fresh (QLatin1String "missing.xml") =
      .ok (-1, { addr_file_defs := [], errorString := [] }, []) ∧
    ∃ d1 log1 d2,
      load exampleCompile exampleFs GcnMcFileDbPrivate.fresh (QLatin1String "broken.xml") =
        .ok (-2, d1, log1) ∧
      d1.errorString =
        QLatin1String "Premature end of document. (line 0, column 0)" ∧
      load exampleCompile exampleFs d1 (QLatin1String "missing.xml") = .ok (-1, d2, []) ∧
      d2.errorString = d1.errorString :=
  ⟨rfl, rfl, _, _, _, rfl, rfl, rfl, rfl⟩

/-! ### What `clear` releases -/

/-- When every key fits in 16 bits and no key occurs twice, the loop of `clear()`
visits the bucket of each key and releases each bucket once, in key order. -/
theorem clear_loop_small_keys (m : AddrFileDefs) (keys freed : List Nat)
    (hsmall : ∀ k ∈ keys, k < 65536) (hmem : ∀ k ∈ keys, k ∈ m.keys)
    (hnodup : keys.Nodup) (hfreed : ∀ k ∈ keys, k ∉ freed) :
    clear_loop m keys freed = .ok (keys.reverse ++ freed) := by
  induction keys generalizing freed with
  | nil => rfl
  | cons k ks ih =>
    have hk : k % 65536 = k := Nat.mod_eq_of_lt (hsmall k (List.mem_cons_self _ _))
    have hv : m.value k ≠ none := by
      rw [Ne, AddrFileDefs.value_eq_none_iff]
      exact fun h => h (hmem k (List.mem_cons_self _ _))
    unfold clear_loop
    simp only [hk]
    cases hv2 : m.value k with
    | none => exact absurd hv2 hv
    | some v =>
      simp only [hfreed k (List.mem_cons_self _ _), if_false]
      rw [ih]
      · simp
      · exact fun a ha => hsmall a (List.mem_cons_of_mem _ ha)
      · exact fun a ha => hmem a (List.mem_cons_of_mem _ ha)
      · exact (List.nodup_cons.1 hnodup).2
      · intro a ha hmf
        rcases List.mem_cons.1 hmf with rfl | h
        · exact (List.nodup_cons.1 hnodup).1 ha
        · exact hfreed a (List.mem_cons_of_mem _ ha) h

/-- C17 (the code at the failing inputs): the loop variable of `clear()` is a
`uint16_t`. With the single key 65536 the first iteration looks up the bucket of
`65536 mod 65536 = 0`, finds none and dereferences the NULL pointer. With the keys 0
and 65536 the second iteration visits the bucket of key 0 again, which the first
iteration has deleted, and the bucket of key 65536 is never released. In both cases
`clear()` does not reach the statement that empties the index. -/
theorem C17_clear_truncates_keys :
    (65536 : Nat) < 2 ^ 32 ∧ 65536 % 65536 = 0 ∧
    clear_loop [(65536, [{}])] [65536] [] = .error .nullDeref ∧
    clear { addr_file_defs := [(65536, [{}])], errorString := [] } = .error .nullDeref ∧
    clear_loop [(0, [{}]), (65536, [{}])] [0, 65536] [] = .error .useAfterFree ∧
    clear { addr_file_defs := [(0, [{}]), (65536, [{}])], errorString := [] } =
      .error .useAfterFree ∧
    clear_loop [(0, [{}]), (65535, [{}])] [0, 65535] [] = .ok [65535, 0] :=
  ⟨by decide, rfl, rfl, rfl, rfl, rfl, rfl⟩

/-! ### Unknown elements -/

theorem parseXml_file_search_loop_step (n : Nat) (xml : QXmlStreamReader) (f : gcn_file_def)
    (hne : xml.cur.type ≠ .Invalid)
    (hend : ¬ (xml.cur.type = .EndElement ∧ xml.cur.name = QLatin1String "search")) :
    parseXml_file_search_loop (n + 1) xml f =
      parseXml_file_search_loop n (parseXml_file_search_body xml f).1.readNext
        (parseXml_file_search_body xml f).2 := by
  rw [parseXml_file_search_loop]
  simp [hasError, tokenType, name, hne, hend]

theorem searchLoopSkips_iff (t : Token) :
    searchLoopSkips t = true ↔
      t.type ≠ .Invalid ∧
      ¬ (t.type = .EndElement ∧ t.name = QLatin1String "search") ∧
      ¬ (t.type = .StartElement ∧
        (t.name = QLatin1String "address" ∨ t.name = QLatin1String "gamedesc" ∨
          t.name = QLatin1String "filedesc")) := by
  simp only [searchLoopSkips, Bool.and_eq_true, Bool.not_eq_true', Bool.or_eq_true,
    decide_eq_true_eq, decide_eq_false_iff_not, bne_iff_ne, ne_eq, Bool.not_eq_true,
    Bool.and_eq_false_iff, Bool.or_eq_false_iff, Bool.decide_eq_false, beq_iff_eq]
  tauto

theorem parseXml_file_search_body_skip (t : Token) (ts : List Token) (f : gcn_file_def)
    (h : searchLoopSkips t = true) :
    parseXml_file_search_body ⟨t, ts⟩ f = (⟨t, ts⟩, f) := by
  have hs := (searchLoopSkips_iff t).1 h
  unfold parseXml_file_search_body
  simp only [tokenType, name]
  by_cases hst : t.type = .StartElement
  · have h3 := hs.2.2
    simp only [hst, true_and, not_or] at h3
    simp [hst, h3.1, h3.2.1, h3.2.2]
  · simp [hst]

/-- The loop of `parseXml_file_search` passes over tokens it does not react to. -/
theorem parseXml_file_search_loop_skip (ts tail : List Token) (f : gcn_file_def)
    (R : Except Fault (QXmlStreamReader × gcn_file_def)) (N : Nat)
    (hskip : ∀ t ∈ ts, searchLoopSkips t = true)
    (hcont : ∀ c fuel, c.type ≠ .Invalid → N ≤ fuel →
      parseXml_file_search_loop fuel (readNext ⟨c, tail⟩) f = R) :
    ∀ c fuel, c.type ≠ .Invalid → N + ts.length ≤ fuel →
      parseXml_file_search_loop fuel (readNext ⟨c, ts ++ tail⟩) f = R := by
  induction ts with
  | nil =>
    intro c fuel hc hfuel
    exact hcont c fuel hc (by simpa using hfuel)
  | cons t ts ih =>
    intro c fuel hc hfuel
    obtain ⟨n, rfl⟩ : ∃ n, fuel = n + 1 := ⟨fuel - 1, by simp at hfuel; omega⟩
    have ht := hskip t (List.mem_cons_self _ _)
    have hs := (searchLoopSkips_iff t).1 ht
    rw [List.cons_append, readNext_cons _ _ _ hc,
      parseXml_file_search_loop_step n _ f hs.1 hs.2.1,
      parseXml_file_search_body_skip t _ f ht]
    exact ih (fun u hu => hskip u (List.mem_cons_of_mem _ hu)) t n hs.1
      (by simp only [List.length_cons] at hfuel; omega)

theorem parseXml_file_search_loop_text (nm text : QString) (tail : List Token)
    (f f1 : gcn_file_def) (R : Except Fault (QXmlStreamReader × gcn_file_def)) (N : Nat)
    (hbody : ∀ rest, parseXml_file_search_body
        ⟨startElement nm, (if text = [] then [] else [characters text]) ++
          endElement nm :: rest⟩ f = (⟨endElement nm, rest⟩, f1))
    (hcont : ∀ c fuel, c.type ≠ .Invalid → N ≤ fuel →
      parseXml_file_search_loop fuel (readNext ⟨c, tail⟩) f1 = R) :
    ∀ c fuel, c.type ≠ .Invalid → N + (textElement nm text).length ≤ fuel →
      parseXml_file_search_loop fuel (readNext ⟨c, textElement nm text ++ tail⟩) f = R := by
  intro c fuel hc hfuel
  obtain ⟨n, rfl⟩ : ∃ n, fuel = n + 1 := ⟨fuel - 1, by
    simp only [textElement, List.length_cons] at hfuel; omega⟩
  have e : textElement nm text ++ tail =
      startElement nm :: ((if text = [] then [] else [characters text]) ++
        endElement nm :: tail) := by
    simp [textElement]
  rw [e, readNext_cons _ _ _ hc,
    parseXml_file_search_loop_step n _ f (by simp [startElement]) (by simp [startElement]),
    hbody]
  exact hcont _ n (by simp [endElement]) (by
    simp only [textElement, List.length_cons, List.length_append] at hfuel; omega)

theorem parseXml_file_search_loop_item (i : SearchItem) (tail : List Token)
    (f : gcn_file_def) (R : Except Fault (QXmlStreamReader × gcn_file_def)) (N : Nat)
    (hcont : ∀ c fuel, c.type ≠ .Invalid → N ≤ fuel →
      parseXml_file_search_loop fuel (readNext ⟨c, tail⟩)
        { f with search := SearchItem.apply f.search i } = R) :
    ∀ c fuel, c.type ≠ .Invalid → N + i.tokens.length ≤ fuel →
      parseXml_file_search_loop fuel (readNext ⟨c, i.tokens ++ tail⟩) f = R := by
  cases i with
  | address t =>
    exact parseXml_file_search_loop_text _ t tail f _ R N (by
      intro rest
      unfold parseXml_file_search_body
      rw [parseXml_element_textElement]
      simp [tokenType, name, startElement, SearchItem.apply]) hcont
  | gamedesc t =>
    exact parseXml_file_search_loop_text _ t tail f _ R N (by
      intro rest
      unfold parseXml_file_search_body
      rw [parseXml_element_textElement]
      simp [tokenType, name, startElement, SearchItem.apply, name_gamedesc_ne_address]) hcont
  | filedesc t =>
    exact parseXml_file_search_loop_text _ t tail f _ R N (by
      intro rest
      unfold parseXml_file_search_body
      rw [parseXml_element_textElement]
      simp [tokenType, name, startElement, SearchItem.apply, name_filedesc_ne_address,
        name_filedesc_ne_gamedesc]) hcont
  | space t =>
    exact parseXml_file_search_loop_skip [characters t] tail f R N
      (by intro u hu; simp only [List.mem_singleton] at hu; subst hu; rfl) hcont
  | comment t =>
    exact parseXml_file_search_loop_skip [commentToken t] tail f R N
      (by intro u hu; simp only [List.mem_singleton] at hu; subst hu; rfl) hcont

/-- Reading the children of a `search` element, unknown elements among them, gives
what reading the known children alone gives. -/
theorem parseXml_file_search_loop_children (cs : List SearchChild) (rest : List Token)
    (hskip : ∀ c ∈ cs, c.Skipped) (f : gcn_file_def) :
    ∀ c fuel, c.type ≠ .Invalid → (searchChildTokens cs).length + 1 ≤ fuel →
      parseXml_file_search_loop fuel
          (readNext ⟨c, searchChildTokens cs ++ endElement (QLatin1String "search") :: rest⟩)
          f =
        .ok (⟨endElement (QLatin1String "search"), rest⟩,
          { f with search := (eraseSearch cs).foldl SearchItem.apply f.search }) := by
  induction cs generalizing f with
  | nil =>
    intro c fuel hc hfuel
    obtain ⟨n, rfl⟩ : ∃ n, fuel = n + 1 := ⟨fuel - 1, by omega⟩
    simp [searchChildTokens, eraseSearch, readNext_cons _ _ _ hc, parseXml_file_search_loop,
      hasError, tokenType, name, endElement]
  | cons ch cs ih =>
    have ih2 := fun g => ih (fun c hc => hskip c (List.mem_cons_of_mem _ hc)) g
    intro c fuel hc hfuel
    simp only [searchChildTokens, List.append_assoc, List.length_append] at hfuel ⊢
    cases ch with
    | known i =>
      have := parseXml_file_search_loop_item i _ f _ ((searchChildTokens cs).length + 1)
        (ih2 _) c fuel hc (by simp only [SearchChild.tokens] at hfuel; omega)
      simpa [SearchChild.tokens, eraseSearch] using this
    | unknown nm content =>
      have hsk := hskip _ (List.mem_cons_self _ _)
      have := parseXml_file_search_loop_skip (elementTokens nm content) _ f _
        ((searchChildTokens cs).length + 1) hsk (ih2 f) c fuel hc
        (by simp only [SearchChild.tokens] at hfuel; omega)
      simpa [SearchChild.tokens, eraseSearch] using this

theorem parseXml_file_search_children (cs : List SearchChild) (rest : List Token)
    (hskip : ∀ c ∈ cs, c.Skipped) (f : gcn_file_def) :
    parseXml_file_search pcre_compile
        ⟨startElement (QLatin1String "search"),
          searchChildTokens cs ++ endElement (QLatin1String "search") :: rest⟩ f =
      .ok (⟨endElement (QLatin1String "search"), rest⟩,
        (FileItem.apply pcre_compile (f, []) (FileItem.search (eraseSearch cs))).1,
        (FileItem.apply pcre_compile (f, []) (FileItem.search (eraseSearch cs))).2) := by
  unfold parseXml_file_search
  have hg : ¬ ((⟨startElement (QLatin1String "search"),
      searchChildTokens cs ++ endElement (QLatin1String "search") :: rest⟩ :
        QXmlStreamReader).tokenType ≠ .StartElement ∨
      (⟨startElement (QLatin1String "search"),
        searchChildTokens cs ++ endElement (QLatin1String "search") :: rest⟩ :
          QXmlStreamReader).name ≠ QLatin1String "search") := by
    simp [tokenType, name, startElement]
  rw [if_neg hg]
  rw [parseXml_file_search_loop_children cs rest hskip f _ _ (by simp [startElement])
    (by simp only [List.length_append, List.length_cons]; omega)]
  simp [compile_regexp_eq, FileItem.apply]

theorem parseXml_file_loop_step_general (n : Nat) (xml x1 : QXmlStreamReader)
    (f f1 : gcn_file_def) (log w : List Msg) (hne : xml.cur.type ≠ .Invalid)
    (hend : ¬ (xml.cur.type = .EndElement ∧ xml.cur.name = QLatin1String "file"))
    (hb : parseXml_file_body pcre_compile xml f = .ok (x1, f1, w)) :
    parseXml_file_loop pcre_compile (n + 1) xml f log =
      parseXml_file_loop pcre_compile n x1.readNext f1 (log ++ w) := by
  rw [parseXml_file_loop, hb]
  simp [hasError, tokenType, name, hne, hend]

theorem fileLoopSkips_iff (t : Token) :
    fileLoopSkips t = true ↔
      t.type ≠ .Invalid ∧
      ¬ (t.type = .EndElement ∧ t.name = QLatin1String "file") ∧
      ¬ (t.type = .StartElement ∧
        (t.name = QLatin1String "description" ∨ t.name = QLatin1String "gamecode" ∨
          t.name = QLatin1String "company" ∨ t.name = QLatin1String "search")) := by
  simp only [fileLoopSkips, Bool.and_eq_true, Bool.not_eq_true', Bool.or_eq_true,
    decide_eq_true_eq, decide_eq_false_iff_not, bne_iff_ne, ne_eq, Bool.not_eq_true,
    Bool.and_eq_false_iff, Bool.or_eq_false_iff, Bool.decide_eq_false, beq_iff_eq]
  tauto

theorem parseXml_file_body_skip (t : Token) (ts : List Token) (f : gcn_file_def)
    (h : fileLoopSkips t = true) :
    parseXml_file_body pcre_compile ⟨t, ts⟩ f = .ok (⟨t, ts⟩, f, []) := by
  have hs := (fileLoopSkips_iff t).1 h
  unfold parseXml_file_body
  simp only [tokenType, name]
  by_cases hst : t.type = .StartElement
  · have h3 := hs.2.2
    simp only [hst, true_and, not_or] at h3
    simp [hst, h3.1, h3.2.1, h3.2.2.1, h3.2.2.2]
  · simp [hst]

/-- The loop of `parseXml_file` passes over tokens it does not react to. -/
theorem parseXml_file_loop_skip (ts tail : List Token) (f : gcn_file_def) (log : List Msg)
    (R : Except Fault (QXmlStreamReader × gcn_file_def × List Msg)) (N : Nat)
    (hskip : ∀ t ∈ ts, fileLoopSkips t = true)
    (hcont : ∀ c fuel, c.type ≠ .Invalid → N ≤ fuel →
      parseXml_file_loop pcre_compile fuel (readNext ⟨c, tail⟩) f log = R) :
    ∀ c fuel, c.type ≠ .Invalid → N + ts.length ≤ fuel →
      parseXml_file_loop pcre_compile fuel (readNext ⟨c, ts ++ tail⟩) f log = R := by
  induction ts with
  | nil =>
    intro c fuel hc hfuel
    exact hcont c fuel hc (by simpa using hfuel)
  | cons t ts ih =>
    intro c fuel hc hfuel
    obtain ⟨n, rfl⟩ : ∃ n, fuel = n + 1 := ⟨fuel - 1, by simp at hfuel; omega⟩
    have ht := hskip t (List.mem_cons_self _ _)
    have hs := (fileLoopSkips_iff t).1 ht
    rw [List.cons_append, readNext_cons _ _ _ hc,
      parseXml_file_loop_step_general pcre_compile n _ _ f f log [] hs.1 hs.2.1
        (parseXml_file_body_skip pcre_compile t _ f ht), List.append_nil]
    exact ih (fun u hu => hskip u (List.mem_cons_of_mem _ hu)) t n hs.1
      (by simp only [List.length_cons] at hfuel; omega)

/-- One element read by the body of the loop of `parseXml_file`, in continuation
form. -/
theorem parseXml_file_loop_one (t e : Token) (inner tail : List Token)
    (f f1 : gcn_file_def) (log w : List Msg)
    (R : Except Fault (QXmlStreamReader × gcn_file_def × List Msg)) (N : Nat)
    (ht1 : t.type ≠ .Invalid) (ht2 : t.type ≠ .EndElement) (he : e.type ≠ .Invalid)
    (hb : parseXml_file_body pcre_compile ⟨t, inner ++ e :: tail⟩ f = .ok (⟨e, tail⟩, f1, w))
    (hcont : ∀ c fuel, c.type ≠ .Invalid → N ≤ fuel →
      parseXml_file_loop pcre_compile fuel (readNext ⟨c, tail⟩) f1 (log ++ w) = R) :
    ∀ c fuel, c.type ≠ .Invalid → N + (inner.length + 2) ≤ fuel →
      parseXml_file_loop pcre_compile fuel (readNext ⟨c, t :: (inner ++ e :: tail)⟩) f log =
        R := by
  intro c fuel hc hfuel
  obtain ⟨n, rfl⟩ : ∃ n, fuel = n + 1 := ⟨fuel - 1, by omega⟩
  rw [readNext_cons _ _ _ hc,
    parseXml_file_loop_step_general pcre_compile n _ _ f f1 log w ht1
      (fun h => ht2 h.1) hb]
  exact hcont e n he (by omega)

theorem parseXml_file_loop_item (i : FileItem) (tail : List Token)
    (f : gcn_file_def) (log : List Msg)
    (R : Except Fault (QXmlStreamReader × gcn_file_def × List Msg)) (N : Nat)
    (hcont : ∀ c fuel, c.type ≠ .Invalid → N ≤ fuel →
      parseXml_file_loop pcre_compile fuel (readNext ⟨c, tail⟩)
        (FileItem.apply pcre_compile (f, log) i).1
        (FileItem.apply pcre_compile (f, log) i).2 = R) :
    ∀ c fuel, c.type ≠ .Invalid → N + i.tokens.length ≤ fuel →
      parseXml_file_loop pcre_compile fuel (readNext ⟨c, i.tokens ++ tail⟩) f log = R := by
  intro c fuel hc hfuel
  cases i with
  | description t =>
    have := parseXml_file_loop_one pcre_compile (startElement (QLatin1String "description"))
      (endElement (QLatin1String "description")) (if t = [] then [] else [characters t]) tail
      f { f with description := t } log [] R N (by simp [startElement])
      (by simp [startElement]) (by simp [endElement])
      (by
        unfold parseXml_file_body
        rw [parseXml_element_textElement]
        simp [tokenType, name, startElement])
      (by simpa [FileItem.apply] using hcont) c fuel hc
      (by
        simp only [FileItem.tokens, textElement, List.length_cons, List.length_append]
          at hfuel
        omega)
    simpa [FileItem.tokens, textElement] using this
  | gamecode t =>
    have := parseXml_file_loop_one pcre_compile (startElement (QLatin1String "gamecode"))
      (endElement (QLatin1String "gamecode")) (if t = [] then [] else [characters t]) tail
      f { f with gamecode := t } log [] R N (by simp [startElement])
      (by simp [startElement]) (by simp [endElement])
      (by
        unfold parseXml_file_body
        rw [parseXml_element_textElement]
        simp [tokenType, name, startElement, name_gamecode_ne_description])
      (by simpa [FileItem.apply] using hcont) c fuel hc
      (by
        simp only [FileItem.tokens, textElement, List.length_cons, List.length_append]
          at hfuel
        omega)
    simpa [FileItem.tokens, textElement] using this
  | company t =>
    have := parseXml_file_loop_one pcre_compile (startElement (QLatin1String "company"))
      (endElement (QLatin1String "company")) (if t = [] then [] else [characters t]) tail
      f { f with company := t } log [] R N (by simp [startElement])
      (by simp [startElement]) (by simp [endElement])
      (by
        unfold parseXml_file_body
        rw [parseXml_element_textElement]
        simp [tokenType, name, startElement, name_company_ne_description,
          name_company_ne_gamecode])
      (by simpa [FileItem.apply] using hcont) c fuel hc
      (by
        simp only [FileItem.tokens, textElement, List.length_cons, List.length_append]
          at hfuel
        omega)
    simpa [FileItem.tokens, textElement] using this
  | search items =>
    have := parseXml_file_loop_one pcre_compile (startElement (QLatin1String "search"))
      (endElement (QLatin1String "search")) (searchTokens items) tail
      f (FileItem.apply pcre_compile (f, []) (FileItem.search items)).1 log
      (FileItem.apply pcre_compile (f, []) (FileItem.search items)).2 R N
      (by simp [startElement]) (by simp [startElement]) (by simp [endElement])
      (by
        unfold parseXml_file_body
        rw [parseXml_file_search_items]
        simp [tokenType, name, startElement, name_search_ne_description,
          name_search_ne_gamecode, name_search_ne_company, FileItem.apply])
      (by simpa [FileItem.apply] using hcont) c fuel hc
      (by
        simp only [FileItem.tokens, List.length_cons, List.length_append] at hfuel
        omega)
    simpa [FileItem.tokens] using this
  | space t =>
    exact parseXml_file_loop_skip pcre_compile [characters t] tail f log R N
      (by intro u hu; simp only [List.mem_singleton] at hu; subst hu; rfl) hcont c fuel hc
      hfuel
  | comment t =>
    exact parseXml_file_loop_skip pcre_compile [commentToken t] tail f log R N
      (by intro u hu; simp only [List.mem_singleton] at hu; subst hu; rfl) hcont c fuel hc
      hfuel

/-- Reading the children of a `file` element, unknown elements among them, gives
what reading the known children alone gives. -/
theorem parseXml_file_loop_children (cs : List FileChild) (rest : List Token)
    (hskip : ∀ c ∈ cs, c.Skipped) (f : gcn_file_def) (log : List Msg) :
    ∀ c fuel, c.type ≠ .Invalid → (fileChildTokens cs).length + 1 ≤ fuel →
      parseXml_file_loop pcre_compile fuel
          (readNext ⟨c, fileChildTokens cs ++ endElement (QLatin1String "file") :: rest⟩)
          f log =
        .ok (⟨endElement (QLatin1String "file"), rest⟩,
          ((eraseFile cs).foldl (FileItem.apply pcre_compile) (f, log)).1,
          ((eraseFile cs).foldl (FileItem.apply pcre_compile) (f, log)).2) := by
  induction cs generalizing f log with
  | nil =>
    intro c fuel hc hfuel
    obtain ⟨n, rfl⟩ : ∃ n, fuel = n + 1 := ⟨fuel - 1, by omega⟩
    simp [fileChildTokens, eraseFile, readNext_cons _ _ _ hc, parseXml_file_loop,
      hasError, tokenType, name, endElement]
  | cons ch cs ih =>
    have ih2 := fun g l => ih (fun c hc => hskip c (List.mem_cons_of_mem _ hc)) g l
    intro c fuel hc hfuel
    simp only [fileChildTokens, List.append_assoc, List.length_append] at hfuel ⊢
    cases ch with
    | known i =>
      have := parseXml_file_loop_item pcre_compile i _ f log _
        ((fileChildTokens cs).length + 1) (ih2 _ _) c fuel hc
        (by simp only [FileChild.tokens] at hfuel; omega)
      simpa [FileChild.tokens, eraseFile] using this
    | search children =>
      have hsk : ∀ c ∈ children, c.Skipped := hskip _ (List.mem_cons_self _ _)
      have := parseXml_file_loop_one pcre_compile (startElement (QLatin1String "search"))
        (endElement (QLatin1String "search")) (searchChildTokens children)
        (fileChildTokens cs ++ endElement (QLatin1String "file") :: rest)
        f (FileItem.apply pcre_compile (f, []) (FileItem.search (eraseSearch children))).1 log
        (FileItem.apply pcre_compile (f, []) (FileItem.search (eraseSearch children))).2 _
        ((fileChildTokens cs).length + 1)
        (by simp [startElement]) (by simp [startElement]) (by simp [endElement])
        (by
          unfold parseXml_file_body
          rw [parseXml_file_search_children pcre_compile children _ hsk]
          simp [tokenType, name, startElement, name_search_ne_description,
            name_search_ne_gamecode, name_search_ne_company])
        (ih2 _ _) c fuel hc
        (by
          simp only [FileChild.tokens, List.length_cons, List.length_append] at hfuel
          omega)
      simpa [FileChild.tokens, eraseFile, FileItem.apply] using this
    | unknown nm content =>
      have hsk : ∀ t ∈ elementTokens nm content, fileLoopSkips t = true :=
        hskip _ (List.mem_cons_self _ _)
      have := parseXml_file_loop_skip pcre_compile (elementTokens nm content) _ f log _
        ((fileChildTokens cs).length + 1) hsk (ih2 f log) c fuel hc
        (by simp only [FileChild.tokens] at hfuel; omega)
      simpa [FileChild.tokens, eraseFile] using this

theorem parseXml_file_children (cs : List FileChild) (rest : List Token)
    (hskip : ∀ c ∈ cs, c.Skipped) :
    parseXml_file pcre_compile
        ⟨startElement (QLatin1String "file"),
          fileChildTokens cs ++ endElement (QLatin1String "file") :: rest⟩ =
      .ok (⟨endElement (QLatin1String "file"), rest⟩,
        some (fileDef pcre_compile (eraseFile cs)), fileLog pcre_compile (eraseFile cs)) := by
  unfold parseXml_file
  have hg : ¬ ((⟨startElement (QLatin1String "file"),
      fileChildTokens cs ++ endElement (QLatin1String "file") :: rest⟩ :
        QXmlStreamReader).tokenType ≠ .StartElement ∨
      (⟨startElement (QLatin1String "file"),
        fileChildTokens cs ++ endElement (QLatin1String "file") :: rest⟩ :
          QXmlStreamReader).name ≠ QLatin1String "file") := by
    simp [tokenType, name, startElement]
  rw [if_neg hg]
  rw [parseXml_file_loop_children pcre_compile cs rest hskip _ _ _ _ (by simp [startElement])
    (by simp only [List.length_append, List.length_cons]; omega)]
  simp only
  rw [parseXml_file_regions_eq _ (foldl_apply_regions pcre_compile (eraseFile cs) _)]
  rfl

theorem parseXml_GcnMcFileDb_loop_children (cs : List DbChild) (rest : List Token)
    (hskip : ∀ c ∈ cs, c.Skipped)
    (c : Token) (hc : c.type ≠ .Invalid) (m : AddrFileDefs) (log : List Msg) (fuel : Nat)
    (hfuel : (dbChildTokens cs).length + 1 ≤ fuel) :
    parseXml_GcnMcFileDb_loop pcre_compile fuel
        (readNext ⟨c, dbChildTokens cs ++ endElement (QLatin1String "GcnMcFileDb") :: rest⟩)
        m log =
      .ok (⟨endElement (QLatin1String "GcnMcFileDb"), rest⟩,
        ((dbFiles (eraseDb cs)).map (fileDef pcre_compile)).foldl addFile m,
        log ++ ((dbFiles (eraseDb cs)).map (fileLog pcre_compile)).flatten) := by
  induction cs generalizing c m log fuel with
  | nil =>
    obtain ⟨n, rfl⟩ : ∃ n, fuel = n + 1 := ⟨fuel - 1, by omega⟩
    simp [dbChildTokens, eraseDb, dbFiles, readNext_cons _ _ _ hc, parseXml_GcnMcFileDb_loop,
      hasError, tokenType, name, endElement]
  | cons i is ih =>
    have ih2 := ih (fun c hc => hskip c (List.mem_cons_of_mem _ hc))
    obtain ⟨n, rfl⟩ : ∃ n, fuel = n + 1 := ⟨fuel - 1, by omega⟩
    have hn : (dbChildTokens is).length + 1 ≤ n := by
      cases i <;>
        simp only [dbChildTokens, DbChild.tokens, List.length_append,
          List.length_cons] at hfuel <;> omega
    cases i with
    | file children =>
      have hsk : ∀ c ∈ children, c.Skipped := hskip _ (List.mem_cons_self _ _)
      have e : dbChildTokens (DbChild.file children :: is) ++
          endElement (QLatin1String "GcnMcFileDb") :: rest =
          startElement (QLatin1String "file") ::
            (fileChildTokens children ++ endElement (QLatin1String "file") ::
                (dbChildTokens is ++ endElement (QLatin1String "GcnMcFileDb") :: rest)) := by
        simp [dbChildTokens, DbChild.tokens]
      rw [e, readNext_cons _ _ _ hc]
      have hb : parseXml_GcnMcFileDb_body pcre_compile
          ⟨startElement (QLatin1String "file"),
            fileChildTokens children ++ endElement (QLatin1String "file") ::
              (dbChildTokens is ++ endElement (QLatin1String "GcnMcFileDb") :: rest)⟩ m =
          .ok (⟨endElement (QLatin1String "file"),
              dbChildTokens is ++ endElement (QLatin1String "GcnMcFileDb") :: rest⟩,
            addFile m (fileDef pcre_compile (eraseFile children)),
            fileLog pcre_compile (eraseFile children)) := by
        unfold parseXml_GcnMcFileDb_body
        rw [parseXml_file_children pcre_compile children _ hsk]
        simp [tokenType, name, startElement]
      rw [parseXml_GcnMcFileDb_loop_step pcre_compile n _ _ m _ log _
        (by simp [startElement]) (by simp [startElement]) hb]
      rw [ih2 _ (by simp [endElement]) _ _ _ hn]
      simp [dbFiles, eraseDb]
    | space t =>
      have e : dbChildTokens (DbChild.space t :: is) ++
          endElement (QLatin1String "GcnMcFileDb") :: rest =
          characters t ::
            (dbChildTokens is ++ endElement (QLatin1String "GcnMcFileDb") :: rest) := by
        simp [dbChildTokens, DbChild.tokens]
      rw [e, readNext_cons _ _ _ hc]
      rw [parseXml_GcnMcFileDb_loop_step pcre_compile n
        ⟨characters t, dbChildTokens is ++ endElement (QLatin1String "GcnMcFileDb") :: rest⟩
        ⟨characters t, dbChildTokens is ++ endElement (QLatin1String "GcnMcFileDb") :: rest⟩
        m m log [] (by simp [characters]) (by simp [characters])
        (by unfold parseXml_GcnMcFileDb_body; simp [tokenType, characters])]
      rw [ih2 _ (by simp [characters]) _ _ _ hn]
      simp [dbFiles, eraseDb]
    | comment t =>
      have e : dbChildTokens (DbChild.comment t :: is) ++
          endElement (QLatin1String "GcnMcFileDb") :: rest =
          commentToken t ::
            (dbChildTokens is ++ endElement (QLatin1String "GcnMcFileDb") :: rest) := by
        simp [dbChildTokens, DbChild.tokens]
      rw [e, readNext_cons _ _ _ hc]
      rw [parseXml_GcnMcFileDb_loop_step pcre_compile n
        ⟨commentToken t, dbChildTokens is ++ endElement (QLatin1String "GcnMcFileDb") :: rest⟩
        ⟨commentToken t, dbChildTokens is ++ endElement (QLatin1String "GcnMcFileDb") :: rest⟩
        m m log [] (by simp [commentToken]) (by simp [commentToken])
        (by unfold parseXml_GcnMcFileDb_body; simp [tokenType, commentToken])]
      rw [ih2 _ (by simp [commentToken]) _ _ _ hn]
      simp [dbFiles, eraseDb]

theorem parseXml_GcnMcFileDb_children (cs : List DbChild) (rest : List Token)
    (hskip : ∀ c ∈ cs, c.Skipped) (m : AddrFileDefs) :
    parseXml_GcnMcFileDb pcre_compile
        ⟨startElement (QLatin1String "GcnMcFileDb"),
          dbChildTokens cs ++ endElement (QLatin1String "GcnMcFileDb") :: rest⟩ m =
      .ok (⟨endElement (QLatin1String "GcnMcFileDb"), rest⟩,
        ((dbFiles (eraseDb cs)).map (fileDef pcre_compile)).foldl addFile m,
        ((dbFiles (eraseDb cs)).map (fileLog pcre_compile)).flatten) := by
  unfold parseXml_GcnMcFileDb
  have hg : ¬ ((⟨startElement (QLatin1String "GcnMcFileDb"),
      dbChildTokens cs ++ endElement (QLatin1String "GcnMcFileDb") :: rest⟩ :
        QXmlStreamReader).tokenType ≠ .StartElement ∨
      (⟨startElement (QLatin1String "GcnMcFileDb"),
        dbChildTokens cs ++ endElement (QLatin1String "GcnMcFileDb") :: rest⟩ :
          QXmlStreamReader).name ≠ QLatin1String "GcnMcFileDb") := by
    simp [tokenType, name, startElement]
  rw [if_neg hg]
  rw [parseXml_GcnMcFileDb_loop_children pcre_compile cs rest hskip _ (by simp [startElement])
    _ _ _ (by simp only [List.length_append, List.length_cons]; omega)]
  simp

theorem load_loop_children (cs : List DbChild) (hskip : ∀ c ∈ cs, c.Skipped)
    (m : AddrFileDefs) (fuel : Nat) (hfuel : 4 ≤ fuel) :
    load_loop pcre_compile fuel (onDevice (documentTokens cs)) m [] =
      .ok (⟨{ type := .EndDocument }, []⟩,
        ((DbDocument.mk (eraseDb cs)).defs pcre_compile).foldl addFile m,
        (DbDocument.mk (eraseDb cs)).log pcre_compile) := by
  obtain ⟨n, rfl⟩ : ∃ n, fuel = n + 4 := ⟨fuel - 4, by omega⟩
  have h1 : load_body pcre_compile (onDevice (documentTokens cs)) m =
      .ok (⟨{ type := .StartDocument }, startElement (QLatin1String "GcnMcFileDb") ::
        (dbChildTokens cs ++
          [endElement (QLatin1String "GcnMcFileDb"), { type := .EndDocument }])⟩, m, []) := by
    simp [load_body, onDevice, documentTokens, readNext, tokenType]
  have h2 : load_body pcre_compile
      ⟨{ type := .StartDocument }, startElement (QLatin1String "GcnMcFileDb") ::
        (dbChildTokens cs ++
          [endElement (QLatin1String "GcnMcFileDb"), { type := .EndDocument }])⟩ m =
      .ok (⟨endElement (QLatin1String "GcnMcFileDb"), [{ type := .EndDocument }]⟩,
        ((DbDocument.mk (eraseDb cs)).defs pcre_compile).foldl addFile m,
        (DbDocument.mk (eraseDb cs)).log pcre_compile) := by
    unfold load_body
    rw [readNext_cons _ _ _ (by simp)]
    rw [parseXml_GcnMcFileDb_children pcre_compile cs _ hskip]
    simp [tokenType, name, startElement, DbDocument.defs, DbDocument.log, DbDocument.files]
  have h3 : ∀ m1 : AddrFileDefs, load_body pcre_compile
      ⟨endElement (QLatin1String "GcnMcFileDb"), [{ type := .EndDocument }]⟩ m1 =
      .ok (⟨{ type := .EndDocument }, []⟩, m1, []) := by
    intro m1
    simp [load_body, readNext, tokenType, endElement]
  rw [load_loop, h1]
  simp only [onDevice, atEnd, hasError]
  simp only [reduceCtorEq, or_self, decide_False, Bool.false_eq_true, not_false_eq_true,
    and_self, if_true]
  rw [load_loop, h2]
  simp only [atEnd, hasError]
  simp only [reduceCtorEq, or_self, decide_False, Bool.false_eq_true, not_false_eq_true,
    and_self, if_true]
  rw [load_loop, h3]
  simp only [atEnd, hasError, endElement]
  simp only [reduceCtorEq, or_self, decide_False, Bool.false_eq_true, not_false_eq_true,
    and_self, if_true]
  rw [load_loop]
  simp [atEnd]

/-- Loading a document whose unknown elements hold no token the loops react to gives
what loading the document without them gives. -/
theorem load_children (fs : FileSystem) (d d0 : GcnMcFileDbPrivate) (filename : QString)
    (cs : List DbChild) (hskip : ∀ c ∈ cs, c.Skipped) (hc : clear d = .ok d0)
    (hf : fs filename = some (documentTokens cs)) :
    load pcre_compile fs d filename =
      .ok (0, { addr_file_defs :=
                  ((DbDocument.mk (eraseDb cs)).defs pcre_compile).foldl addFile [],
                errorString := [] }, (DbDocument.mk (eraseDb cs)).log pcre_compile) := by
  have hd0 := clear_eq d d0 hc
  unfold load
  simp only [hc, hf]
  rw [hd0, load_loop_children pcre_compile cs hskip [] _
    (by simp only [documentTokens, List.length_cons]; omega)]
  simp [hasError]

/-! ### C12: unknown elements -/

/-- C12 (amended): an unknown element in a `file` or `search` element is ignored when
none of its tokens, its own or those of what it holds, is one the loop it is in reacts
to: loading such a document succeeds and gives the status, the index with its
definitions and the warnings that loading the document without the unknown elements
gives. -/
theorem C12_unknown_elements_without_known_tokens_are_ignored (fs : FileSystem)
    (d d0 : GcnMcFileDbPrivate) (withUnknown withoutUnknown : QString) (cs : List DbChild)
    (hskip : ∀ c ∈ cs, c.Skipped) (hc : clear d = .ok d0)
    (hwith : fs withUnknown = some (documentTokens cs))
    (hwithout : fs withoutUnknown = some (DbDocument.mk (eraseDb cs)).tokens) :
    load pcre_compile fs d withUnknown = load pcre_compile fs d withoutUnknown ∧
    load pcre_compile fs d withUnknown =
      .ok (0, { addr_file_defs :=
                  ((DbDocument.mk (eraseDb cs)).defs pcre_compile).foldl addFile [],
                errorString := [] }, (DbDocument.mk (eraseDb cs)).log pcre_compile) := by
  have h1 := load_children pcre_compile fs d d0 withUnknown cs hskip hc hwith
  have h2 := load_document pcre_compile fs d d0 withoutUnknown (DbDocument.mk (eraseDb cs)) hc
    hwithout
  exact ⟨h1.trans h2.symm, h1⟩

theorem C12_unknown_elements_without_known_tokens_are_ignored_witness :
    (∀ c ∈ exampleExtra, c.Skipped) ∧
    load exampleCompile exampleUnknownFs GcnMcFileDbPrivate.fresh
        (QLatin1String "extra.xml") =
      load exampleCompile exampleUnknownFs GcnMcFileDbPrivate.fresh
        (QLatin1String "extra-erased.xml") ∧
    load exampleCompile exampleUnknownFs GcnMcFileDbPrivate.fresh
        (QLatin1String "extra.xml") =
      .ok (0, { addr_file_defs :=
                  ((DbDocument.mk (eraseDb exampleExtra)).defs exampleCompile).foldl addFile [],
                errorString := [] }, (DbDocument.mk (eraseDb exampleExtra)).log exampleCompile) :=
  have hskip : ∀ c ∈ exampleExtra, c.Skipped := by
    intro c hc
    simp only [exampleExtra, List.mem_singleton] at hc
    subst hc
    intro c hc
    simp only [List.mem_cons, List.mem_singleton, List.not_mem_nil, or_false] at hc
    rcases hc with rfl | rfl | rfl | rfl
    · trivial
    · trivial
    · intro t ht
      simp only [elementTokens, List.mem_cons, List.mem_append, List.mem_singleton,
        List.not_mem_nil, or_false] at ht
      rcases ht with rfl | rfl | rfl <;> rfl
    · intro c hc
      simp only [List.mem_cons, List.mem_singleton, List.not_mem_nil, or_false] at hc
      rcases hc with rfl | rfl | rfl | rfl
      · trivial
      · intro t ht
        simp only [elementTokens, List.mem_cons, List.mem_append, List.mem_singleton,
          List.not_mem_nil, or_false] at ht
        rcases ht with rfl | rfl | rfl <;> rfl
      · trivial
      · trivial
  ⟨hskip, C12_unknown_elements_without_known_tokens_are_ignored exampleCompile exampleUnknownFs
    GcnMcFileDbPrivate.fresh GcnMcFileDbPrivate.fresh (QLatin1String "extra.xml")
    (QLatin1String "extra-erased.xml") exampleExtra hskip rfl rfl rfl⟩

/-- C12 (counterexample): the record of `nested.xml` has the game code `GALE` and the
address 0x2000, an unknown child `extra` of `file` that holds `gamecode` `GALJ`, and an
unknown child `hint` of `search` that holds `address` 0x3000. Loaded, its definition
has the game code `GALJ` and is indexed at 0x3000; without the two unknown elements it
has the game code `GALE` and is indexed at 0x2000. -/
theorem C12_counterexample :
    exampleUnknownFs (QLatin1String "nested.xml") = some (documentTokens exampleNested) ∧
    exampleUnknownFs (QLatin1String "nested-erased.xml") =
      some (DbDocument.mk (eraseDb exampleNested)).tokens ∧
    QLatin1String "extra" ∉ [QLatin1String "description", QLatin1String "gamecode",
      QLatin1String "company", QLatin1String "search"] ∧
    QLatin1String "hint" ∉ [QLatin1String "address", QLatin1String "gamedesc",
      QLatin1String "filedesc"] ∧
    loadedStatus (load exampleCompile exampleUnknownFs GcnMcFileDbPrivate.fresh
      (QLatin1String "nested.xml")) = some 0 ∧
    loadedGamecodes (load exampleCompile exampleUnknownFs GcnMcFileDbPrivate.fresh
      (QLatin1String "nested.xml")) = some [QLatin1String "GALJ"] ∧
    loadedKeys (load exampleCompile exampleUnknownFs GcnMcFileDbPrivate.fresh
      (QLatin1String "nested.xml")) = some [0x3000] ∧
    loadedStatus (load exampleCompile exampleUnknownFs GcnMcFileDbPrivate.fresh
      (QLatin1String "nested-erased.xml")) = some 0 ∧
    loadedGamecodes (load exampleCompile exampleUnknownFs GcnMcFileDbPrivate.fresh
      (QLatin1String "nested-erased.xml")) = some [QLatin1String "GALE"] ∧
    loadedKeys (load exampleCompile exampleUnknownFs GcnMcFileDbPrivate.fresh
      (QLatin1String "nested-erased.xml")) = some [0x2000] :=
  ⟨rfl, rfl, by decide, by decide, rfl, rfl, rfl, rfl, rfl, rfl⟩

/-! ### C14: switching the active table -/

/-- C14: `TableSelect::setActiveDatIdx(idx)` and `TableSelect::setActiveBatIdx(idx)`
make no call on the card and leave the state, the card with its active indexes
included, as it was when no card is set or `idx < 0` or `idx >= 2`; with a card set
and `idx` 0 or 1 they make exactly one call on the card, the setter of the same name
with exactly that `idx`, and the state is what that call leaves. -/
theorem C14_out_of_range_index_is_rejected (setters : CardSetters) (d : TableSelectPrivate)
    (idx : Int) :
    ((d.card = none ∨ idx < 0 ∨ 2 ≤ idx) →
      TableSelect.setActiveDatIdx setters d idx = (d, []) ∧
      TableSelect.setActiveBatIdx setters d idx = (d, [])) ∧
    ((d.card ≠ none ∧ (idx = 0 ∨ idx = 1)) →
      TableSelect.setActiveDatIdx setters d idx =
        (setters.setActiveDatIdx d idx, [CardCall.setActiveDatIdx idx]) ∧
      TableSelect.setActiveBatIdx setters d idx =
        (setters.setActiveBatIdx d idx, [CardCall.setActiveBatIdx idx])) := by
  constructor
  · intro h
    have hc : d.card.isNone = true ∨ idx < 0 ∨ idx ≥ 2 := by
      rcases h with h | h | h
      · exact Or.inl (by simp [h])
      · exact Or.inr (Or.inl h)
      · exact Or.inr (Or.inr h)
    simp only [TableSelect.setActiveDatIdx, TableSelect.setActiveBatIdx, if_pos hc,
      and_self]
  · rintro ⟨hcard, hidx⟩
    have hc : ¬ (d.card.isNone = true ∨ idx < 0 ∨ idx ≥ 2) := by
      rintro (h | h | h)
      · exact hcard (Option.isNone_iff_eq_none.1 h)
      · rcases hidx with rfl | rfl <;> omega
      · rcases hidx with rfl | rfl <;> omega
    simp only [TableSelect.setActiveDatIdx, TableSelect.setActiveBatIdx, if_neg hc,
      and_self]

theorem C14_out_of_range_index_is_rejected_witness :
    (TableSelect.setActiveDatIdx exampleSetters { card := some exampleCard } 2 =
        ({ card := some exampleCard }, []) ∧
      TableSelect.setActiveBatIdx exampleSetters { card := some exampleCard } 2 =
        ({ card := some exampleCard }, [])) ∧
    (TableSelect.setActiveDatIdx exampleSetters { card := some exampleCard } 1 =
        (exampleSetters.setActiveDatIdx { card := some exampleCard } 1,
          [CardCall.setActiveDatIdx 1]) ∧
      TableSelect.setActiveBatIdx exampleSetters { card := some exampleCard } 1 =
        (exampleSetters.setActiveBatIdx { card := some exampleCard } 1,
          [CardCall.setActiveBatIdx 1])) :=
  ⟨(C14_out_of_range_index_is_rejected exampleSetters { card := some exampleCard } 2).1
      (Or.inr (Or.inr (by decide))),
    (C14_out_of_range_index_is_rejected exampleSetters { card := some exampleCard } 1).2
      ⟨by simp, Or.inr rfl⟩⟩

/-! ### C18: the number of widgets -/

theorem updateWidgetCount_remove_ok (c lblSize : Nat) :
    ∀ (n : Nat) (g : QButtonGroup), n ≤ lblSize →
      ∃ g1, updateWidgetCount_remove (c : Int) lblSize n g = some g1 := by
  intro n
  induction n with
  | zero =>
    intro g _
    refine ⟨g, ?_⟩
    have : ¬ ((c : Int) ≤ -1) := by omega
    simp [updateWidgetCount_remove, this]
  | succ i ih =>
    intro g h
    rw [updateWidgetCount_remove]
    by_cases hc : (c : Int) ≤ (i : Int)
    · have hi : i < lblSize := by omega
      simp only [hc, hi, if_true]
      exact ih _ (by omega)
    · simp only [hc, if_false]
      exact ⟨g, rfl⟩

theorem updateWidgetCount_add_spec (column : Nat) :
    ∀ (k : Nat) (btns : List QPushButton) (lbls : List QLabel),
      updateWidgetCount_add column k (btns, lbls) =
        (btns ++ (List.range' btns.length k).map (fun i => newButton i column),
          lbls ++ (List.range' btns.length k).map (fun i => newLabel i (column + 1))) := by
  intro k
  induction k with
  | zero => intro btns lbls; simp [updateWidgetCount_add]
  | succ k ih =>
    intro btns lbls
    rw [updateWidgetCount_add, ih]
    simp [List.range'_succ]

/-- What `updateWidgetCount` does for one kind of table when the card reports `c`
tables and there are as many labels as buttons. -/
theorem updateWidgetCount_table_spec (c column : Nat) (g : QButtonGroup)
    (btns : List QPushButton) (lbls : List QLabel) (hlen : btns.length = lbls.length) :
    ∃ g1 b l, updateWidgetCount_table (c : Int) column g btns lbls = some (g1, b, l) ∧
      b.length = c ∧ l.length = c ∧
      (∀ i, i < btns.length → i < c → b[i]? = btns[i]? ∧ l[i]? = lbls[i]?) ∧
      (∀ i, btns.length ≤ i → i < c →
        b[i]? = some (newButton i column) ∧ l[i]? = some (newLabel i (column + 1))) := by
  unfold updateWidgetCount_table
  by_cases h1 : (c : Int) < (btns.length : Int)
  · obtain ⟨g1, hg1⟩ := updateWidgetCount_remove_ok c lbls.length btns.length g (by omega)
    have hc : c < btns.length := by omega
    refine ⟨g1, btns.take c, lbls.take c, ?_, ?_, ?_, ?_, ?_⟩
    · simp [h1, hg1]
    · simp only [List.length_take]; omega
    · simp only [List.length_take]; omega
    · intro i _ hi
      simp [List.getElem?_take, hi]
    · intro i h2 h3
      omega
  · by_cases h2 : (c : Int) > (btns.length : Int)
    · have hk : ((c : Int) - (btns.length : Int)).toNat = c - btns.length := by omega
      have hc : btns.length < c := by omega
      refine ⟨g,
        btns ++ (List.range' btns.length (c - btns.length)).map (fun i => newButton i column),
        lbls ++ (List.range' btns.length (c - btns.length)).map
          (fun i => newLabel i (column + 1)), ?_, ?_, ?_, ?_, ?_⟩
      · simp only [h1, h2, if_false, if_true]
        rw [hk, updateWidgetCount_add_spec]
      · simp only [List.length_append, List.length_map, List.length_range']; omega
      · simp only [List.length_append, List.length_map, List.length_range']; omega
      · intro i hi _
        constructor
        · rw [List.getElem?_append_left hi]
        · rw [List.getElem?_append_left (by omega)]
      · intro i hi hic
        constructor
        · rw [List.getElem?_append_right hi]
          simp only [List.getElem?_map]
          rw [List.getElem?_range' _ _ (by omega)]
          simp only [Option.map_some', Option.some.injEq]
          congr 1
          omega
        · rw [List.getElem?_append_right (by omega)]
          simp only [List.getElem?_map]
          rw [List.getElem?_range' _ _ (by omega)]
          simp only [Option.map_some', Option.some.injEq]
          congr 1
          omega
    · have hc : c = btns.length := by omega
      refine ⟨g, btns, lbls, ?_, ?_, ?_, ?_, ?_⟩
      · simp [h1, h2]
      · omega
      · omega
      · intro i _ _; exact ⟨rfl, rfl⟩
      · intro i h3 h4; omega

/-- C18: `updateWidgetCount` sizes the widget lists to the table counts of the card.
With no card nothing changes. With a card that reports `n` directory tables and `m`
block tables, in a state that has as many status labels as buttons of each kind (the
state after `setupUi` has, and the call keeps it so), the call returns, `btnDir` and
`lblDirStatus` have `n` elements, `btnBlock` and `lblBlockStatus` have `m`, the
widgets at the indexes below both the old and the new size are the ones that were
there, and each new button at index `i` has the one character `QChar('A' + i)` as its
text (the letter for `i < 26`) and is in the group of its list with id `i`. -/
theorem C18_updateWidgetCount_sizes_the_widget_lists (d : TableSelectPrivate) (card : Card)
    (n m : Nat) (ui0 : Ui_TableSelect) (hcard : d.card = some card)
    (hn : card.datCount = n) (hm : card.batCount = m)
    (hdir : d.ui.btnDir.length = d.ui.lblDirStatus.length)
    (hblock : d.ui.btnBlock.length = d.ui.lblBlockStatus.length) :
    TableSelectPrivate.updateWidgetCount { ui := ui0, card := none } =
      some { ui := ui0, card := none } ∧
    ∃ d1, d.updateWidgetCount = some d1 ∧ d1.card = some card ∧
      d1.ui.btnDir.length = n ∧ d1.ui.lblDirStatus.length = n ∧
      d1.ui.btnBlock.length = m ∧ d1.ui.lblBlockStatus.length = m ∧
      (∀ i, i < d.ui.btnDir.length → i < n →
        d1.ui.btnDir[i]? = d.ui.btnDir[i]? ∧ d1.ui.lblDirStatus[i]? = d.ui.lblDirStatus[i]?) ∧
      (∀ i, i < d.ui.btnBlock.length → i < m →
        d1.ui.btnBlock[i]? = d.ui.btnBlock[i]? ∧
          d1.ui.lblBlockStatus[i]? = d.ui.lblBlockStatus[i]?) ∧
      (∀ i, d.ui.btnDir.length ≤ i → i < n →
        ∃ btn, d1.ui.btnDir[i]? = some btn ∧ btn = newButton i 1 ∧
          btn.text = [(65 + i) % 65536] ∧ (i < 26 → btn.text = [65 + i]) ∧
          btn.groupId = i ∧ btn.checkable = true ∧ btn.checked = false) ∧
      (∀ i, d.ui.btnBlock.length ≤ i → i < m →
        ∃ btn, d1.ui.btnBlock[i]? = some btn ∧ btn = newButton i 4 ∧
          btn.text = [(65 + i) % 65536] ∧ (i < 26 → btn.text = [65 + i]) ∧
          btn.groupId = i ∧ btn.checkable = true ∧ btn.checked = false) := by
  refine ⟨rfl, ?_⟩
  obtain ⟨gd, bd, ld, hd, hbd, hld, hkd, hnd⟩ :=
    updateWidgetCount_table_spec n 1 d.ui.btnDirGroup d.ui.btnDir d.ui.lblDirStatus hdir
  obtain ⟨gb, bb, lb, hb, hbb, hlb, hkb, hnb⟩ :=
    updateWidgetCount_table_spec m 4 d.ui.btnBlockGroup d.ui.btnBlock d.ui.lblBlockStatus
      hblock
  have htext : ∀ i column : Nat, (newButton i column).text = [(65 + i) % 65536] ∧
      (i < 26 → (newButton i column).text = [65 + i]) ∧
      (newButton i column).groupId = i ∧ (newButton i column).checkable = true ∧
      (newButton i column).checked = false := by
    intro i column
    refine ⟨rfl, ?_, rfl, rfl, rfl⟩
    intro hi
    simp only [newButton, QChar_ofInt]
    rw [Nat.mod_eq_of_lt (by omega)]
  refine ⟨{ d with ui :=
      { btnDirGroup := gd, btnDir := bd, lblDirStatus := ld,
        btnBlockGroup := gb, btnBlock := bb, lblBlockStatus := lb } }, ?_, hcard, hbd, hld,
    hbb, hlb, hkd, hkb, ?_, ?_⟩
  · unfold TableSelectPrivate.updateWidgetCount
    simp only [hcard, hn, hm, hd, hb]
  · intro i h1 h2
    exact ⟨_, (hnd i h1 h2).1, rfl, htext i 1⟩
  · intro i h1 h2
    exact ⟨_, (hnb i h1 h2).1, rfl, htext i 4⟩

theorem C18_updateWidgetCount_sizes_the_widget_lists_witness :
    ∃ d1, TableSelectPrivate.updateWidgetCount { card := some exampleCard } = some d1 ∧
      d1.ui.btnDir.length = 2 ∧ d1.ui.lblDirStatus.length = 2 ∧
      d1.ui.btnBlock.length = 2 ∧ d1.ui.lblBlockStatus.length = 2 :=
  match (C18_updateWidgetCount_sizes_the_widget_lists { card := some exampleCard }
    exampleCard 2 2 {} rfl rfl rfl rfl rfl).2 with
  | ⟨d1, h, _, h1, h2, h3, h4, _⟩ => ⟨d1, h, h1, h2, h3, h4⟩

/-! ### C19: the table displays -/

/-- The label loop of a display function gives every label below its start the
status of its table and leaves the other labels alone. -/
theorem updateTableDisplay_labels_getElem? (tableName : QString) (activeHdrIdx : Int)
    (isValid : Int → Bool) :
    ∀ (n : Nat) (lbls : List QLabel) (i : Nat),
      (updateTableDisplay_labels tableName activeHdrIdx isValid n lbls)[i]? =
        if i < n then lbls[i]?.map (statusLabel tableName activeHdrIdx isValid i)
        else lbls[i]? := by
  intro n
  induction n with
  | zero => intro lbls i; simp [updateTableDisplay_labels]
  | succ n ih =>
    intro lbls i
    rw [updateTableDisplay_labels, ih]
    cases hn : lbls[n]? with
    | none =>
      simp only
      by_cases h1 : i < n
      · simp [h1, Nat.lt_succ_of_lt h1]
      · by_cases h2 : i = n
        · subst h2; simp [hn]
        · have h3 : ¬ i < n + 1 := by omega
          simp [h1, h3]
    | some lbl =>
      simp only
      by_cases h1 : i < n
      · have h2 : n ≠ i := by omega
        simp [h1, Nat.lt_succ_of_lt h1, List.getElem?_set_ne h2]
      · by_cases h2 : i = n
        · subst h2
          have hlt : i < lbls.length := by
            rcases Nat.lt_or_ge i lbls.length with h | h
            · exact h
            · rw [List.getElem?_eq_none h] at hn; cases hn
          simp [hn, List.getElem?_set_self hlt]
        · have h3 : ¬ i < n + 1 := by omega
          have h4 : n ≠ i := fun h => h2 h.symm
          simp [h1, h3, List.getElem?_set_ne h4]

/-- The status labels after `updateDirTableDisplay`: the label of every table `i` has
the highlight exactly when `i` is the index the header names, the apply pixmap when
the card reports the table valid and the critical one when not, and the tool tip
template that goes with validity and the header index. -/
theorem updateDirTableDisplay_labels (d d1 : TableSelectPrivate) (card : Card)
    (hcard : d.card = some card) (h : d.updateDirTableDisplay = some d1) (i : Nat) :
    d1.ui.lblDirStatus[i]? =
      d.ui.lblDirStatus[i]?.map
        (statusLabel (QLatin1String "Directory Table") card.activeDatHdrIdx card.isDatValid
          i) := by
  unfold TableSelectPrivate.updateDirTableDisplay at h
  simp only [hcard, Option.some.injEq] at h
  subst h
  simp only
  rw [updateTableDisplay_labels_getElem?]
  by_cases hi : i < d.ui.lblDirStatus.length
  · simp [hi]
  · simp [hi, List.getElem?_eq_none (Nat.le_of_not_lt hi)]

/-- C19 (failing input): the widget is given a card that has table 0 of each kind
selected, and then a card that has no table selected (index -1). The first display
checks button A of each kind. The second display calls `setChecked(false)` on every
button, but button A of each kind is still checked: the groups are exclusive, and an
exclusive group does not let its checked button be unchecked. The status labels of
the second display show both tables as invalid and neither as the active one. -/
theorem C19_no_active_table_leaves_button_checked :
    exampleCardNoActive.activeDatIdx = -1 ∧ exampleCardNoActive.activeBatIdx = -1 ∧
    (TableSelect.setCard {} (some exampleCard)).map
        (fun d => (checkedStates d.ui.btnDir, checkedStates d.ui.btnBlock)) =
      some ([true, false], [true, false]) ∧
    ((TableSelect.setCard {} (some exampleCard)).bind
          (fun d => TableSelect.setCard d (some exampleCardNoActive))).map
        (fun d => (checkedStates d.ui.btnDir, checkedStates d.ui.btnBlock)) =
      some ([true, false], [true, false]) ∧
    ((TableSelect.setCard {} (some exampleCard)).bind
          (fun d => TableSelect.setCard d (some exampleCardNoActive))).map
        (fun d => d.ui.lblDirStatus.map fun l =>
          (l.styleSheet, l.pixmap, l.toolTip.map fun t => t.template)) =
      some [(cssInactiveHdr, some StandardPixmap.SP_MessageBoxCritical,
              some (QLatin1String "%1 %2 is invalid.")),
            (cssInactiveHdr, some StandardPixmap.SP_MessageBoxCritical,
              some (QLatin1String "%1 %2 is invalid."))] ∧
    (TableSelect.setCard {} (some exampleCardNoActive)).map
        (fun d => (checkedStates d.ui.btnDir, checkedStates d.ui.btnBlock)) =
      some ([false, false], [false, false]) := by
  refine ⟨rfl, rfl, ?_, ?_, ?_, ?_⟩ <;> decide

/-! ### C15, C16: the main window -/

/-- C15 (amended): the handler of the button that searches for lost files does no
search and has no check of which blocks are claimed. With a card loaded it passes
exactly one entry to `addLostFile`, the fixed entry with the game code `GSNE`, the
company `8P`, the file name `SONIC2B__S01`, the starting block 38 and the length 3,
whatever blocks are claimed on the card; with no card loaded it adds nothing. -/
theorem C15_handler_adds_one_fixed_entry (card : MemCard) (filename : QString) :
    McRecoverWindow.on_btnSearchLostFiles_clicked { card := some card, filename := filename } =
      [lostFileEntry] ∧
    (∀ claimed : Nat → Bool,
      McRecoverWindow.on_btnSearchLostFiles_clicked
          { card := some { card with claimed := claimed }, filename := filename } =
        McRecoverWindow.on_btnSearchLostFiles_clicked
          { card := some card, filename := filename }) ∧
    lostFileEntry.gamecode = bytes "GSNE" ∧ lostFileEntry.company = bytes "8P" ∧
    lostFileEntry.filename = bytes "SONIC2B__S01" ++ List.replicate 20 0 ∧
    lostFileEntry.block = 38 ∧ lostFileEntry.length = 3 ∧
    McRecoverWindow.on_btnSearchLostFiles_clicked { card := none, filename := filename } =
      [] :=
  ⟨rfl, fun _ => rfl, rfl, rfl, by decide, rfl, rfl, rfl⟩

theorem C15_handler_adds_one_fixed_entry_witness :
    McRecoverWindow.on_btnSearchLostFiles_clicked
        { card := some exampleMemCardLarge, filename := QLatin1String "card.raw" } =
      [lostFileEntry] ∧
    lostFileEntry.block = 38 ∧ lostFileEntry.length = 3 :=
  ⟨(C15_handler_adds_one_fixed_entry exampleMemCardLarge (QLatin1String "card.raw")).1,
    (C15_handler_adds_one_fixed_entry exampleMemCardLarge
      (QLatin1String "card.raw")).2.2.2.2.2.1,
    (C15_handler_adds_one_fixed_entry exampleMemCardLarge
      (QLatin1String "card.raw")).2.2.2.2.2.2.1⟩

/-- C15 (counterexample): on `exampleMemCard` a file has the blocks 36 to 40, so block
38 is claimed. The handler passes one entry to `addLostFile`, and that entry starts
at block 38, a claimed block. -/
theorem C15_counterexample :
    exampleMemCard.claimed 38 = true ∧
    (McRecoverWindow.on_btnSearchLostFiles_clicked { card := some exampleMemCard }).map
        (fun e => e.block) = [38] ∧
    (McRecoverWindow.on_btnSearchLostFiles_clicked { card := some exampleMemCard }).map
        (fun e => exampleMemCard.claimed e.block) = [true] :=
  ⟨rfl, rfl, rfl⟩

theorem updateLstMemCard_displayFilename (card : MemCard) (filename : QString) :
    (McRecoverWindowPrivate.updateLstMemCard
        { card := some card, filename := filename }).grpFileList_title.args[0]? =
      some (displayFilename filename) := rfl

theorem lastIndexOf_nil (c : QChar) : lastIndexOf [] c = -1 := by
  simp [lastIndexOf]

theorem lastIndexOf_append_self (s : QString) (c : QChar) :
    lastIndexOf (s ++ [c]) c = (s.length : Int) := by
  simp [lastIndexOf, List.indexOf_cons_eq]

theorem lastIndexOf_append_ne (s : QString) (a c : QChar) (h : a ≠ c) :
    lastIndexOf (s ++ [a]) c = lastIndexOf s c := by
  have h1 : (s ++ [a]).reverse.indexOf c = s.reverse.indexOf c + 1 := by
    rw [List.reverse_append, List.reverse_singleton, List.singleton_append]
    exact List.indexOf_cons_ne _ h
  unfold lastIndexOf
  rw [h1]
  simp only [List.length_append, List.length_singleton, Nat.add_lt_add_iff_right]
  by_cases hk : s.reverse.indexOf c < s.length
  · simp only [hk, if_true]
    congr 1
    omega
  · simp [hk]

theorem lastIndexOf_lt (s : QString) (c : QChar) : lastIndexOf s c < (s.length : Int) := by
  unfold lastIndexOf
  split_ifs with h <;> omega

theorem displayFilename_nil : displayFilename [] = [] := by
  simp [displayFilename, lastIndexOf_nil]

theorem displayFilename_append_slash (s : QString) : displayFilename (s ++ [47]) = [] := by
  unfold displayFilename
  rw [lastIndexOf_append_self]
  have h : ((s.length : Int) + 1).toNat = (s ++ [47]).length := by
    simp only [List.length_append, List.length_singleton]; omega
  have h0 : (s.length : Int) ≥ 0 := by omega
  rw [if_pos h0, h, List.drop_length]

theorem displayFilename_append_ne (s : QString) (a : QChar) (h : a ≠ 47) :
    displayFilename (s ++ [a]) = displayFilename s ++ [a] := by
  unfold displayFilename
  rw [lastIndexOf_append_ne s a 47 h]
  by_cases h0 : lastIndexOf s 47 ≥ 0
  · have hlt := lastIndexOf_lt s 47
    rw [if_pos h0, if_pos h0, List.drop_append_of_le_length (by omega)]
  · rw [if_neg h0, if_neg h0]

/-- The name shown is the longest suffix of the filename without a `/`. -/
theorem displayFilename_spec (filename : QString) :
    47 ∉ displayFilename filename ∧
    (∃ pre, filename = pre ++ displayFilename filename ∧
      (pre = [] ∨ pre.getLast? = some 47)) ∧
    (∀ s, s <:+ filename → 47 ∉ s → s <:+ displayFilename filename) := by
  induction filename using List.reverseRecOn with
  | nil =>
    rw [displayFilename_nil]
    exact ⟨by simp, ⟨[], rfl, Or.inl rfl⟩, fun s hs _ => hs⟩
  | append_singleton s a ih =>
    by_cases ha : a = 47
    · subst ha
      rw [displayFilename_append_slash]
      refine ⟨by simp, ⟨s ++ [47], by simp, Or.inr (by simp)⟩, ?_⟩
      intro t ht hno
      rcases List.eq_nil_or_concat t with rfl | ⟨t0, b, rfl⟩
      · exact List.suffix_refl _
      · exfalso
        obtain ⟨u, hu⟩ := ht
        have hu2 : (u ++ t0) ++ [b] = s ++ [47] := by simpa using hu
        have hb := (List.append_inj' hu2 rfl).2
        simp only [List.cons.injEq, and_true] at hb
        subst hb
        exact hno (by simp)
    · rw [displayFilename_append_ne s a ha]
      obtain ⟨h1, ⟨pre, h2, h3⟩, h4⟩ := ih
      refine ⟨?_, ⟨pre, ?_, h3⟩, ?_⟩
      · simp only [List.mem_append, List.mem_singleton, not_or]
        exact ⟨h1, fun h => ha h.symm⟩
      · rw [← List.append_assoc, ← h2]
      · intro t ht hno
        rcases List.eq_nil_or_concat t with rfl | ⟨t0, b, rfl⟩
        · exact List.nil_suffix
        · obtain ⟨u, hu⟩ := ht
          have hu2 : (u ++ t0) ++ [b] = s ++ [a] := by simpa using hu
          have hb := List.append_inj' hu2 rfl
          have hb2 := hb.2
          simp only [List.cons.injEq, and_true] at hb2
          subst hb2
          have ht0 : t0 <:+ displayFilename s :=
            h4 t0 ⟨u, hb.1⟩ (fun hm => hno (by simp [hm]))
          obtain ⟨v, hv⟩ := ht0
          exact ⟨v, by simp [← hv]⟩

/-- C22: with a card loaded, the file name `updateLstMemCard` puts in for `%1` of the
title is the last component of the path. For every filename it is a suffix of the
filename that holds no `/`; the part before it is empty or ends in `/`; every suffix
of the filename without a `/` is a suffix of it, so it is the longest one; it is the
whole filename when that has no `/`, and it is empty when the filename ends in `/`. -/
theorem C22_title_shows_last_path_component (card : MemCard) (filename : QString) :
    ∃ shown,
      (McRecoverWindowPrivate.updateLstMemCard
          { card := some card, filename := filename }).grpFileList_title.args[0]? =
        some shown ∧
      47 ∉ shown ∧
      (∃ pre, filename = pre ++ shown ∧ (pre = [] ∨ pre.getLast? = some 47)) ∧
      (∀ s, s <:+ filename → 47 ∉ s → s <:+ shown) ∧
      (47 ∉ filename → shown = filename) ∧
      (filename.getLast? = some 47 → shown = []) := by
  obtain ⟨h1, h2, h3⟩ := displayFilename_spec filename
  refine ⟨displayFilename filename, rfl, h1, h2, h3, ?_, ?_⟩
  · intro hno
    have hs := h3 filename (List.suffix_refl _) hno
    obtain ⟨pre, hpre, _⟩ := h2
    have hlen : filename.length ≤ (displayFilename filename).length := hs.length_le
    have hl := congrArg List.length hpre
    simp only [List.length_append] at hl
    have hp : pre = [] := List.length_eq_zero.1 (by omega)
    rw [hp, List.nil_append] at hpre
    exact hpre.symm
  · intro hlast
    obtain ⟨s, rfl⟩ : ∃ s, filename = s ++ [47] := by
      rcases List.eq_nil_or_concat filename with h | ⟨s, b, h⟩
      · subst h; simp at hlast
      · subst h
        have hb : b = 47 := by simpa using hlast
        subst hb
        exact ⟨s, List.concat_eq_append _ _⟩
    exact displayFilename_append_slash s

theorem C22_title_shows_last_path_component_witness :
    (McRecoverWindowPrivate.updateLstMemCard
        { card := some exampleMemCard,
          filename := QLatin1String "/home/user/card.raw" }).grpFileList_title.args[0]? =
      some (QLatin1String "card.raw") ∧
    (McRecoverWindowPrivate.updateLstMemCard
        { card := some exampleMemCard,
          filename := QLatin1String "card.raw" }).grpFileList_title.args[0]? =
      some (QLatin1String "card.raw") ∧
    (McRecoverWindowPrivate.updateLstMemCard
        { card := some exampleMemCard,
          filename := QLatin1String "/home/user/" }).grpFileList_title.args[0]? =
      some [] :=
  match C22_title_shows_last_path_component exampleMemCard (QLatin1String "/home/user/"),
    C22_title_shows_last_path_component exampleMemCard (QLatin1String "card.raw") with
  | ⟨_, h, _, _, _, _, hslash⟩, ⟨_, g, _, _, _, hno, _⟩ =>
    ⟨by decide, (hno (by decide)) ▸ g, (hslash (by decide)) ▸ h⟩

/-! ### C21: a load that stops on an error -/

theorem readNext_error (e : Token) (rest : List Token) (he : e.type = .Invalid) :
    readNext ⟨e, rest⟩ = ⟨e, rest⟩ := by
  simp [readNext, he]

theorem parseXml_element_cut (name text : QString) (e : Token) (rest : List Token)
    (he : e.type = .Invalid) :
    parseXml_element ⟨startElement name, (if text = [] then [] else [characters text]) ++
        e :: rest⟩ = (⟨e, rest⟩, text) := by
  unfold parseXml_element readElementText
  by_cases h : text = []
  · simp [h, tokenType, startElement, readElementText_loop, he]
  · simp [h, tokenType, startElement, readElementText_loop, he, characters]

theorem parseXml_file_search_loop_error (e : Token) (rest : List Token) (f : gcn_file_def)
    (he : e.type = .Invalid) :
    ∀ c fuel, c.type ≠ .Invalid → 1 ≤ fuel →
      parseXml_file_search_loop fuel (readNext ⟨c, e :: rest⟩) f = .ok (⟨e, rest⟩, f) := by
  intro c fuel hc hfuel
  obtain ⟨n, rfl⟩ : ∃ n, fuel = n + 1 := ⟨fuel - 1, by omega⟩
  rw [readNext_cons _ _ _ hc, parseXml_file_search_loop]
  simp [hasError, he]

theorem parseXml_file_search_loop_items_then (items : List SearchItem) (tail : List Token)
    (R : Except Fault (QXmlStreamReader × gcn_file_def)) (N : Nat) :
    ∀ (f : gcn_file_def),
      (∀ c fuel, c.type ≠ .Invalid → N ≤ fuel →
        parseXml_file_search_loop fuel (readNext ⟨c, tail⟩)
          { f with search := items.foldl SearchItem.apply f.search } = R) →
      ∀ c fuel, c.type ≠ .Invalid → N + (searchTokens items).length ≤ fuel →
        parseXml_file_search_loop fuel (readNext ⟨c, searchTokens items ++ tail⟩) f = R := by
  induction items with
  | nil =>
    intro f hcont c fuel hc hfuel
    simpa [searchTokens] using hcont c fuel hc (by simpa [searchTokens] using hfuel)
  | cons i is ih =>
    intro f hcont c fuel hc hfuel
    simp only [searchTokens, List.append_assoc, List.length_append] at hfuel ⊢
    exact parseXml_file_search_loop_item i _ f R (N + (searchTokens is).length)
      (ih _ (by simpa [List.foldl_cons] using hcont)) c fuel hc (by omega)

theorem parseXml_file_search_loop_cut (field : SearchField) (text : QString) (e : Token)
    (rest : List Token) (f : gcn_file_def) (he : e.type = .Invalid) :
    ∀ c fuel, c.type ≠ .Invalid → 2 ≤ fuel →
      parseXml_file_search_loop fuel
          (readNext ⟨c, cutTextTokens field.name text ++ e :: rest⟩) f =
        .ok (⟨e, rest⟩, { f with search := SearchItem.apply f.search (field.item text) }) := by
  intro c fuel hc hfuel
  obtain ⟨n, rfl⟩ : ∃ n, fuel = n + 2 := ⟨fuel - 2, by omega⟩
  have e1 : cutTextTokens field.name text ++ e :: rest =
      startElement field.name :: ((if text = [] then [] else [characters text]) ++
        e :: rest) := by
    simp [cutTextTokens]
  rw [e1, readNext_cons _ _ _ hc,
    parseXml_file_search_loop_step (n + 1) _ f (by simp [startElement])
      (by simp [startElement])]
  have hb : parseXml_file_search_body
      ⟨startElement field.name, (if text = [] then [] else [characters text]) ++ e :: rest⟩ f =
      (⟨e, rest⟩, { f with search := SearchItem.apply f.search (field.item text) }) := by
    unfold parseXml_file_search_body
    rw [parseXml_element_cut _ _ _ _ he]
    cases field <;>
      simp [tokenType, name, startElement, SearchField.name, SearchField.item,
        SearchItem.apply, name_gamedesc_ne_address, name_filedesc_ne_address,
        name_filedesc_ne_gamedesc]
  rw [hb, readNext_error _ _ he, parseXml_file_search_loop]
  simp [hasError, he]

/-- Reading a `search` element that is cut short by an error after the complete
children `spre`: the fields read so far are kept and the patterns compiled. -/
theorem parseXml_file_search_error (spre : List SearchItem) (e : Token) (rest : List Token)
    (f : gcn_file_def) (he : e.type = .Invalid) :
    parseXml_file_search pcre_compile
        ⟨startElement (QLatin1String "search"), searchTokens spre ++ e :: rest⟩ f =
      .ok (⟨e, rest⟩,
        (FileItem.apply pcre_compile (f, []) (FileItem.search spre)).1,
        (FileItem.apply pcre_compile (f, []) (FileItem.search spre)).2) := by
  unfold parseXml_file_search
  have hg : ¬ ((⟨startElement (QLatin1String "search"), searchTokens spre ++ e :: rest⟩ :
        QXmlStreamReader).tokenType ≠ .StartElement ∨
      (⟨startElement (QLatin1String "search"), searchTokens spre ++ e :: rest⟩ :
          QXmlStreamReader).name ≠ QLatin1String "search") := by
    simp [tokenType, name, startElement]
  rw [if_neg hg]
  rw [parseXml_file_search_loop_items_then spre (e :: rest) _ 1 f
    (parseXml_file_search_loop_error e rest _ he) _ _ (by simp [startElement])
    (by simp only [List.length_append, List.length_cons]; omega)]
  simp [compile_regexp_eq, FileItem.apply]

/-- Reading a `search` element that is cut short by an error inside a text child. -/
theorem parseXml_file_search_cut (spre : List SearchItem) (field : SearchField)
    (text : QString) (e : Token) (rest : List Token) (f : gcn_file_def)
    (he : e.type = .Invalid) :
    parseXml_file_search pcre_compile
        ⟨startElement (QLatin1String "search"),
          searchTokens spre ++ (cutTextTokens field.name text ++ e :: rest)⟩ f =
      .ok (⟨e, rest⟩,
        (FileItem.apply pcre_compile (f, [])
          (FileItem.search (spre ++ [field.item text]))).1,
        (FileItem.apply pcre_compile (f, [])
          (FileItem.search (spre ++ [field.item text]))).2) := by
  unfold parseXml_file_search
  have hg : ¬ ((⟨startElement (QLatin1String "search"),
        searchTokens spre ++ (cutTextTokens field.name text ++ e :: rest)⟩ :
        QXmlStreamReader).tokenType ≠ .StartElement ∨
      (⟨startElement (QLatin1String "search"),
        searchTokens spre ++ (cutTextTokens field.name text ++ e :: rest)⟩ :
          QXmlStreamReader).name ≠ QLatin1String "search") := by
    simp [tokenType, name, startElement]
  rw [if_neg hg]
  rw [parseXml_file_search_loop_items_then spre _ _ 2 f
    (parseXml_file_search_loop_cut field text e rest _ he) _ _ (by simp [startElement])
    (by simp only [List.length_append, List.length_cons, cutTextTokens]; omega)]
  simp [compile_regexp_eq, FileItem.apply, List.foldl_append]

theorem parseXml_file_loop_error (e : Token) (rest : List Token) (f : gcn_file_def)
    (log : List Msg) (he : e.type = .Invalid) :
    ∀ c fuel, c.type ≠ .Invalid → 1 ≤ fuel →
      parseXml_file_loop pcre_compile fuel (readNext ⟨c, e :: rest⟩) f log =
        .ok (⟨e, rest⟩, f, log) := by
  intro c fuel hc hfuel
  obtain ⟨n, rfl⟩ : ∃ n, fuel = n + 1 := ⟨fuel - 1, by omega⟩
  rw [readNext_cons _ _ _ hc, parseXml_file_loop]
  simp [hasError, he]

theorem parseXml_file_loop_items_then (items : List FileItem) (tail : List Token)
    (R : Except Fault (QXmlStreamReader × gcn_file_def × List Msg)) (N : Nat) :
    ∀ (f : gcn_file_def) (log : List Msg),
      (∀ c fuel, c.type ≠ .Invalid → N ≤ fuel →
        parseXml_file_loop pcre_compile fuel (readNext ⟨c, tail⟩)
          (items.foldl (FileItem.apply pcre_compile) (f, log)).1
          (items.foldl (FileItem.apply pcre_compile) (f, log)).2 = R) →
      ∀ c fuel, c.type ≠ .Invalid → N + (fileTokens items).length ≤ fuel →
        parseXml_file_loop pcre_compile fuel (readNext ⟨c, fileTokens items ++ tail⟩) f log =
          R := by
  induction items with
  | nil =>
    intro f log hcont c fuel hc hfuel
    simpa [fileTokens] using hcont c fuel hc (by simpa [fileTokens] using hfuel)
  | cons i is ih =>
    intro f log hcont c fuel hc hfuel
    simp only [fileTokens, List.append_assoc, List.length_append] at hfuel ⊢
    exact parseXml_file_loop_item pcre_compile i _ f log R (N + (fileTokens is).length)
      (ih _ _ (by simpa [List.foldl_cons] using hcont)) c fuel hc (by omega)

/-- The loop of `parseXml_file` on an element that the body reads up to an error
token: the loop stops there with what the body returned. -/
theorem parseXml_file_loop_stop (t e : Token) (inner rest : List Token)
    (f f1 : gcn_file_def) (log w : List Msg)
    (ht1 : t.type ≠ .Invalid) (ht2 : t.type ≠ .EndElement) (he : e.type = .Invalid)
    (hb : parseXml_file_body pcre_compile ⟨t, inner ++ e :: rest⟩ f = .ok (⟨e, rest⟩, f1, w)) :
    ∀ c fuel, c.type ≠ .Invalid → 2 ≤ fuel →
      parseXml_file_loop pcre_compile fuel (readNext ⟨c, t :: (inner ++ e :: rest)⟩) f log =
        .ok (⟨e, rest⟩, f1, log ++ w) := by
  intro c fuel hc hfuel
  obtain ⟨n, rfl⟩ : ∃ n, fuel = n + 2 := ⟨fuel - 2, by omega⟩
  rw [readNext_cons _ _ _ hc,
    parseXml_file_loop_step_general pcre_compile (n + 1) _ _ f f1 log w ht1
      (fun h => ht2 h.1) hb, readNext_error _ _ he, parseXml_file_loop]
  simp [hasError, he]

theorem parseXml_file_loop_cut_text (field : FileField) (text : QString) (e : Token)
    (rest : List Token) (f : gcn_file_def) (log : List Msg) (he : e.type = .Invalid) :
    ∀ c fuel, c.type ≠ .Invalid → 2 ≤ fuel →
      parseXml_file_loop pcre_compile fuel
          (readNext ⟨c, cutTextTokens field.name text ++ e :: rest⟩) f log =
        .ok (⟨e, rest⟩, (FileItem.apply pcre_compile (f, log) (field.item text)).1,
          (FileItem.apply pcre_compile (f, log) (field.item text)).2) := by
  intro c fuel hc hfuel
  have h := parseXml_file_loop_stop pcre_compile (startElement field.name) e
    (if text = [] then [] else [characters text]) rest f
    (FileItem.apply pcre_compile (f, log) (field.item text)).1 log []
    (by simp [startElement]) (by simp [startElement]) he
    (by
      unfold parseXml_file_body
      rw [parseXml_element_cut _ _ _ _ he]
      cases field <;>
        simp [tokenType, name, startElement, FileField.name, FileField.item,
          FileItem.apply, name_gamecode_ne_description, name_company_ne_description,
          name_company_ne_gamecode])
    c fuel hc hfuel
  have e1 : cutTextTokens field.name text ++ e :: rest =
      startElement field.name :: ((if text = [] then [] else [characters text]) ++
        e :: rest) := by
    simp [cutTextTokens]
  rw [e1, h]
  cases field <;> simp [FileField.item, FileItem.apply]

theorem parseXml_file_loop_cut_search (spre : List SearchItem) (e : Token)
    (rest : List Token) (f : gcn_file_def) (log : List Msg) (he : e.type = .Invalid) :
    ∀ c fuel, c.type ≠ .Invalid → 2 ≤ fuel →
      parseXml_file_loop pcre_compile fuel
          (readNext ⟨c, startElement (QLatin1String "search") ::
            (searchTokens spre ++ e :: rest)⟩) f log =
        .ok (⟨e, rest⟩, (FileItem.apply pcre_compile (f, log) (FileItem.search spre)).1,
          (FileItem.apply pcre_compile (f, log) (FileItem.search spre)).2) := by
  intro c fuel hc hfuel
  have h := parseXml_file_loop_stop pcre_compile (startElement (QLatin1String "search")) e
    (searchTokens spre) rest f
    (FileItem.apply pcre_compile (f, []) (FileItem.search spre)).1 log
    (FileItem.apply pcre_compile (f, []) (FileItem.search spre)).2
    (by simp [startElement]) (by simp [startElement]) he
    (by
      unfold parseXml_file_body
      rw [parseXml_file_search_error pcre_compile spre e rest f he]
      simp [tokenType, name, startElement, name_search_ne_description,
        name_search_ne_gamecode, name_search_ne_company])
    c fuel hc hfuel
  rw [h]
  simp [FileItem.apply]

theorem parseXml_file_loop_cut_search_text (spre : List SearchItem) (field : SearchField)
    (text : QString) (e : Token) (rest : List Token) (f : gcn_file_def) (log : List Msg)
    (he : e.type = .Invalid) :
    ∀ c fuel, c.type ≠ .Invalid → 2 ≤ fuel →
      parseXml_file_loop pcre_compile fuel
          (readNext ⟨c, startElement (QLatin1String "search") ::
            (searchTokens spre ++ (cutTextTokens field.name text ++ e :: rest))⟩) f log =
        .ok (⟨e, rest⟩,
          (FileItem.apply pcre_compile (f, log)
            (FileItem.search (spre ++ [field.item text]))).1,
          (FileItem.apply pcre_compile (f, log)
            (FileItem.search (spre ++ [field.item text]))).2) := by
  intro c fuel hc hfuel
  have h := parseXml_file_loop_stop pcre_compile (startElement (QLatin1String "search")) e
    (searchTokens spre ++ cutTextTokens field.name text) rest f
    (FileItem.apply pcre_compile (f, []) (FileItem.search (spre ++ [field.item text]))).1 log
    (FileItem.apply pcre_compile (f, []) (FileItem.search (spre ++ [field.item text]))).2
    (by simp [startElement]) (by simp [startElement]) he
    (by
      unfold parseXml_file_body
      rw [List.append_assoc,
        parseXml_file_search_cut pcre_compile spre field text e rest f he]
      simp [tokenType, name, startElement, name_search_ne_description,
        name_search_ne_gamecode, name_search_ne_company])
    c fuel hc hfuel
  rw [List.append_assoc] at h
  rw [h]
  simp [FileItem.apply]

/-- Reading a `file` element that is cut short by an error: after the complete
children `pre`, the loop reads `tail` up to the error as it would read the children
`extra`. The call returns the definition of `pre ++ extra`. -/
theorem parseXml_file_then (pre extra : List FileItem) (tail : List Token) (e : Token)
    (rest : List Token)
    (hcont : ∀ (f : gcn_file_def) (log : List Msg) c fuel, c.type ≠ .Invalid → 2 ≤ fuel →
      parseXml_file_loop pcre_compile fuel (readNext ⟨c, tail ++ e :: rest⟩) f log =
        .ok (⟨e, rest⟩, (extra.foldl (FileItem.apply pcre_compile) (f, log)).1,
          (extra.foldl (FileItem.apply pcre_compile) (f, log)).2)) :
    parseXml_file pcre_compile
        ⟨startElement (QLatin1String "file"), fileTokens pre ++ (tail ++ e :: rest)⟩ =
      .ok (⟨e, rest⟩, some (fileDef pcre_compile (pre ++ extra)),
        fileLog pcre_compile (pre ++ extra)) := by
  unfold parseXml_file
  have hg : ¬ ((⟨startElement (QLatin1String "file"),
        fileTokens pre ++ (tail ++ e :: rest)⟩ : QXmlStreamReader).tokenType ≠ .StartElement ∨
      (⟨startElement (QLatin1String "file"),
        fileTokens pre ++ (tail ++ e :: rest)⟩ : QXmlStreamReader).name ≠
          QLatin1String "file") := by
    simp [tokenType, name, startElement]
  rw [if_neg hg]
  rw [parseXml_file_loop_items_then pcre_compile pre (tail ++ e :: rest) _ 2 _ _
    (hcont _ _) _ _ (by simp [startElement])
    (by simp only [List.length_append, List.length_cons]; omega)]
  simp only [Prod.mk.eta, ← List.foldl_append]
  rw [parseXml_file_regions_eq _ (foldl_apply_regions pcre_compile (pre ++ extra) _)]
  rfl

/-- Reading the record that is cut short by the error returns the definition of what
had been read of it. -/
theorem parseXml_file_truncated (cut : Truncation) (r : List FileItem) (e : Token)
    (rest : List Token) (he : e.type = .Invalid) (hr : cut.record = some r) :
    ∃ body, cut.tokens ++ e :: rest = startElement (QLatin1String "file") :: body ∧
      parseXml_file pcre_compile ⟨startElement (QLatin1String "file"), body⟩ =
        .ok (⟨e, rest⟩, some (fileDef pcre_compile r), fileLog pcre_compile r) := by
  cases cut with
  | betweenRecords => cases hr
  | inFile pre =>
    simp only [Truncation.record, Option.some.injEq] at hr
    subst hr
    refine ⟨fileTokens pre ++ ([] ++ e :: rest), by simp [Truncation.tokens], ?_⟩
    have h := parseXml_file_then pcre_compile pre [] [] e rest
      (fun f log c fuel hc hfuel => by
        simpa using parseXml_file_loop_error pcre_compile e rest f log he c fuel hc (by omega))
    simpa using h
  | inFileText pre field text =>
    simp only [Truncation.record, Option.some.injEq] at hr
    subst hr
    refine ⟨fileTokens pre ++ (cutTextTokens field.name text ++ e :: rest),
      by simp [Truncation.tokens], ?_⟩
    exact parseXml_file_then pcre_compile pre [field.item text] _ e rest
      (fun f log c fuel hc hfuel => by
        simpa using parseXml_file_loop_cut_text pcre_compile field text e rest f log he c fuel
          hc hfuel)
  | inSearch pre spre =>
    simp only [Truncation.record, Option.some.injEq] at hr
    subst hr
    refine ⟨fileTokens pre ++ ((startElement (QLatin1String "search") :: searchTokens spre) ++
      e :: rest), by simp [Truncation.tokens], ?_⟩
    exact parseXml_file_then pcre_compile pre [FileItem.search spre] _ e rest
      (fun f log c fuel hc hfuel => by
        simpa using parseXml_file_loop_cut_search pcre_compile spre e rest f log he c fuel hc
          hfuel)
  | inSearchText pre spre field text =>
    simp only [Truncation.record, Option.some.injEq] at hr
    subst hr
    refine ⟨fileTokens pre ++ ((startElement (QLatin1String "search") ::
      (searchTokens spre ++ cutTextTokens field.name text)) ++ e :: rest),
      by simp [Truncation.tokens], ?_⟩
    exact parseXml_file_then pcre_compile pre [FileItem.search (spre ++ [field.item text])] _
      e rest
      (fun f log c fuel hc hfuel => by
        simpa using parseXml_file_loop_cut_search_text pcre_compile spre field text e rest f
          log he c fuel hc hfuel)

/-- The loop of `parseXml_GcnMcFileDb` on the record that is cut short: its definition
is added to the index and the loop stops on the error. -/
theorem parseXml_GcnMcFileDb_loop_cut (cut : Truncation) (e : Token) (rest : List Token)
    (m : AddrFileDefs) (log : List Msg) (he : e.type = .Invalid) :
    ∀ c fuel, c.type ≠ .Invalid → 2 ≤ fuel →
      parseXml_GcnMcFileDb_loop pcre_compile fuel (readNext ⟨c, cut.tokens ++ e :: rest⟩)
          m log =
        .ok (⟨e, rest⟩, (cut.record.toList.map (fileDef pcre_compile)).foldl addFile m,
          log ++ (cut.record.toList.map (fileLog pcre_compile)).flatten) := by
  intro c fuel hc hfuel
  obtain ⟨n, rfl⟩ : ∃ n, fuel = n + 2 := ⟨fuel - 2, by omega⟩
  cases hr : cut.record with
  | none =>
    have ht : cut.tokens = [] := by cases cut <;> simp_all [Truncation.record, Truncation.tokens]
    rw [ht, List.nil_append, readNext_cons _ _ _ hc, parseXml_GcnMcFileDb_loop]
    simp [hasError, he]
  | some r =>
    obtain ⟨body, hbody, hfile⟩ := parseXml_file_truncated pcre_compile cut r e rest he hr
    have hb : parseXml_GcnMcFileDb_body pcre_compile
        ⟨startElement (QLatin1String "file"), body⟩ m =
        .ok (⟨e, rest⟩, addFile m (fileDef pcre_compile r), fileLog pcre_compile r) := by
      unfold parseXml_GcnMcFileDb_body
      rw [hfile]
      simp [tokenType, name, startElement]
    rw [hbody, readNext_cons _ _ _ hc,
      parseXml_GcnMcFileDb_loop_step pcre_compile (n + 1) _ _ m _ log _
        (by simp [startElement]) (by simp [startElement]) hb,
      readNext_error _ _ he, parseXml_GcnMcFileDb_loop]
    simp [hasError, he]

theorem parseXml_GcnMcFileDb_loop_items_then (items : List DbItem) (tail : List Token)
    (R : Except Fault (QXmlStreamReader × AddrFileDefs × List Msg)) (N : Nat) :
    ∀ (m : AddrFileDefs) (log : List Msg),
      (∀ c fuel, c.type ≠ .Invalid → N ≤ fuel →
        parseXml_GcnMcFileDb_loop pcre_compile fuel (readNext ⟨c, tail⟩)
          (((dbFiles items).map (fileDef pcre_compile)).foldl addFile m)
          (log ++ ((dbFiles items).map (fileLog pcre_compile)).flatten) = R) →
      ∀ c fuel, c.type ≠ .Invalid → N + (dbTokens items).length ≤ fuel →
        parseXml_GcnMcFileDb_loop pcre_compile fuel (readNext ⟨c, dbTokens items ++ tail⟩)
          m log = R := by
  induction items with
  | nil =>
    intro m log hcont c fuel hc hfuel
    simpa [dbTokens, dbFiles] using hcont c fuel hc (by simpa [dbTokens] using hfuel)
  | cons i is ih =>
    intro m log hcont c fuel hc hfuel
    obtain ⟨n, rfl⟩ : ∃ n, fuel = n + 1 := ⟨fuel - 1, by
      cases i <;>
        simp only [dbTokens, DbItem.tokens, List.length_append, List.length_cons] at hfuel <;>
        omega⟩
    have hn : N + (dbTokens is).length ≤ n := by
      cases i <;>
        simp only [dbTokens, DbItem.tokens, List.length_append, List.length_cons] at hfuel <;>
        omega
    cases i with
    | file items =>
      have e1 : dbTokens (DbItem.file items :: is) ++ tail =
          startElement (QLatin1String "file") ::
            (fileTokens items ++ endElement (QLatin1String "file") ::
                (dbTokens is ++ tail)) := by
        simp [dbTokens, DbItem.tokens]
      have hb : parseXml_GcnMcFileDb_body pcre_compile
          ⟨startElement (QLatin1String "file"),
            fileTokens items ++ endElement (QLatin1String "file") :: (dbTokens is ++ tail)⟩ m =
          .ok (⟨endElement (QLatin1String "file"), dbTokens is ++ tail⟩,
            addFile m (fileDef pcre_compile items), fileLog pcre_compile items) := by
        unfold parseXml_GcnMcFileDb_body
        rw [parseXml_file_items]
        simp [tokenType, name, startElement]
      rw [e1, readNext_cons _ _ _ hc,
        parseXml_GcnMcFileDb_loop_step pcre_compile n _ _ m _ log _
          (by simp [startElement]) (by simp [startElement]) hb]
      exact ih _ _ (by simpa [dbFiles, List.append_assoc] using hcont) _ n
        (by simp [endElement]) hn
    | space t =>
      have e1 : dbTokens (DbItem.space t :: is) ++ tail =
          characters t :: (dbTokens is ++ tail) := by
        simp [dbTokens, DbItem.tokens]
      rw [e1, readNext_cons _ _ _ hc,
        parseXml_GcnMcFileDb_loop_step pcre_compile n
          ⟨characters t, dbTokens is ++ tail⟩ ⟨characters t, dbTokens is ++ tail⟩
          m m log [] (by simp [characters]) (by simp [characters])
          (by unfold parseXml_GcnMcFileDb_body; simp [tokenType, characters]),
        List.append_nil]
      exact ih _ _ (by simpa [dbFiles] using hcont) _ n (by simp [characters]) hn
    | comment t =>
      have e1 : dbTokens (DbItem.comment t :: is) ++ tail =
          commentToken t :: (dbTokens is ++ tail) := by
        simp [dbTokens, DbItem.tokens]
      rw [e1, readNext_cons _ _ _ hc,
        parseXml_GcnMcFileDb_loop_step pcre_compile n
          ⟨commentToken t, dbTokens is ++ tail⟩ ⟨commentToken t, dbTokens is ++ tail⟩
          m m log [] (by simp [commentToken]) (by simp [commentToken])
          (by unfold parseXml_GcnMcFileDb_body; simp [tokenType, commentToken]),
        List.append_nil]
      exact ih _ _ (by simpa [dbFiles] using hcont) _ n (by simp [commentToken]) hn

/-- The records of a document that is cut short: the complete ones, then the one
that was being read. -/
theorem parseXml_GcnMcFileDb_truncated (items : List DbItem) (cut : Truncation) (e : Token)
    (rest : List Token) (m : AddrFileDefs) (he : e.type = .Invalid) :
    parseXml_GcnMcFileDb pcre_compile
        ⟨startElement (QLatin1String "GcnMcFileDb"),
          dbTokens items ++ (cut.tokens ++ e :: rest)⟩ m =
      .ok (⟨e, rest⟩,
        (((dbFiles items) ++ cut.record.toList).map (fileDef pcre_compile)).foldl addFile m,
        (((dbFiles items) ++ cut.record.toList).map (fileLog pcre_compile)).flatten) := by
  unfold parseXml_GcnMcFileDb
  have hg : ¬ ((⟨startElement (QLatin1String "GcnMcFileDb"),
        dbTokens items ++ (cut.tokens ++ e :: rest)⟩ : QXmlStreamReader).tokenType ≠
          .StartElement ∨
      (⟨startElement (QLatin1String "GcnMcFileDb"),
        dbTokens items ++ (cut.tokens ++ e :: rest)⟩ : QXmlStreamReader).name ≠
          QLatin1String "GcnMcFileDb") := by
    simp [tokenType, name, startElement]
  rw [if_neg hg]
  rw [parseXml_GcnMcFileDb_loop_items_then pcre_compile items _ _ 2 m []
    (parseXml_GcnMcFileDb_loop_cut pcre_compile cut e rest _ _ he) _ _
    (by simp [startElement])
    (by simp only [List.length_append, List.length_cons]; omega)]
  simp [List.foldl_append]

theorem load_loop_truncated (items : List DbItem) (cut : Truncation) (e : Token)
    (rest : List Token) (m : AddrFileDefs) (he : e.type = .Invalid) (fuel : Nat)
    (hfuel : 3 ≤ fuel) :
    load_loop pcre_compile fuel (onDevice (truncatedTokens items cut e rest)) m [] =
      .ok (⟨e, rest⟩,
        (((dbFiles items) ++ cut.record.toList).map (fileDef pcre_compile)).foldl addFile m,
        (((dbFiles items) ++ cut.record.toList).map (fileLog pcre_compile)).flatten) := by
  obtain ⟨n, rfl⟩ : ∃ n, fuel = n + 3 := ⟨fuel - 3, by omega⟩
  have h1 : load_body pcre_compile (onDevice (truncatedTokens items cut e rest)) m =
      .ok (⟨{ type := .StartDocument }, startElement (QLatin1String "GcnMcFileDb") ::
        (dbTokens items ++ (cut.tokens ++ e :: rest))⟩, m, []) := by
    simp [load_body, onDevice, truncatedTokens, readNext, tokenType]
  have h2 : load_body pcre_compile
      ⟨{ type := .StartDocument }, startElement (QLatin1String "GcnMcFileDb") ::
        (dbTokens items ++ (cut.tokens ++ e :: rest))⟩ m =
      .ok (⟨e, rest⟩,
        (((dbFiles items) ++ cut.record.toList).map (fileDef pcre_compile)).foldl addFile m,
        (((dbFiles items) ++ cut.record.toList).map (fileLog pcre_compile)).flatten) := by
    unfold load_body
    rw [readNext_cons _ _ _ (by simp)]
    rw [parseXml_GcnMcFileDb_truncated pcre_compile items cut e rest m he]
    simp [tokenType, name, startElement]
  rw [load_loop, h1]
  simp only [onDevice, atEnd, hasError]
  simp only [reduceCtorEq, or_self, decide_False, Bool.false_eq_true, not_false_eq_true,
    and_self, if_true]
  rw [load_loop, h2]
  simp only [atEnd, hasError]
  simp only [reduceCtorEq, or_self, decide_False, Bool.false_eq_true, not_false_eq_true,
    and_self, if_true]
  rw [load_loop]
  simp [atEnd, he]

/-- Loading a document that is cut short by an error returns -2 and leaves the index
of the complete records and of the record that was being read. -/
theorem load_truncated (fs : FileSystem) (d d0 : GcnMcFileDbPrivate) (filename : QString)
    (items : List DbItem) (cut : Truncation) (e : Token) (rest : List Token)
    (he : e.type = .Invalid) (hc : clear d = .ok d0)
    (hf : fs filename = some (truncatedTokens items cut e rest)) :
    load pcre_compile fs d filename =
      .ok (-2,
        { addr_file_defs :=
            (((dbFiles items) ++ cut.record.toList).map (fileDef pcre_compile)).foldl
              addFile [],
          errorString := load_errorString ⟨e, rest⟩ },
        (((dbFiles items) ++ cut.record.toList).map (fileLog pcre_compile)).flatten) := by
  have hd0 := clear_eq d d0 hc
  unfold load
  simp only [hc, hf]
  rw [hd0, load_loop_truncated pcre_compile items cut e rest [] he _
    (by simp only [truncatedTokens, List.length_cons]; omega)]
  simp [hasError, he]

/-- C21: a load that stops on an XML error is not atomic. When the reader reports an
error after the complete children `items` of the root, at the place `cut` of the
record that was being read (if any), `load` returns -2 with the error string of the
reader, and the index is the one built from the complete records in document order
followed by the record that was being read, with the fields read so far: each
bucket holds the complete records of its address in order and then that record if it
has the address, every one of these definitions is in the bucket of its address, and
the index is empty only when no record was complete and none was being read. -/
theorem C21_parse_error_leaves_partial_index (pcre_compile : QString → Option pcre)
    (fs : FileSystem) (d d0 : GcnMcFileDbPrivate) (filename : QString)
    (items : List DbItem) (cut : Truncation) (error : Token) (rest : List Token)
    (herror : error.type = .Invalid) (hclear : clear d = .ok d0)
    (hopen : fs filename = some (truncatedTokens items cut error rest)) :
    ∃ idx log,
      load pcre_compile fs d filename =
        .ok (-2, { addr_file_defs := idx, errorString := load_errorString ⟨error, rest⟩ },
          log) ∧
      idx = (((dbFiles items) ++ cut.record.toList).map (fileDef pcre_compile)).foldl
        addFile [] ∧
      log = (((dbFiles items) ++ cut.record.toList).map (fileLog pcre_compile)).flatten ∧
      (∀ a, idx.lookup a =
        ((dbFiles items).map (fileDef pcre_compile)).filter (fun f => f.search.address = a) ++
          (cut.record.toList.map (fileDef pcre_compile)).filter
            (fun f => f.search.address = a)) ∧
      (∀ r, r ∈ dbFiles items →
        fileDef pcre_compile r ∈ idx.lookup (fileDef pcre_compile r).search.address) ∧
      (∀ r, cut.record = some r →
        fileDef pcre_compile r ∈ idx.lookup (fileDef pcre_compile r).search.address) ∧
      ((dbFiles items ≠ [] ∨ cut.record ≠ none) → idx ≠ []) := by
  have hlookup : ∀ a, AddrFileDefs.lookup
      ((((dbFiles items) ++ cut.record.toList).map (fileDef pcre_compile)).foldl addFile [])
      a =
      ((dbFiles items).map (fileDef pcre_compile)).filter (fun f => f.search.address = a) ++
        (cut.record.toList.map (fileDef pcre_compile)).filter
          (fun f => f.search.address = a) := by
    intro a
    rw [AddrFileDefs.lookup_foldl_addFile]
    simp [AddrFileDefs.lookup, AddrFileDefs.value]
  have hmem1 : ∀ r, r ∈ dbFiles items →
      fileDef pcre_compile r ∈ AddrFileDefs.lookup
        ((((dbFiles items) ++ cut.record.toList).map (fileDef pcre_compile)).foldl addFile [])
        (fileDef pcre_compile r).search.address := by
    intro r hr
    rw [hlookup]
    exact List.mem_append_left _
      (List.mem_filter.2 ⟨List.mem_map.2 ⟨r, hr, rfl⟩, by simp⟩)
  have hmem2 : ∀ r, cut.record = some r →
      fileDef pcre_compile r ∈ AddrFileDefs.lookup
        ((((dbFiles items) ++ cut.record.toList).map (fileDef pcre_compile)).foldl addFile [])
        (fileDef pcre_compile r).search.address := by
    intro r hr
    rw [hlookup]
    exact List.mem_append_right _
      (List.mem_filter.2 ⟨List.mem_map.2 ⟨r, by simp [hr], rfl⟩, by simp⟩)
  refine ⟨_, _, load_truncated pcre_compile fs d d0 filename items cut error rest herror
    hclear hopen, rfl, rfl, hlookup, hmem1, hmem2, ?_⟩
  intro hne hidx
  have hnil : ∀ a, AddrFileDefs.lookup
      ((((dbFiles items) ++ cut.record.toList).map (fileDef pcre_compile)).foldl addFile [])
      a = [] := by
    intro a
    rw [hidx]
    simp [AddrFileDefs.lookup, AddrFileDefs.value]
  rcases hne with h | h
  · obtain ⟨r, rs, hrs⟩ := List.exists_cons_of_ne_nil h
    have := hmem1 r (by rw [hrs]; exact List.mem_cons_self _ _)
    rw [hnil] at this
    cases this
  · cases hr : cut.record with
    | none => exact h hr
    | some r =>
      have := hmem2 r hr
      rw [hnil] at this
      cases this

theorem C21_parse_error_leaves_partial_index_witness :
    (∃ idx log,
      load exampleCompile exampleTruncatedFs GcnMcFileDbPrivate.fresh
          (QLatin1String "cut-file.xml") =
        .ok (-2, { addr_file_defs := idx,
                   errorString := load_errorString ⟨exampleError, []⟩ }, log) ∧
      idx ≠ []) ∧
    load_errorString ⟨exampleError, []⟩ =
      QLatin1String "Opening and ending tag mismatch. (line 7, column 12)" ∧
    loadedKeys (load exampleCompile exampleTruncatedFs GcnMcFileDbPrivate.fresh
      (QLatin1String "cut-file.xml")) = some [0, 0x2000] ∧
    loadedGamecodes (load exampleCompile exampleTruncatedFs GcnMcFileDbPrivate.fresh
      (QLatin1String "cut-file.xml")) = some [QLatin1String "GALJ", QLatin1String "GALE"] ∧
    loadedKeys (load exampleCompile exampleTruncatedFs GcnMcFileDbPrivate.fresh
      (QLatin1String "cut-address.xml")) = some [0x30, 0x2000] ∧
    loadedGamecodes (load exampleCompile exampleTruncatedFs GcnMcFileDbPrivate.fresh
      (QLatin1String "cut-address.xml")) =
        some [QLatin1String "GALP", QLatin1String "GALE"] ∧
    loadedStatus (load exampleCompile exampleFs GcnMcFileDbPrivate.fresh
      (QLatin1String "broken.xml")) = some (-2) ∧
    loadedKeys (load exampleCompile exampleFs GcnMcFileDbPrivate.fresh
      (QLatin1String "broken.xml")) = some [0] :=
  match C21_parse_error_leaves_partial_index exampleCompile exampleTruncatedFs
    GcnMcFileDbPrivate.fresh GcnMcFileDbPrivate.fresh (QLatin1String "cut-file.xml")
    [exampleFile "first" "GALE" "0x2000" "^A" "^B"]
    (.inFile [.description (QLatin1String "second"), .gamecode (QLatin1String "GALJ")])
    exampleError [] rfl rfl rfl with
  | ⟨idx, log, h, _, _, _, _, _, hne⟩ =>
    ⟨⟨idx, log, h, hne (Or.inr (by simp [Truncation.record]))⟩, by decide, by decide,
      by decide, by decide, by decide, by decide, by decide⟩

end McRecover
